import Mathlib

/-!
# LEMP: ball bound and hybrid dispatcher

A shallow embedding of

* `mips::bound::BallBound` (`src/mips/my_mlpack/core/tree/ballbound.hpp`,
  `ballbound_impl.hpp`), and
* `ta::LX_Retriever` (`src/taLib/retrieval/mixed.h`) together with the parts of
  `ta::RetrievalArguments` (`src/taLib/structs/RetrievalArguments.h`) it drives.

`double` values are elements of a linearly ordered field `K`; every concrete evaluation
below takes `K = ℚ`.  The dispatcher and the policy of `operator|=` are read in exact
arithmetic (no rounding, no NaN, no infinities).  The distance methods of the ball bound,
`Contains` and the loop body of `operator|=` are translated a second time with the rounding
of every operation explicit (section "The ball bound in `double` arithmetic"), and evaluated
over the rounding to nearest of IEEE 754 binary64 on `ℚ`.
-/

namespace mips

/-! ## Collaborators of `BallBound` that live outside the translated files -/

namespace metric

/-- Modelled from the spec: `metric::EuclideanDistance::Evaluate` of
`core/metrics/lmetric.hpp`, which the sources do not contain.  The spec calls it the
true distance between two points; it is kept as a parameter `Evaluate` together with
the laws of a distance that comes from a norm (the Euclidean distance satisfies all of
them): it is non-negative, symmetric, obeys the triangle inequality, is invariant under
translation and scales with the absolute value of a scalar factor. -/
structure EuclideanDistance (K V : Type) [LinearOrderedField K] [AddCommGroup V]
    [Module K V] where
  Evaluate : V → V → K
  nonneg : ∀ a b, 0 ≤ Evaluate a b
  symm : ∀ a b, Evaluate a b = Evaluate b a
  triangle : ∀ a b c, Evaluate a c ≤ Evaluate a b + Evaluate b c
  translate : ∀ a b t, Evaluate (a + t) (b + t) = Evaluate a b
  scale : ∀ (k : K) a b, Evaluate (k • a) (k • b) = |k| * Evaluate a b

/-- The Euclidean distance of one-dimensional rational points, `sqrt ((a - b)^2) = |a - b|`:
the instance at which the development is evaluated. -/
def line : EuclideanDistance ℚ ℚ where
  Evaluate := fun a b => |a - b|
  nonneg := fun a b => abs_nonneg (a - b)
  symm := fun a b => abs_sub_comm a b
  triangle := fun a b c => abs_sub_le a b c
  translate := fun a b t => by simp
  scale := fun k a b => by
    simp only [smul_eq_mul]
    rw [← mul_sub, abs_mul]

end metric

namespace math

/-- Modelled from the spec: `math::ClampNonNegative` of `core/math/clamp.hpp`, which the
sources do not contain; the spec writes the clamped value as `max(0, d)`. -/
def ClampNonNegative {K : Type} [LinearOrderedField K] (d : K) : K :=
  max 0 d

/-- The pair `math::Range(lo, hi)` that `RangeDistance` returns (`core/math/range.hpp`,
not part of the sources): only the two stored ends are used. -/
structure Range (K : Type) where
  lo : K
  hi : K
deriving DecidableEq

end math

/-- The constant `DBL_MAX` of `<cfloat>`: the largest finite `double`,
`(2 - 2^(-52)) * 2^1023 = (2^53 - 1) * 2^971`. -/
def DBL_MAX {K : Type} [LinearOrderedField K] : K :=
  (2 ^ 53 - 1) * 2 ^ 971

namespace bound

open metric math

/-- The class `BallBound<VecType>`: its two data members.  `VecType` is the template
parameter `V`. -/
structure BallBound (K V : Type) where
  radius : K
  center : V
deriving DecidableEq

namespace BallBound

variable {K V : Type} [LinearOrderedField K] [AddCommGroup V] [Module K V]

/-- The constructors `BallBound() : radius(0)` and
`BallBound(dimension) : radius(0), center(dimension)`: the radius is set to `0`; the
contents `c` of the freshly allocated center are whatever the vector type puts there. -/
def fresh (c : V) : BallBound K V :=
  { radius := 0, center := c }

/-- The method `BallBound::Contains(point)`, on the true distance. -/
def Contains (m : EuclideanDistance K V) (b : BallBound K V) (point : V) : Bool :=
  if b.radius < 0 then
    false
  else
    decide (m.Evaluate b.center point ≤ b.radius)

/-- The method `BallBound::MinDistance(const VecType& point)`, in exact arithmetic. -/
def MinDistance (m : EuclideanDistance K V) (b : BallBound K V) (point : V) : K :=
  if b.radius < 0 then
    DBL_MAX
  else
    ClampNonNegative (m.Evaluate point b.center - b.radius)

/-- The method `BallBound::MaxDistance(const VecType& point)`, in exact arithmetic. -/
def MaxDistance (m : EuclideanDistance K V) (b : BallBound K V) (point : V) : K :=
  if b.radius < 0 then
    DBL_MAX
  else
    m.Evaluate point b.center + b.radius

/-- One pass of the body of the `for` loop of `operator|=` for the column `p`, in exact
arithmetic: `dist = Evaluate(center, p) - radius`; when `dist > 0`,
`center += 0.5 * (p - center)` and `radius += 0.5 * dist`. -/
def growStep (m : EuclideanDistance K V) (b : BallBound K V) (p : V) : BallBound K V :=
  let dist := m.Evaluate b.center p - b.radius
  if dist > 0 then
    let diff := p - b.center
    { radius := b.radius + (1 / 2) * dist, center := b.center + (1 / 2 : K) • diff }
  else
    b

/-- The `for (size_t i = 1; i < data.n_cols; ++i)` loop of `operator|=` over the columns it
visits, in order. -/
def growLoop (m : EuclideanDistance K V) : BallBound K V → List V → BallBound K V
  | b, [] => b
  | b, p :: ps => growLoop m (growStep m b p) ps

/-- The method `BallBound::operator|=(const MatType& data)`; `data` is the list of the matrix's columns.
With `radius < 0` the bound is seeded from `data.col(0)`, which does not exist for a matrix
without columns: that access is the one failure, `none`.  The loop then starts at column
`1`, whether or not the bound was seeded. -/
def operatorOrAssign (m : EuclideanDistance K V) (b : BallBound K V) (data : List V) :
    Option (BallBound K V) :=
  if b.radius < 0 then
    match data with
    | [] => none
    | col0 :: _ => some (growLoop m { radius := 0, center := col0 } (data.drop 1))
  else
    some (growLoop m b (data.drop 1))

end BallBound

end bound

end mips

namespace ta

/-! ## Data the dispatcher works on

`TIME_IT` is taken as not defined: the timer calls of `mixed.h` are instrumentation.  The
integer types `row_type`, `col_type` and `int` are natural numbers; sizes are assumed to
stay below the machine limits, so no product of a position with `k` wraps around. -/

/-- An entry `QueueElement` of the top-k buffers: the score `data` and the probe row `id`
(`mixed.h` reads `arg->topkResults[i].data`). -/
structure QueueElement (K : Type) where
  data : K
  id : Nat
deriving DecidableEq

instance {K : Type} [LinearOrderedField K] : Inhabited (QueueElement K) :=
  ⟨{ data := 0, id := 0 }⟩

/-- The members of `ProbeBucket` (`structs/ProbeBucket.h`, not part of the sources) that
`LX_Retriever` reads: the norm range `normL2 = (first, second)`, the scan threshold, the
tuned ratio `t_b` and `numLists`.  The retrievers receive the bucket by reference; the spec
has these members written by the tuner only, so one bucket value serves a whole pass. -/
structure ProbeBucket (K : Type) where
  normL2 : K × K
  bucketScanThreshold : K
  t_b : K
  numLists : Nat
deriving DecidableEq

/-- The members of `QueryBucket_withTuning` (`structs/QueryBatch.h`, not part of the sources)
that `LX_Retriever` reads and writes.  `queues` stands for the storage that `preprocess`
builds and `getQueue` points into. -/
structure QueryBatch (K : Type) where
  startPos : Nat
  endPos : Nat
  rowNum : Nat
  normL2 : K × K
  inactiveQueries : List Bool
  inactiveCounter : Nat
  initializedQueues : Bool
  queues : List Nat
deriving DecidableEq

instance {K : Type} [LinearOrderedField K] : Inhabited (QueryBatch K) :=
  ⟨{ startPos := 0, endPos := 0, rowNum := 0, normL2 := (0, 0), inactiveQueries := [],
     inactiveCounter := 0, initializedQueues := false, queues := [] }⟩

/-- The pointer `queryBatch.getQueue(pos, maxLists)`: the queue of the query at local
position `pos` of the batch with index `batch`, for `maxLists` lists. -/
structure QueuePtr where
  batch : Nat
  pos : Nat
  maxLists : Nat
deriving DecidableEq

/-- The members of `VectorMatrix` (not part of the sources) that `LX_Retriever` reads from
`arg->queryMatrix`: the row `getMatrixRowPtr(r)` with its coordinates, the length stored in
front of it (`query[-1]`), the external id `getId(r)` and `gammaEquivalents[r]`.  The matrix
is immutable; a row pointer handed to a retriever is given by its row number. -/
structure VectorMatrix (K : Type) where
  colNum : Nat
  rowNum : Nat
  getMatrixRowPtr : Nat → Fin colNum → K
  length : Nat → K
  getId : Nat → Nat
  gammaEquivalents : Nat → K

/-- The members of `RetrievalArguments` that `LX_Retriever` and the two heap copies use.
`gamma` and `currGammaAppr` are the names `mixed.h` uses under `RELATIVE_APPROX` and
`ABS_APPROX`. -/
structure RetrievalArguments (K : Type) where
  topkResults : List (QueueElement K)
  heap : List (QueueElement K)
  queryBatches : List (QueryBatch K)
  listsQueue : Option QueuePtr
  k : Nat
  gamma : K
  currGammaAppr : K
  queryId : Nat
  maxLists : Nat
  numLists : Nat
deriving DecidableEq

namespace RetrievalArguments

variable {K : Type} [LinearOrderedField K]

/-- The method `RetrievalArguments::moveTopkToHeap(pos)`:
`std::copy(topkResults.begin() + pos, topkResults.begin() + pos + k, heap.begin())`. -/
def moveTopkToHeap (arg : RetrievalArguments K) (pos : Nat) : RetrievalArguments K :=
  { arg with heap := (arg.topkResults.drop pos).take arg.k ++ arg.heap.drop arg.k }

/-- The method `RetrievalArguments::writeHeapToTopk(queryPos)`: with `p = queryPos * k`,
`std::copy(heap.begin(), heap.end(), topkResults.begin() + p)`. -/
def writeHeapToTopk (arg : RetrievalArguments K) (queryPos : Nat) : RetrievalArguments K :=
  let p := queryPos * arg.k
  { arg with
    topkResults := arg.topkResults.take p ++ arg.heap ++ arg.topkResults.drop (p + arg.heap.length) }

/-- The method `RetrievalArguments::setQueues(queue)`. -/
def setQueues (arg : RetrievalArguments K) (queue : QueuePtr) : RetrievalArguments K :=
  { arg with listsQueue := some queue }

end RetrievalArguments

/-- The entry points of a `Retriever` (`LengthRetriever` and the template parameter `X`,
neither part of the sources) that `LX_Retriever` calls.  Each receives the retrieval
arguments and may change any of their members.  A query pointer is given by the row number,
a query batch by its index in `arg->queryBatches`. -/
structure Retriever (K : Type) where
  run : Nat → ProbeBucket K → RetrievalArguments K → RetrievalArguments K
  runBatch : Nat → ProbeBucket K → RetrievalArguments K → RetrievalArguments K
  runTopK : Nat → ProbeBucket K → RetrievalArguments K → RetrievalArguments K
  runTopKBucket : ProbeBucket K → RetrievalArguments K → RetrievalArguments K

/-- The compile-time choice between the exact comparison and the two approximations of
`runTopK` (`#ifdef RELATIVE_APPROX`, `#else #ifdef ABS_APPROX`). -/
inductive ApproxMode where
  | exact
  | RELATIVE_APPROX
  | ABS_APPROX
deriving DecidableEq

/-- The class `LX_Retriever<X>` with what it is compiled and run against: its two members
`plainRetriever` and `otherRetriever`, the query matrix `arg->queryMatrix`, the method
`QueryBucket_withTuning::preprocess(queryMatrix, maxLists)` of the query batches, and the
approximation mode. -/
structure LX_Retriever (K : Type) where
  plainRetriever : Retriever K
  otherRetriever : Retriever K
  queryMatrix : VectorMatrix K
  preprocess : QueryBatch K → Nat → QueryBatch K
  mode : ApproxMode

/-- A call the dispatcher makes, with its arguments, as recorded in the call log. -/
inductive Call where
  | plainRunTopKBucket
  | moveTopkToHeap (pos : Nat)
  | plainRunTopK (user : Nat)
  | preprocess (batch : Nat)
  | setQueues (queue : QueuePtr)
  | otherRunTopK (user : Nat)
  | writeHeapToTopk (queryPos : Nat)
  | plainRunBatch (batch : Nat)
  | otherRunBatch (batch : Nat)
  | plainRun (user : Nat)
  | otherRun (user : Nat)
deriving DecidableEq

/-- The state a dispatcher run threads through: the retrieval arguments and the log of the
calls made so far, oldest first.  The log is not visible to the retrievers. -/
structure Machine (K : Type) where
  arg : RetrievalArguments K
  calls : List Call
deriving DecidableEq

namespace LX_Retriever

variable {K : Type} [LinearOrderedField K]

/-- The query batch that the reference `queryBatch` of the range-`for` loops stands for: the
element with index `bi` of `arg->queryBatches`, read from the current arguments. -/
def batchAt (arg : RetrievalArguments K) (bi : Nat) : QueryBatch K :=
  arg.queryBatches.getD bi default

/-- A write through the reference `queryBatch`: the element with index `bi` of
`arg->queryBatches` is replaced. -/
def setBatch (arg : RetrievalArguments K) (bi : Nat) (qb : QueryBatch K) :
    RetrievalArguments K :=
  { arg with queryBatches := arg.queryBatches.set bi qb }

/-- The read `queryBatch.inactiveQueries[pos]`. -/
def inactiveAt (qb : QueryBatch K) (pos : Nat) : Bool :=
  qb.inactiveQueries.getD pos false

/-- The value of `minScoreAppr` in `runTopK` after the approximation block, for the row
`user` and the score `minScore` read from the top-k buffer. -/
def minScoreAppr (L : LX_Retriever K) (arg : RetrievalArguments K) (user : Nat)
    (minScore : K) : K :=
  match L.mode with
  | ApproxMode.exact => minScore
  | ApproxMode.RELATIVE_APPROX =>
    if minScore ≥ 0 then minScore * (1 + arg.gamma) else minScore * (1 - arg.gamma)
  | ApproxMode.ABS_APPROX => minScore + L.queryMatrix.gammaEquivalents user

/-- The write to `arg->currGammaAppr` that the approximation block of `runTopK` makes. -/
def setGammaAppr (L : LX_Retriever K) (arg : RetrievalArguments K) (user : Nat)
    (minScore : K) : RetrievalArguments K :=
  match L.mode with
  | ApproxMode.exact => arg
  | ApproxMode.RELATIVE_APPROX =>
    if minScore ≥ 0 then { arg with currGammaAppr := 1 + arg.gamma }
    else { arg with currGammaAppr := 1 - arg.gamma }
  | ApproxMode.ABS_APPROX =>
    { arg with currGammaAppr := L.queryMatrix.gammaEquivalents user }

/-- The lazy `if (!queryBatch.initializedQueues) { queryBatch.preprocess(...);
queryBatch.initializedQueues = true; }` of `run` and `runTopK`, on the batch `bi`. -/
def lazyPreprocess (L : LX_Retriever K) (bi : Nat) (s : Machine K) : Machine K :=
  if (batchAt s.arg bi).initializedQueues then
    s
  else
    { arg := setBatch s.arg bi
        { L.preprocess (batchAt s.arg bi) s.arg.maxLists with initializedQueues := true },
      calls := s.calls ++ [Call.preprocess bi] }

/-- The `else` branch of the strategy choice, in `run` and `runTopK` alike: the queue of
the query at row `user` of batch `bi` is fetched with `getQueue(user - startPos, maxLists)`
and handed to `arg->setQueues`. -/
def setLocalQueue (bi user : Nat) (s : Machine K) : Machine K :=
  let queue : QueuePtr :=
    { batch := bi, pos := user - (batchAt s.arg bi).startPos, maxLists := s.arg.maxLists }
  { arg := s.arg.setQueues queue, calls := s.calls ++ [Call.setQueues queue] }

/-- One pass of the body of the inner `for` loop of `runTopK` (lines 125-188), for the
batch `bi`, the offset `i` and the row `user`.  The two increments (`user++`, `i += k`)
belong to `runTopKLoop`. -/
def runTopKQuery (L : LX_Retriever K) (probeBucket : ProbeBucket K) (bi i user : Nat)
    (s : Machine K) : Machine K :=
  if inactiveAt (batchAt s.arg bi) (user - (batchAt s.arg bi).startPos) then
    s
  else
    let minScore := (s.arg.topkResults.getD i default).data
    let appr := minScoreAppr L s.arg user minScore
    let arg1 := setGammaAppr L s.arg user minScore
    if probeBucket.normL2.2 < appr then
      let qb := batchAt arg1 bi
      { arg := setBatch arg1 bi
          { qb with
            inactiveQueries := qb.inactiveQueries.set (user - qb.startPos) true,
            inactiveCounter := qb.inactiveCounter + 1 },
        calls := s.calls }
    else
      let s2 : Machine K :=
        { arg := { arg1.moveTopkToHeap i with queryId := L.queryMatrix.getId user },
          calls := s.calls ++ [Call.moveTopkToHeap i] }
      let s3 : Machine K :=
        if probeBucket.t_b * probeBucket.normL2.2 > minScore then
          { arg := L.plainRetriever.runTopK user probeBucket s2.arg,
            calls := s2.calls ++ [Call.plainRunTopK user] }
        else
          let s4 := setLocalQueue bi user (lazyPreprocess L bi s2)
          { arg := L.otherRetriever.runTopK user probeBucket s4.arg,
            calls := s4.calls ++ [Call.otherRunTopK user] }
      { arg := s3.arg.writeHeapToTopk user, calls := s3.calls ++ [Call.writeHeapToTopk user] }

/-- The inner loop `for (row_type i = start; i < end; i += arg->k)` of `runTopK` together
with the counter `user`; `stop` is the value of `end`.  Every pass uses one unit of `fuel`;
`none` means that the fuel ran out before the loop condition failed. -/
def runTopKLoop (L : LX_Retriever K) (probeBucket : ProbeBucket K) (bi stop : Nat) :
    Nat → Nat → Nat → Machine K → Option (Machine K)
  | 0, i, _, s => if i < stop then none else some s
  | fuel + 1, i, user, s =>
    if i < stop then
      let s1 := runTopKQuery L probeBucket bi i user s
      runTopKLoop L probeBucket bi stop fuel (i + s1.arg.k) (user + 1) s1
    else
      some s

/-- The body of the loop over the query batches in `runTopK`, for the batch `bi`
(lines 117-190). -/
def runTopKBatch (L : LX_Retriever K) (probeBucket : ProbeBucket K) (fuel bi : Nat)
    (s : Machine K) : Option (Machine K) :=
  let queryBatch := batchAt s.arg bi
  if queryBatch.inactiveCounter = queryBatch.rowNum then
    some s
  else
    let user := queryBatch.startPos
    let start := queryBatch.startPos * s.arg.k
    let stop := queryBatch.endPos * s.arg.k
    runTopKLoop L probeBucket bi stop fuel start user s

/-- The loop `for (auto& queryBatch : arg->queryBatches)` of `runTopK` over the batch
indices still to visit. -/
def runTopKBatches (L : LX_Retriever K) (probeBucket : ProbeBucket K) (fuel : Nat) :
    List Nat → Machine K → Option (Machine K)
  | [], s => some s
  | bi :: rest, s =>
    match runTopKBatch L probeBucket fuel bi s with
    | none => none
    | some s1 => runTopKBatches L probeBucket fuel rest s1

/-- The method `LX_Retriever::runTopK(ProbeBucket&, RetrievalArguments*)`.  The range-`for` fixes the
range of batches when it starts.  `fuel` bounds the passes of each inner loop. -/
def runTopK (L : LX_Retriever K) (probeBucket : ProbeBucket K) (fuel : Nat) (s : Machine K) :
    Option (Machine K) :=
  if probeBucket.t_b = 1 then
    some { arg := L.plainRetriever.runTopKBucket probeBucket s.arg,
           calls := s.calls ++ [Call.plainRunTopKBucket] }
  else
    let s1 : Machine K := { s with arg := { s.arg with numLists := probeBucket.numLists } }
    runTopKBatches L probeBucket fuel (List.range s1.arg.queryBatches.length) s1

/-- The per-query loop `for (row_type i = queryBatch.startPos; i < queryBatch.endPos; ++i)`
of `run` (lines 225-241) for the batch `bi`, from the row `i` on.  Every pass uses one unit
of `fuel`; `none` means that the fuel ran out before the loop ended. -/
def runQueryLoop (L : LX_Retriever K) (probeBucket : ProbeBucket K) (bi : Nat) :
    Nat → Nat → Machine K → Option (Machine K)
  | 0, i, s => if i < (batchAt s.arg bi).endPos then none else some s
  | fuel + 1, i, s =>
    if i < (batchAt s.arg bi).endPos then
      if L.queryMatrix.length i < probeBucket.bucketScanThreshold then
        some s
      else
        let s1 : Machine K := { s with arg := { s.arg with queryId := L.queryMatrix.getId i } }
        let s2 : Machine K :=
          if probeBucket.t_b * L.queryMatrix.length i > probeBucket.bucketScanThreshold then
            { arg := L.plainRetriever.run i probeBucket s1.arg,
              calls := s1.calls ++ [Call.plainRun i] }
          else
            let s3 := setLocalQueue bi i s1
            { arg := L.otherRetriever.run i probeBucket s3.arg,
              calls := s3.calls ++ [Call.otherRun i] }
        runQueryLoop L probeBucket bi fuel (i + 1) s2
    else
      some s

/-- The loop `for (auto& queryBatch : arg->queryBatches)` of `run` (lines 198-243) over the
batch indices still to visit; the `break` of line 201 ends it. -/
def runBatches (L : LX_Retriever K) (probeBucket : ProbeBucket K) (fuel : Nat) :
    List Nat → Machine K → Option (Machine K)
  | [], s => some s
  | bi :: rest, s =>
    let queryBatch := batchAt s.arg bi
    if queryBatch.normL2.2 < probeBucket.bucketScanThreshold then
      some s
    else if probeBucket.t_b = 1 ∨
        probeBucket.t_b * queryBatch.normL2.1 > probeBucket.bucketScanThreshold then
      runBatches L probeBucket fuel rest
        { arg := L.plainRetriever.runBatch bi probeBucket s.arg,
          calls := s.calls ++ [Call.plainRunBatch bi] }
    else if probeBucket.t_b * queryBatch.normL2.2 ≤ probeBucket.bucketScanThreshold then
      runBatches L probeBucket fuel rest
        { arg := L.otherRetriever.runBatch bi probeBucket s.arg,
          calls := s.calls ++ [Call.otherRunBatch bi] }
    else
      let s1 := lazyPreprocess L bi s
      match runQueryLoop L probeBucket bi fuel (batchAt s1.arg bi).startPos s1 with
      | none => none
      | some s2 => runBatches L probeBucket fuel rest s2

/-- The method `LX_Retriever::run(ProbeBucket&, RetrievalArguments*)`.  The range-`for` fixes the range
of batches when it starts.  `fuel` bounds the passes of each per-query loop. -/
def run (L : LX_Retriever K) (probeBucket : ProbeBucket K) (fuel : Nat) (s : Machine K) :
    Option (Machine K) :=
  let s1 : Machine K := { s with arg := { s.arg with numLists := probeBucket.numLists } }
  runBatches L probeBucket fuel (List.range s1.arg.queryBatches.length) s1

/-! ## Vocabulary of the statements about the call log -/

/-- The calls `runTopK` makes between `moveTopkToHeap` and `writeHeapToTopk` for the row
`user` of batch `bi`: the one call of the baseline, or the one call of the alternative after
that query's own queue has been set, with the lazy `preprocess` of the batch in front when
the queues were not yet built. -/
def IsStrategyCalls (bi user : Nat) (mid : List Call) : Prop :=
  mid = [Call.plainRunTopK user] ∨
  ∃ q : QueuePtr, q.batch = bi ∧
    (mid = [Call.setQueues q, Call.otherRunTopK user] ∨
     mid = [Call.preprocess bi, Call.setQueues q, Call.otherRunTopK user])

/-- The calls of one scanned query: `moveTopkToHeap` at the offset `k * user`, the calls
`mid` of the chosen strategy, `writeHeapToTopk` at the position `user`. -/
def scanBlock (k : Nat) (scan : Nat × List Call) : List Call :=
  Call.moveTopkToHeap (k * scan.1) :: scan.2 ++ [Call.writeHeapToTopk scan.1]

/-- The retrievers' per-query top-k entry points and `preprocess` leave alone what the
dispatcher's loop control reads: the former do not write `k` or the query batches, the
latter keeps a batch's `startPos`, `endPos` and `inactiveQueries`. -/
def KeepsLoopControl (L : LX_Retriever K) : Prop :=
  (∀ user pb arg, (L.plainRetriever.runTopK user pb arg).k = arg.k ∧
    (L.plainRetriever.runTopK user pb arg).queryBatches = arg.queryBatches) ∧
  (∀ user pb arg, (L.otherRetriever.runTopK user pb arg).k = arg.k ∧
    (L.otherRetriever.runTopK user pb arg).queryBatches = arg.queryBatches) ∧
  (∀ qb maxLists, (L.preprocess qb maxLists).startPos = qb.startPos ∧
    (L.preprocess qb maxLists).endPos = qb.endPos ∧
    (L.preprocess qb maxLists).inactiveQueries = qb.inactiveQueries)

/-- The loop control of `arg1` is that of `arg`: the same `k`, for every batch the same
`startPos` and `endPos`, and no flag that is set in `arg` is clear in `arg1`. -/
def ControlKept (arg arg1 : RetrievalArguments K) : Prop :=
  arg1.k = arg.k ∧
  ∀ bj, (batchAt arg1 bj).startPos = (batchAt arg bj).startPos ∧
    (batchAt arg1 bj).endPos = (batchAt arg bj).endPos ∧
    ∀ pos, inactiveAt (batchAt arg1 bj) pos = false → inactiveAt (batchAt arg bj) pos = false

end LX_Retriever

/-! ## A worked example: one batch of four queries, `k = 2` -/

namespace demo

/-- A baseline for the example: its per-query top-k scan puts the entry `(9, row)` at the
root of the scratch heap; its other entry points change nothing. -/
def plain : Retriever ℚ where
  run := fun _ _ arg => arg
  runBatch := fun _ _ arg => arg
  runTopK := fun user _ arg => { arg with heap := { data := 9, id := user } :: arg.heap.drop 1 }
  runTopKBucket := fun _ arg => arg

/-- An alternative for the example: its per-query top-k scan puts the entry `(7, row)` at
the root of the scratch heap; its other entry points change nothing. -/
def other : Retriever ℚ where
  run := fun _ _ arg => arg
  runBatch := fun _ _ arg => arg
  runTopK := fun user _ arg => { arg with heap := { data := 7, id := user } :: arg.heap.drop 1 }
  runTopKBucket := fun _ arg => arg

/-- The query matrix of the example: every row is the unit vector `(3/5, 4/5)`; the stored
lengths are `8`, `1`, `1/2`, `1/2`, ... and the id of row `r` is `100 + r`. -/
def queryMatrix : VectorMatrix ℚ where
  colNum := 2
  rowNum := 4
  getMatrixRowPtr := fun _ j => if j.val = 0 then 3 / 5 else 4 / 5
  length := fun r => if r = 0 then 8 else if r = 1 then 1 else 1 / 2
  getId := fun r => 100 + r
  gammaEquivalents := fun _ => 0

/-- The dispatcher of the example, in exact mode; `preprocess` fills the batch's queue
storage. -/
def retriever : LX_Retriever ℚ where
  plainRetriever := plain
  otherRetriever := other
  queryMatrix := queryMatrix
  preprocess := fun qb maxLists => { qb with queues := List.replicate maxLists 0 }
  mode := ApproxMode.exact

/-- The probe bucket of the example: norms in `[1, 2]`, scan threshold `1`, tuned ratio
`1/4`. -/
def bucket : ProbeBucket ℚ where
  normL2 := (1, 2)
  bucketScanThreshold := 1
  t_b := 1 / 4
  numLists := 3

/-- The query batch of the example: rows `0..3`; the flag of row `0` is set. -/
def batch : QueryBatch ℚ where
  startPos := 0
  endPos := 4
  rowNum := 4
  normL2 := (1 / 2, 8)
  inactiveQueries := [true, false, false, false]
  inactiveCounter := 1
  initializedQueues := false
  queues := []

/-- The retrieval arguments of the example.  The first slots of the four top-k ranges hold
the scores `5`, `5`, `1` and `1/4`. -/
def arguments : RetrievalArguments ℚ where
  topkResults :=
    [{ data := 5, id := 1 }, { data := 6, id := 2 }, { data := 5, id := 10 },
     { data := 6, id := 11 }, { data := 1, id := 20 }, { data := 3, id := 21 },
     { data := 1 / 4, id := 30 }, { data := 2, id := 31 }]
  heap := [{ data := 0, id := 0 }, { data := 0, id := 0 }]
  queryBatches := [batch]
  listsQueue := none
  k := 2
  gamma := 0
  currGammaAppr := 0
  queryId := 0
  maxLists := 3
  numLists := 0

/-- The start state of the example: nothing has been called yet. -/
def start : Machine ℚ where
  arg := arguments
  calls := []

end demo

end ta

namespace mips

namespace bound

namespace BallBound

open metric

variable {K V : Type} [LinearOrderedField K] [AddCommGroup V] [Module K V]

end BallBound

end bound

end mips

namespace ta

namespace RetrievalArguments

variable {K : Type} [LinearOrderedField K]

/-- The effect of `std::vector::resize(n)` on a buffer of entries: the first `n` entries
stay, and a shorter buffer is filled up with value-initialised entries. -/
def resize (buffer : List (QueueElement K)) (n : Nat) : List (QueueElement K) :=
  buffer.take n ++ List.replicate (n - buffer.length) default

/-- The method `RetrievalArguments::allocTopkResults()`: `heap.resize(k)` and
`topkResults.resize(queryMatrix->rowNum * k)`; `rowNum` is `queryMatrix->rowNum`. -/
def allocTopkResults (arg : RetrievalArguments K) (rowNum : Nat) : RetrievalArguments K :=
  { arg with heap := resize arg.heap arg.k,
             topkResults := resize arg.topkResults (rowNum * arg.k) }

end RetrievalArguments

end ta

namespace ta

/-! ## Unsupported entry points and the method-specific state -/

/-- The end of the process by `exit(status)`, with what was written to `std::cout`
before. -/
structure Exit where
  output : String
  status : Nat
deriving DecidableEq

namespace LX_Retriever

variable {K : Type} [LinearOrderedField K]

/-- The method `LX_Retriever::run(const double* query, ProbeBucket&, RetrievalArguments*)`
(lines 41-44): it prints the diagnostic and calls `exit(1)`. -/
def runSingleQuery (_L : LX_Retriever K) (_query : Nat) (_probeBucket : ProbeBucket K)
    (_s : Machine K) : Except Exit (Machine K) :=
  Except.error
    { output := "You should not call run for single query on LEMP_LI\n", status := 1 }

/-- The method `LX_Retriever::run(QueryBucket_withTuning&, ProbeBucket&,
RetrievalArguments*)` (lines 46-49): it prints the diagnostic and calls `exit(1)`. -/
def runQueryBatch (_L : LX_Retriever K) (_queryBatch : QueryBatch K)
    (_probeBucket : ProbeBucket K) (_s : Machine K) : Except Exit (Machine K) :=
  Except.error
    { output := "You should not call run for single query on LEMP_LI\n", status := 1 }

/-- The method `LX_Retriever::runTopK(const double* query, ProbeBucket&,
RetrievalArguments*)` (lines 51-54): it prints the diagnostic and calls `exit(1)`. -/
def runTopKSingleQuery (_L : LX_Retriever K) (_query : Nat) (_probeBucket : ProbeBucket K)
    (_s : Machine K) : Except Exit (Machine K) :=
  Except.error
    { output := "You should not call run for single query on LEMP_LI\n", status := 1 }

/-- The method `LX_Retriever::runTopK(QueryBucket_withTuning&, ProbeBucket&,
RetrievalArguments*)` (lines 56-59): it prints the diagnostic and calls `exit(1)`. -/
def runTopKQueryBatch (_L : LX_Retriever K) (_queryBatch : QueryBatch K)
    (_probeBucket : ProbeBucket K) (_s : Machine K) : Except Exit (Machine K) :=
  Except.error
    { output := "You should not call run for single query on LEMP_LI\n", status := 1 }

end LX_Retriever

/-- The values of the enumeration `LEMP_Method` (declared outside the translated files) that
`RetrievalArguments.h` names. -/
inductive LEMP_Method where
  | LEMP_L
  | LEMP_LI
  | LEMP_I
  | LEMP_LC
  | LEMP_C
  | LEMP_AP
  | LEMP_LSH
  | LEMP_TA
  | LEMP_TANRA
deriving DecidableEq

/-- The method-specific pointer members of `RetrievalArguments`, each given by whether it is
non-null, together with the configured `method` and `isTARR`. -/
structure AuxiliaryState where
  method : LEMP_Method
  isTARR : Bool
  state : Bool
  tanraState : Bool
  cp_array : Bool
  ext_cp_array : Bool
  candidatesToVerify : Bool
  hashlen : Bool
  hashwgt : Bool
  sketches : Bool
  rig : Bool
deriving DecidableEq

namespace AuxiliaryState

/-- The constructor `RetrievalArguments(colnum, queryMatrix, probeMatrix, method, forCosine,
isTARR)` (lines 92-99): every method-specific pointer is initialised with `nullptr`. -/
def construct (method : LEMP_Method) (isTARR : Bool) : AuxiliaryState :=
  { method := method, isTARR := isTARR, state := false, tanraState := false,
    cp_array := false, ext_cp_array := false, candidatesToVerify := false,
    hashlen := false, hashwgt := false, sketches := false, rig := false }

/-- The method `RetrievalArguments::init(maxProbeBucketSize)` (lines 201-254), as far as it
assigns the method-specific pointers; every `new` yields a non-null pointer. -/
def init (a : AuxiliaryState) : AuxiliaryState :=
  let a1 :=
    if a.method = LEMP_Method.LEMP_LI ∨ a.method = LEMP_Method.LEMP_I then
      { a with ext_cp_array := true }
    else a
  let a2 :=
    if a1.method = LEMP_Method.LEMP_LI ∨ a1.method = LEMP_Method.LEMP_I ∨
        a1.method = LEMP_Method.LEMP_LC ∨ a1.method = LEMP_Method.LEMP_C ∨
        a1.method = LEMP_Method.LEMP_AP ∨ a1.method = LEMP_Method.LEMP_LSH then
      { a1 with candidatesToVerify := true }
    else a1
  let a3 :=
    if a2.method = LEMP_Method.LEMP_AP then { a2 with hashlen := true, hashwgt := true }
    else a2
  let a4 :=
    if a3.method = LEMP_Method.LEMP_LC ∨ a3.method = LEMP_Method.LEMP_C then
      { a3 with cp_array := true }
    else a3
  let a5 := if a4.method = LEMP_Method.LEMP_TA then { a4 with state := true } else a4
  let a6 :=
    if a5.method = LEMP_Method.LEMP_TANRA then
      { a5 with tanraState := true, candidatesToVerify := true }
    else a5
  if a6.method = LEMP_Method.LEMP_LSH then { a6 with rig := true, sketches := true } else a6

/-- The number of method-specific pointers that are non-null. -/
def nonNullCount (a : AuxiliaryState) : Nat :=
  [a.state, a.tanraState, a.cp_array, a.ext_cp_array, a.candidatesToVerify, a.hashlen,
    a.hashwgt, a.sketches, a.rig].count true

end AuxiliaryState

end ta

namespace ta

/-! ## Tuning

The tuning passes of `plainRetriever` and `otherRetriever` are not part of the sources: they
are parameters that may change any member of the tuning state.  An exception thrown by
`xValues->at(...)` ends the call without a result, `none`. -/

/-- An entry `MatItem` of the sample table `xValues`, with the members `mixed.h` reads:
`result`, `i` (the thread) and `j` (the position in the matrix). -/
structure MatItem (K : Type) where
  result : K
  i : Nat
  j : Nat
deriving DecidableEq

/-- The members of `otherRetriever.dataForTuning` that `LX_Retriever` reads. -/
structure TuneData (K : Type) where
  bestTime : K
  t_b_indx : Nat
  bestPhi : Int
deriving DecidableEq

/-- Modelled from the spec: the `TuningOutcome` of a probe bucket,
`{ thresholdRatio, chosenValue }`, written by the tuner. -/
structure TuningOutcome (K : Type) where
  thresholdRatio : K
  chosenValue : K
deriving DecidableEq

/-- What `tune` and `tuneTopk` read and write: the sample table `xValues` of the dispatcher
and the copies of the pointer held by the two retrievers, `plainRetriever.sampleTimes` and
`sampleTotalTime`, `otherRetriever.dataForTuning`, of `retrArg[0]` whether
`competitorMethod` points to `plainRetriever.sampleTimes` and `bucketInd`, and the probe
bucket with its tuning outcome. -/
structure TuneState (K : Type) where
  xValues : List (MatItem K)
  plainXValues : List (MatItem K)
  otherXValues : List (MatItem K)
  sampleTimes : List K
  sampleTotalTime : K
  dataForTuning : TuneData K
  competitorMethod : Bool
  bucketInd : Nat
  probeBucket : ProbeBucket K
  outcome : Option (TuningOutcome K)
deriving DecidableEq

/-- Modelled from the spec: `ProbeBucket::setAfterTuning` (`structs/ProbeBucket.h` is not
part of the sources).  The two arguments of the call are recorded, in their order, as the
outcome `{ thresholdRatio, chosenValue }` the spec has the tuner write.  Which members of the
bucket the method stores them in is not visible in the sources, so the members the
dispatcher reads (`t_b`, `numLists`) are not touched here. -/
def setAfterTuning {K : Type} (s : TuneState K) (thresholdRatio chosenValue : K) :
    TuneState K :=
  { s with outcome := some { thresholdRatio := thresholdRatio, chosenValue := chosenValue } }

/-- The tuning passes the dispatcher delegates to, and the recorded baseline times
`retrArg[0].globalData[b][t][ind].lengthTime`. -/
structure Tuners (K : Type) where
  plainTune : TuneState K → TuneState K
  otherTune : TuneState K → TuneState K
  otherTuneTopk : TuneState K → TuneState K
  lengthTime : Nat → Nat → Nat → K

/-- A call that `tune` or `tuneTopk` makes, as recorded in the call log. -/
inductive TuneCall (K : Type) where
  | plainTune
  | otherTune
  | otherTuneTopk
  | setAfterTuning (thresholdRatio chosenValue : K)
deriving DecidableEq

/-- The tuning state with the log of the calls made so far, oldest first. -/
structure TuneMachine (K : Type) where
  state : TuneState K
  calls : List (TuneCall K)
deriving DecidableEq

namespace LX_Retriever

variable {K : Type} [LinearOrderedField K]

/-- The call `probeBucket.setAfterTuning(thresholdRatio, chosenValue)`, logged. -/
def writeBucket (s : TuneMachine K) (thresholdRatio chosenValue : K) : TuneMachine K :=
  { state := setAfterTuning s.state thresholdRatio chosenValue,
    calls := s.calls ++ [TuneCall.setAfterTuning thresholdRatio chosenValue] }

/-- The decision of `tune` (lines 72-77) and of `tuneTopk` (lines 99-104). -/
def tuneDecision (s : TuneMachine K) : Option (TuneMachine K) :=
  if s.state.sampleTotalTime < s.state.dataForTuning.bestTime then
    some (writeBucket s 1 1)
  else
    if s.state.dataForTuning.t_b_indx = 0 then
      some (writeBucket s ((s.state.dataForTuning.bestPhi + 1 : Int) : K) (-1))
    else
      match s.state.xValues[s.state.dataForTuning.t_b_indx]? with
      | none => none
      | some item =>
        some (writeBucket s ((s.state.dataForTuning.bestPhi + 1 : Int) : K) item.result)

/-- The part of `tune` in front of the decision (lines 65-70). -/
def tunePasses (T : Tuners K) (s : TuneMachine K) : TuneMachine K :=
  let s1 : TuneState K :=
    { s.state with plainXValues := s.state.xValues, otherXValues := s.state.xValues }
  let s2 : TuneState K := { T.plainTune s1 with competitorMethod := true }
  { state := T.otherTune s2, calls := s.calls ++ [TuneCall.plainTune, TuneCall.otherTune] }

/-- The method `LX_Retriever::tune(ProbeBucket&, std::vector<RetrievalArguments>&)`. -/
def tune (T : Tuners K) (s : TuneMachine K) : Option (TuneMachine K) :=
  if s.state.xValues.length > 0 then
    tuneDecision (tunePasses T s)
  else
    some s

/-- One pass of the `for` loop of `tuneTopk` (lines 88-94) for the sample `item`. -/
def recordSample (T : Tuners K) (b : Nat) (s : TuneState K) (item : MatItem K) :
    TuneState K :=
  { s with sampleTimes := s.sampleTimes ++ [T.lengthTime b item.i item.j],
           sampleTotalTime := s.sampleTotalTime + T.lengthTime b item.i item.j }

/-- The part of `tuneTopk` in front of the decision (lines 83-97). -/
def tuneTopkPasses (T : Tuners K) (s : TuneMachine K) : TuneMachine K :=
  let b := s.state.bucketInd
  let s1 : TuneState K := { s.state with otherXValues := s.state.xValues }
  let s2 : TuneState K := s1.xValues.foldl (recordSample T b) s1
  let s3 : TuneState K := { s2 with competitorMethod := true }
  { state := T.otherTuneTopk s3, calls := s.calls ++ [TuneCall.otherTuneTopk] }

/-- The method `LX_Retriever::tuneTopk(ProbeBucket&, std::vector<RetrievalArguments>&)`. -/
def tuneTopk (T : Tuners K) (s : TuneMachine K) : Option (TuneMachine K) :=
  tuneDecision (tuneTopkPasses T s)

end LX_Retriever

namespace demo

/-- The tuning passes of the example: the baseline's pass records a total time of `10`,
the alternative's passes report the best time `bestTime`, the winning index `0` and the
parameter `bestPhi`; every recorded baseline time is `10`. -/
def tuners (bestTime : ℚ) (bestPhi : Int) : Tuners ℚ where
  plainTune := fun s => { s with sampleTimes := [10], sampleTotalTime := 10 }
  otherTune := fun s =>
    { s with dataForTuning := { bestTime := bestTime, t_b_indx := 0, bestPhi := bestPhi } }
  otherTuneTopk := fun s =>
    { s with dataForTuning := { bestTime := bestTime, t_b_indx := 0, bestPhi := bestPhi } }
  lengthTime := fun _ _ _ => 10

/-- A dispatcher that has not been tuned yet, with the sample table `xValues`. -/
def untuned (xValues : List (MatItem ℚ)) : TuneMachine ℚ where
  state :=
    { xValues := xValues, plainXValues := [], otherXValues := [], sampleTimes := [],
      sampleTotalTime := 0,
      dataForTuning := { bestTime := 0, t_b_indx := 0, bestPhi := 0 },
      competitorMethod := false, bucketInd := 0, probeBucket := bucket, outcome := none }
  calls := []

end demo

end ta

namespace ta

namespace LX_Retriever

variable {K : Type} [LinearOrderedField K]

/-! ## Batch mode in parts, and the vocabulary of the statements about it -/

/-- One pass of the per-query loop of `run` behind its `break` test (lines 231-239), for the
row `i` of batch `bi`. -/
def runQuery (L : LX_Retriever K) (probeBucket : ProbeBucket K) (bi i : Nat) (s : Machine K) :
    Machine K :=
  let s1 : Machine K := { s with arg := { s.arg with queryId := L.queryMatrix.getId i } }
  if probeBucket.t_b * L.queryMatrix.length i > probeBucket.bucketScanThreshold then
    { arg := L.plainRetriever.run i probeBucket s1.arg, calls := s1.calls ++ [Call.plainRun i] }
  else
    let s3 := setLocalQueue bi i s1
    { arg := L.otherRetriever.run i probeBucket s3.arg, calls := s3.calls ++ [Call.otherRun i] }

/-- The body of the loop of `run` over the query batches behind its `break` test
(lines 204-242), for the batch `bi`. -/
def runBatchBody (L : LX_Retriever K) (probeBucket : ProbeBucket K) (fuel bi : Nat)
    (s : Machine K) : Option (Machine K) :=
  if probeBucket.t_b = 1 ∨
      probeBucket.t_b * (batchAt s.arg bi).normL2.1 > probeBucket.bucketScanThreshold then
    some { arg := L.plainRetriever.runBatch bi probeBucket s.arg,
           calls := s.calls ++ [Call.plainRunBatch bi] }
  else if probeBucket.t_b * (batchAt s.arg bi).normL2.2 ≤ probeBucket.bucketScanThreshold then
    some { arg := L.otherRetriever.runBatch bi probeBucket s.arg,
           calls := s.calls ++ [Call.otherRunBatch bi] }
  else
    runQueryLoop L probeBucket bi fuel (batchAt (lazyPreprocess L bi s).arg bi).startPos
      (lazyPreprocess L bi s)

/-- The calls of one pass of the per-query loop of `run` for the row `u` of batch `bi`: the
baseline if `t_b * norm(u) > bucketScanThreshold`, otherwise the alternative after that
query's own queue has been set. -/
def queryCalls (L : LX_Retriever K) (probeBucket : ProbeBucket K) (bi : Nat)
    (arg : RetrievalArguments K) (u : Nat) : List Call :=
  if probeBucket.t_b * L.queryMatrix.length u > probeBucket.bucketScanThreshold then
    [Call.plainRun u]
  else
    [Call.setQueues ⟨bi, u - (batchAt arg bi).startPos, arg.maxLists⟩, Call.otherRun u]

/-- The rows from `first` up to `stop` in position order, cut at the first row whose norm is
below the bucket's scan threshold. -/
def scannedRows (L : LX_Retriever K) (probeBucket : ProbeBucket K) (first stop : Nat) :
    List Nat :=
  (List.range' first (stop - first)).takeWhile
    (fun u => decide (¬ L.queryMatrix.length u < probeBucket.bucketScanThreshold))

/-- The batch indices `bis` cut at the first batch whose maximum norm is below the bucket's
scan threshold. -/
def liveBatches (probeBucket : ProbeBucket K) (arg : RetrievalArguments K) (bis : List Nat) :
    List Nat :=
  bis.takeWhile (fun b => decide (¬ (batchAt arg b).normL2.2 < probeBucket.bucketScanThreshold))

/-- The calls of the body of the batch loop of `run` for the batch `bi`: the baseline over
the whole batch, the alternative over the whole batch, or the lazy `preprocess` followed by
the calls of the scanned rows. -/
def batchCalls (L : LX_Retriever K) (probeBucket : ProbeBucket K)
    (arg : RetrievalArguments K) (bi : Nat) : List Call :=
  if probeBucket.t_b = 1 ∨
      probeBucket.t_b * (batchAt arg bi).normL2.1 > probeBucket.bucketScanThreshold then
    [Call.plainRunBatch bi]
  else if probeBucket.t_b * (batchAt arg bi).normL2.2 ≤ probeBucket.bucketScanThreshold then
    [Call.otherRunBatch bi]
  else
    (if (batchAt arg bi).initializedQueues then [] else [Call.preprocess bi]) ++
    (scannedRows L probeBucket (batchAt arg bi).startPos (batchAt arg bi).endPos).flatMap
      (queryCalls L probeBucket bi arg)

/-- An entry point of a retriever that does not write `k`, `maxLists` or the query
batches. -/
def KeepsControl (f : RetrievalArguments K → RetrievalArguments K) : Prop :=
  ∀ arg, (f arg).k = arg.k ∧ (f arg).maxLists = arg.maxLists ∧
    (f arg).queryBatches = arg.queryBatches

/-- The retrievers and `preprocess` stay within their part of the state: no entry point of
either retriever writes `k`, `maxLists` or the query batches, and `preprocess` writes
nothing of a batch but its queue storage. -/
def Framed (L : LX_Retriever K) : Prop :=
  (∀ u pb, KeepsControl (L.plainRetriever.run u pb) ∧
    KeepsControl (L.plainRetriever.runBatch u pb) ∧
    KeepsControl (L.plainRetriever.runTopK u pb) ∧
    KeepsControl (L.otherRetriever.run u pb) ∧
    KeepsControl (L.otherRetriever.runBatch u pb) ∧
    KeepsControl (L.otherRetriever.runTopK u pb)) ∧
  (∀ pb, KeepsControl (L.plainRetriever.runTopKBucket pb)) ∧
  (∀ qb maxLists, L.preprocess qb maxLists
    = { qb with queues := (L.preprocess qb maxLists).queues })

/-- The number of set flags of a batch. -/
def setFlags (qb : QueryBatch K) : Nat :=
  qb.inactiveQueries.count true

/-- The batch `q1` is the batch `q` after some dispatching: positions, row count and norms
are the same, there are as many flags, and no set flag has been cleared. -/
def BatchKept (q q1 : QueryBatch K) : Prop :=
  q1.startPos = q.startPos ∧ q1.endPos = q.endPos ∧ q1.rowNum = q.rowNum ∧
  q1.normL2 = q.normL2 ∧ q1.inactiveQueries.length = q.inactiveQueries.length ∧
  ∀ pos, inactiveAt q1 pos = false → inactiveAt q pos = false

/-- The counters have kept pace with the flags from `arg` to `arg1`: for every batch,
`inactiveCounter` has grown by exactly the number of flags that have been set. -/
def Counted (arg arg1 : RetrievalArguments K) : Prop :=
  ∀ bj, (batchAt arg1 bj).inactiveCounter + setFlags (batchAt arg bj)
    = (batchAt arg bj).inactiveCounter + setFlags (batchAt arg1 bj)

/-- The arguments `arg1` are the arguments `arg` after some dispatching: `k`, `maxLists`
and the number of batches are the same and every batch is kept in the sense of
`BatchKept`. -/
def Kept (arg arg1 : RetrievalArguments K) : Prop :=
  arg1.k = arg.k ∧ arg1.maxLists = arg.maxLists ∧
  arg1.queryBatches.length = arg.queryBatches.length ∧
  ∀ bj, BatchKept (batchAt arg bj) (batchAt arg1 bj)

/-- The value `1` if the queues of batch `bj` are marked as built and `0` otherwise. -/
def built (arg : RetrievalArguments K) (bj : Nat) : Nat :=
  if (batchAt arg bj).initializedQueues then 1 else 0

/-- A check of a stretch of the call log against the lazily built queues.  The argument
`ready b` tells whether the queues of batch `b` are built before the stretch, and `queued`
whether the call before the stretch was `setQueues`.  The check passes when every
`setQueues` hands over a queue of a batch whose queues are built by then (built before the
stretch, or by a `preprocess` of that batch earlier in it) and is directly followed by a
per-query call of the alternative, and no per-query call of the alternative comes without
such a `setQueues` directly in front of it. -/
def queuesReady (ready : Nat → Bool) : Bool → List Call → Bool
  | queued, [] => !queued
  | queued, Call.setQueues q :: rest =>
    !queued && (ready q.batch && queuesReady ready true rest)
  | queued, Call.otherRun _ :: rest => queued && queuesReady ready false rest
  | queued, Call.otherRunTopK _ :: rest => queued && queuesReady ready false rest
  | queued, Call.preprocess b :: rest =>
    !queued && queuesReady (fun x => decide (x = b) || ready x) false rest
  | queued, Call.plainRunTopKBucket :: rest => !queued && queuesReady ready false rest
  | queued, Call.moveTopkToHeap _ :: rest => !queued && queuesReady ready false rest
  | queued, Call.plainRunTopK _ :: rest => !queued && queuesReady ready false rest
  | queued, Call.writeHeapToTopk _ :: rest => !queued && queuesReady ready false rest
  | queued, Call.plainRunBatch _ :: rest => !queued && queuesReady ready false rest
  | queued, Call.otherRunBatch _ :: rest => !queued && queuesReady ready false rest
  | queued, Call.plainRun _ :: rest => !queued && queuesReady ready false rest

/-- The machine `s1` is reached from `s` by dispatching: the arguments are kept; the log has
only grown; for every batch the queues are marked as built afterwards exactly when they were
before or a `preprocess` of the batch has been added to the log, and at most one has; and the
added stretch of the log passes the check `queuesReady`. -/
def Step (s s1 : Machine K) : Prop :=
  Kept s.arg s1.arg ∧
  ∃ extra, s1.calls = s.calls ++ extra ∧
    (∀ bj, extra.count (Call.preprocess bj) + built s.arg bj = built s1.arg bj) ∧
    queuesReady (fun b => (batchAt s.arg b).initializedQueues) false extra = true

/-- A query batch whose flags cover its rows: there are `rowNum` flags and at most `rowNum`
rows between `startPos` and `endPos`. -/
def WellFormed (qb : QueryBatch K) : Prop :=
  qb.inactiveQueries.length = qb.rowNum ∧ qb.endPos - qb.startPos ≤ qb.rowNum

/-- A call of one of the two per-bucket entry points of the dispatcher. -/
inductive Op (K : Type) where
  | run (probeBucket : ProbeBucket K)
  | runTopK (probeBucket : ProbeBucket K)

/-- A sequence of `run` and `runTopK` calls on the same retrieval arguments. -/
def runOps (L : LX_Retriever K) (fuel : Nat) : List (Op K) → Machine K → Option (Machine K)
  | [], s => some s
  | Op.run pb :: rest, s =>
    match run L pb fuel s with
    | none => none
    | some s1 => runOps L fuel rest s1
  | Op.runTopK pb :: rest, s =>
    match runTopK L pb fuel s with
    | none => none
    | some s1 => runOps L fuel rest s1

/-- Modelled from the spec: the baseline-only path of batch mode (the bucket-level `run` of
the baseline retriever is not part of the sources).  Following the spec it iterates the
bucket's query batches in order, stops at the first batch whose maximum norm is below the
bucket's scan threshold, and runs the baseline over every batch before that one. -/
def baselineOnlyRun (plain : Retriever K) (probeBucket : ProbeBucket K) :
    List Nat → RetrievalArguments K → RetrievalArguments K
  | [], arg => arg
  | bi :: rest, arg =>
    if (batchAt arg bi).normL2.2 < probeBucket.bucketScanThreshold then
      arg
    else
      baselineOnlyRun plain probeBucket rest (plain.runBatch bi probeBucket arg)

end LX_Retriever

end ta

namespace ta

namespace demo

/-- The probe bucket of the example tuned to the baseline: the sentinel ratio `1`. -/
def baselineBucket : ProbeBucket ℚ :=
  { bucket with t_b := 1 }

/-- A second batch for the example, rows `4..5`, with norms below the threshold `1`. -/
def lowBatch : QueryBatch ℚ where
  startPos := 4
  endPos := 6
  rowNum := 2
  normL2 := (1 / 4, 1 / 2)
  inactiveQueries := [false, false]
  inactiveCounter := 0
  initializedQueues := false
  queues := []

/-- The start state of the example with the second batch behind the first. -/
def startTwo : Machine ℚ where
  arg := { arguments with queryBatches := [batch, lowBatch] }
  calls := []

/-- The start state of the example with four batches: two above the threshold, one below
it, and behind that one more above the threshold. -/
def startFour : Machine ℚ where
  arg := { arguments with queryBatches := [batch, batch, lowBatch, batch] }
  calls := []

end demo

end ta

namespace mips

namespace fp

/-- The integer nearest to `a`, the even one of the two when `a` lies halfway between them:
the rounding `roundTiesToEven` of IEEE 754 on a scaled significand. -/
def roundHalfEven (a : ℚ) : ℤ :=
  if a - ⌊a⌋ < 1 / 2 then ⌊a⌋
  else if 1 / 2 < a - ⌊a⌋ then ⌊a⌋ + 1
  else if ⌊a⌋ % 2 = 0 then ⌊a⌋ else ⌊a⌋ + 1

/-- The unit in the last place of a `double` of the magnitude `y`: `2^(e - 52)` for
`2^e <= y < 2^(e+1)`, the spacing of the numbers with 53 significant bits there. -/
def ulp (y : ℚ) : ℚ :=
  2 ^ (Int.log 2 y - 52)

/-- The magnitude `y >= 0` rounded to 53 significant bits. -/
def roundMagnitude (y : ℚ) : ℚ :=
  roundHalfEven (y / ulp y) * ulp y

/-- The `double` that an arithmetic operation with the exact result `x` returns: `x`
rounded to the nearest number with 53 significant bits, ties to even, sign and magnitude
apart as in the `binary64` format.  The exponent is not bounded: the value is that of
`double` arithmetic whenever the result is a normal number (magnitude between `2^(-1022)`
and `DBL_MAX`), and for sums and differences of `double`s also below that range, where they
are exact; a result above `DBL_MAX`, which `double` arithmetic turns into an infinity, stays
finite here. -/
def binary64 (x : ℚ) : ℚ :=
  if 0 ≤ x then roundMagnitude x else -roundMagnitude (-x)

/-- A rounding `fl` of the exact results of arithmetic operations whose relative error is at
most `u`, the unit roundoff. -/
def RoundsWithin {K : Type} [LinearOrderedField K] (fl : K → K) (u : K) : Prop :=
  0 ≤ u ∧ u ≤ 1 ∧ ∀ x, |fl x - x| ≤ u * |x|

/-- A computed distance `dist` whose relative error against the true distance `m` is at most
`g`. -/
def ComputesWithin {K V : Type} [LinearOrderedField K] [AddCommGroup V] [Module K V]
    (dist : V → V → K) (m : metric.EuclideanDistance K V) (g : K) : Prop :=
  0 ≤ g ∧ g < 1 ∧ ∀ a b, |dist a b - m.Evaluate a b| ≤ g * m.Evaluate a b

/-- A rounding `flV` of the exact results of vector operations, coordinate by coordinate,
whose error, measured by the true distance `m`, is at most `u` times the length of the exact
result. -/
def RoundsVectorsWithin {K V : Type} [LinearOrderedField K] [AddCommGroup V] [Module K V]
    (flV : V → V) (m : metric.EuclideanDistance K V) (u : K) : Prop :=
  ∀ v, m.Evaluate (flV v) v ≤ u * m.Evaluate v 0

/-- Modelled from the spec: the value that `metric::EuclideanDistance::Evaluate` of
`core/metrics/lmetric.hpp` (not part of the sources) computes in `double` arithmetic for
one-dimensional vectors.  The Euclidean distance is the square root of the squared
difference; the difference `a - b` is rounded, and the square root of its square is its
magnitude (exactly, as long as the square neither overflows nor underflows). -/
def line64 (a b : ℚ) : ℚ :=
  |binary64 (a - b)|

/-- The `double` written `0.1`. -/
def tenth : ℚ :=
  3602879701896397 / 2 ^ 55

/-- The `double` written `0.2`. -/
def fifth : ℚ :=
  3602879701896397 / 2 ^ 54

/-- The `double` written `0.3`. -/
def threeTenths : ℚ :=
  5404319552844595 / 2 ^ 54

end fp

namespace bound

/-! ## The ball bound in `double` arithmetic

The distance methods of `BallBound`, and `Contains` and the loop body of `operator|=` once
more, with the rounding of every arithmetic operation made explicit: `fl` rounds the exact
result of an operation on `double`s, `flV` does so for every coordinate of a vector, and
`dist` is the value `metric::EuclideanDistance::Evaluate` computes.  With `fl` and `flV` the
identity and `dist` the true distance they are the definitions of `BallBound` above. -/

namespace rounded

open math

variable {K V : Type} [LinearOrderedField K] [AddCommGroup V] [Module K V]

/-- The method `BallBound::Contains(point)`, on the computed distance. -/
def Contains (dist : V → V → K) (b : BallBound K V) (point : V) : Bool :=
  if b.radius < 0 then
    false
  else
    decide (dist b.center point ≤ b.radius)

/-- The method `BallBound::MinDistance(const VecType& point)`, the subtraction rounded. -/
def MinDistance (fl : K → K) (dist : V → V → K) (b : BallBound K V) (point : V) : K :=
  if b.radius < 0 then
    DBL_MAX
  else
    ClampNonNegative (fl (dist point b.center - b.radius))

/-- The method `BallBound::MinDistance(const BallBound& other)`, each of the two subtractions rounded. -/
def MinDistanceBound (fl : K → K) (dist : V → V → K) (b other : BallBound K V) : K :=
  if b.radius < 0 then
    DBL_MAX
  else
    let delta := fl (fl (dist b.center other.center - b.radius) - other.radius)
    ClampNonNegative delta

/-- The method `BallBound::MaxDistance(const VecType& point)`, the addition rounded. -/
def MaxDistance (fl : K → K) (dist : V → V → K) (b : BallBound K V) (point : V) : K :=
  if b.radius < 0 then
    DBL_MAX
  else
    fl (dist point b.center + b.radius)

/-- The method `BallBound::MaxDistance(const BallBound& other)`, each of the two additions rounded. -/
def MaxDistanceBound (fl : K → K) (dist : V → V → K) (b other : BallBound K V) : K :=
  if b.radius < 0 then
    DBL_MAX
  else
    fl (fl (dist other.center b.center + b.radius) + other.radius)

/-- The method `BallBound::RangeDistance(const VecType& point)`, each operation rounded. -/
def RangeDistance (fl : K → K) (dist : V → V → K) (b : BallBound K V) (point : V) :
    Range K :=
  if b.radius < 0 then
    { lo := DBL_MAX, hi := DBL_MAX }
  else
    let d := dist b.center point
    { lo := ClampNonNegative (fl (d - b.radius)), hi := fl (d + b.radius) }

/-- The method `BallBound::RangeDistance(const BallBound& other)`, each operation rounded: the
radii are added first, into `sumradius`. -/
def RangeDistanceBound (fl : K → K) (dist : V → V → K) (b other : BallBound K V) :
    Range K :=
  if b.radius < 0 then
    { lo := DBL_MAX, hi := DBL_MAX }
  else
    let d := dist b.center other.center
    let sumradius := fl (b.radius + other.radius)
    { lo := ClampNonNegative (fl (d - sumradius)), hi := fl (d + sumradius) }

/-- One pass of the body of the `for` loop of `operator|=` for the column `p`, each
operation rounded: `dist = Evaluate(center, p) - radius`; when `dist > 0`,
`diff = p - center`, `center += 0.5 * diff` and `radius += 0.5 * dist`. -/
def growStep (fl : K → K) (flV : V → V) (dist : V → V → K) (b : BallBound K V) (p : V) :
    BallBound K V :=
  let d := fl (dist b.center p - b.radius)
  if d > 0 then
    let diff := flV (p - b.center)
    { radius := fl (b.radius + fl ((1 / 2) * d)),
      center := flV (b.center + flV ((1 / 2 : K) • diff)) }
  else
    b

end rounded

end bound

end mips

/-! # Theorems -/

namespace mips

namespace metric

/-- The Euclidean distance of real `n`-dimensional space obeys the laws asked of
`EuclideanDistance`: there is an instance whose `Evaluate` is that distance. -/
theorem euclidean_obeys_laws (n : ℕ) :
    ∃ m : EuclideanDistance ℝ (EuclideanSpace ℝ (Fin n)), ∀ a b, m.Evaluate a b = dist a b :=
  ⟨{ Evaluate := fun a b => dist a b
     nonneg := fun _ _ => dist_nonneg
     symm := fun a b => dist_comm a b
     triangle := fun a b c => dist_triangle a b c
     translate := fun a b t => dist_add_right a b t
     scale := fun k a b => by
       show dist (k • a) (k • b) = |k| * dist a b
       rw [dist_smul₀, Real.norm_eq_abs] }, fun _ _ => rfl⟩

end metric

namespace bound

namespace BallBound

open metric math

variable {K V : Type} [LinearOrderedField K] [AddCommGroup V] [Module K V]

/-- A pass of the loop body never lowers the radius. -/
theorem growStep_radius_le (m : EuclideanDistance K V) (b : BallBound K V) (p : V) :
    b.radius ≤ (growStep m b p).radius := by
  unfold growStep
  simp only
  split_ifs with h
  · simp only
    linarith
  · exact le_refl _

/-- The loop never lowers the radius. -/
theorem growLoop_radius_le (m : EuclideanDistance K V) (ps : List V) :
    ∀ b : BallBound K V, b.radius ≤ (growLoop m b ps).radius := by
  induction ps with
  | nil => intro b; exact le_refl _
  | cons p ps ih =>
    intro b
    exact le_trans (growStep_radius_le m b p) (ih (growStep m b p))

/-- Evaluation for C3 at its failing input.  The bound of radius `1` around `0` contains
`-1`; the loop of `operator|=` meets the outside point `3` (column `1` of the data) and
moves the center to `3/2` with radius `2`; the new bound no longer contains `-1`. -/
theorem growth_uncovers_old_point :
    Contains line { radius := 1, center := 0 } (-1) = true ∧
    line.Evaluate 0 3 > 1 ∧
    growStep line { radius := 1, center := 0 } 3 = { radius := 2, center := 3 / 2 } ∧
    operatorOrAssign line { radius := 1, center := 0 } [0, 3]
      = some { radius := 2, center := 3 / 2 } ∧
    Contains line { radius := 2, center := 3 / 2 } (-1) = false := by
  have e : growStep line { radius := 1, center := 0 } 3 = { radius := 2, center := 3 / 2 } := by
    norm_num [growStep, line]
  refine ⟨?_, ?_, e, ?_, ?_⟩
  · norm_num [Contains, line]
  · norm_num [line]
  · simp only [operatorOrAssign, List.drop_succ_cons, List.drop_zero, growLoop, e]
    norm_num
  · norm_num [Contains, line, abs_le]

/-- Evaluation for C4 at its failing inputs.  Expanding the bound of radius `1` around `0`
with the single outside point `5` leaves the bound as it was, so `5` is not contained.
Expanding an empty bound with the points `0, 2, 6` ends with center `7/2` and radius `3`,
which does not contain the first point `0`. -/
theorem expansion_misses_given_points :
    operatorOrAssign line { radius := 1, center := 0 } [5]
      = some { radius := 1, center := 0 } ∧
    Contains line { radius := 1, center := 0 } 5 = false ∧
    operatorOrAssign line { radius := -1, center := 0 } [0, 2, 6]
      = some { radius := 3, center := 7 / 2 } ∧
    Contains line { radius := 3, center := 7 / 2 } 0 = false := by
  refine ⟨?_, ?_, ?_, ?_⟩
  · norm_num [operatorOrAssign, growLoop]
  · norm_num [Contains, line]
  · have e1 : growStep line { radius := 0, center := 0 } 2 = { radius := 1, center := 1 } := by
      norm_num [growStep, line]
    have e2 : growStep line { radius := 1, center := 1 } 6
        = { radius := 3, center := 7 / 2 } := by
      norm_num [growStep, line]
    simp only [operatorOrAssign, List.drop_succ_cons, List.drop_zero, growLoop, e1, e2]
    norm_num
  · norm_num [Contains, line, abs_le]

/-- Claim C5.  For every bound and every non-empty list of columns, `operator|=` returns a
bound whose radius is at least the radius before and is not negative. -/
theorem expand_radius_monotone (m : EuclideanDistance K V) (b : BallBound K V)
    (data : List V) (hdata : data ≠ []) :
    ∃ b', operatorOrAssign m b data = some b' ∧ b.radius ≤ b'.radius ∧ 0 ≤ b'.radius := by
  obtain ⟨col0, rest, rfl⟩ := List.exists_cons_of_ne_nil hdata
  by_cases h0 : b.radius < 0
  · refine ⟨growLoop m { radius := 0, center := col0 } rest, ?_, ?_, ?_⟩
    · simp only [operatorOrAssign, if_pos h0, List.drop_succ_cons, List.drop_zero]
    · exact le_trans h0.le (growLoop_radius_le m rest { radius := 0, center := col0 })
    · exact growLoop_radius_le m rest { radius := 0, center := col0 }
  · refine ⟨growLoop m b rest, ?_, ?_, ?_⟩
    · simp only [operatorOrAssign, if_neg h0, List.drop_succ_cons, List.drop_zero]
    · exact growLoop_radius_le m rest b
    · exact le_trans (not_lt.mp h0) (growLoop_radius_le m rest b)

/-- Witness for C5: the empty bound expanded with the points `0, 2, 6` of the rational
line. -/
theorem expand_radius_monotone_witness :
    ([0, 2, 6] : List ℚ) ≠ [] ∧
    ∃ b', operatorOrAssign line { radius := -1, center := 0 } [0, 2, 6] = some b' ∧
      (-1 : ℚ) ≤ b'.radius ∧ 0 ≤ b'.radius :=
  ⟨by simp, expand_radius_monotone line { radius := -1, center := 0 } [0, 2, 6] (by simp)⟩

/-- Evaluation for C6 at its failing input.  The bound the default constructors build has
radius `0`, which is not negative: it contains its own center, its `MinDistance` and
`MaxDistance` to the point `5` are `5` and not `DBL_MAX`, and `operator|=` with the single
point `5` does not seed the center: the bound stays as constructed. -/
theorem fresh_bound_not_empty :
    (fresh (0 : ℚ) : BallBound ℚ ℚ).radius = 0 ∧
    ¬ ((fresh (0 : ℚ) : BallBound ℚ ℚ).radius < 0) ∧
    Contains line (fresh 0) 0 = true ∧
    MinDistance line (fresh 0) 5 = 5 ∧
    MaxDistance line (fresh 0) 5 = 5 ∧
    (5 : ℚ) ≠ DBL_MAX ∧
    operatorOrAssign line (fresh 0) [5] = some { radius := 0, center := 0 } := by
  refine ⟨rfl, ?_, ?_, ?_, ?_, ?_, ?_⟩
  · norm_num [fresh]
  · norm_num [fresh, Contains, line]
  · norm_num [fresh, MinDistance, line, ClampNonNegative]
  · norm_num [fresh, MaxDistance, line]
  · norm_num [DBL_MAX]
  · norm_num [fresh, operatorOrAssign, growLoop]

end BallBound

end bound

end mips

namespace ta

namespace LX_Retriever

variable {K : Type} [LinearOrderedField K]

/-- Setting a flag never turns a set flag off: a flag that reads `false` afterwards read
`false` before. -/
theorem getD_set_false (l : List Bool) (n p : Nat)
    (h : (l.set n true).getD p false = false) : l.getD p false = false := by
  by_cases hl : n < l.length
  · by_cases hp : n = p
    · subst hp
      simp [List.getD_eq_getElem?_getD, hl] at h
    · rw [List.getD_eq_getElem?_getD, List.getElem?_set_ne hp] at h
      rw [List.getD_eq_getElem?_getD]
      exact h
  · rw [List.set_eq_of_length_le (not_lt.mp hl)] at h
    exact h

/-- Reading a batch back after a write through the reference. -/
theorem batchAt_setBatch (arg : RetrievalArguments K) (bi : Nat) (qb : QueryBatch K) :
    batchAt (setBatch arg bi qb) bi
      = if bi < arg.queryBatches.length then qb else batchAt arg bi := by
  unfold batchAt setBatch
  split_ifs with h
  · simp [List.getD_eq_getElem?_getD, h]
  · simp only [List.set_eq_of_length_le (not_lt.mp h)]

/-- A write through the reference to batch `bi` leaves the other batches as they are. -/
theorem batchAt_setBatch_ne (arg : RetrievalArguments K) (bi bj : Nat) (qb : QueryBatch K)
    (h : bi ≠ bj) : batchAt (setBatch arg bi qb) bj = batchAt arg bj := by
  unfold batchAt setBatch
  simp only [List.getD_eq_getElem?_getD, List.getElem?_set_ne h]

/-- The approximation block writes `currGammaAppr` and nothing else. -/
theorem setGammaAppr_eq (L : LX_Retriever K) (arg : RetrievalArguments K) (user : Nat)
    (minScore : K) :
    setGammaAppr L arg user minScore
      = { arg with currGammaAppr := (setGammaAppr L arg user minScore).currGammaAppr } := by
  unfold setGammaAppr
  split
  · rfl
  · split_ifs <;> rfl
  · rfl

/-- Every state keeps its own loop control. -/
theorem controlKept_refl (arg : RetrievalArguments K) : ControlKept arg arg :=
  ⟨rfl, fun _ => ⟨rfl, rfl, fun _ h => h⟩⟩

/-- Keeping the loop control composes. -/
theorem controlKept_trans {a b c : RetrievalArguments K} (h1 : ControlKept a b)
    (h2 : ControlKept b c) : ControlKept a c :=
  ⟨h2.1.trans h1.1, fun bj =>
    ⟨(h2.2 bj).1.trans (h1.2 bj).1, (h2.2 bj).2.1.trans (h1.2 bj).2.1,
      fun pos h => (h1.2 bj).2.2 pos ((h2.2 bj).2.2 pos h)⟩⟩

/-- Arguments with the same `k` and the same query batches have the same loop control. -/
theorem controlKept_of_eq {a b : RetrievalArguments K} (hk : b.k = a.k)
    (hq : b.queryBatches = a.queryBatches) : ControlKept a b := by
  refine ⟨hk, fun bj => ?_⟩
  have e : batchAt b bj = batchAt a bj := by
    unfold batchAt
    rw [hq]
  rw [e]
  exact ⟨rfl, rfl, fun _ h => h⟩

/-- Replacing batch `bi` by one with the same positions and no cleared flag keeps the loop
control. -/
theorem controlKept_setBatch (arg : RetrievalArguments K) (bi : Nat) (qb : QueryBatch K)
    (hs : qb.startPos = (batchAt arg bi).startPos) (he : qb.endPos = (batchAt arg bi).endPos)
    (hf : ∀ pos, inactiveAt qb pos = false → inactiveAt (batchAt arg bi) pos = false) :
    ControlKept arg (setBatch arg bi qb) := by
  refine ⟨rfl, fun bj => ?_⟩
  by_cases hb : bi = bj
  · subst hb
    rw [batchAt_setBatch]
    split_ifs
    · exact ⟨hs, he, hf⟩
    · exact ⟨rfl, rfl, fun _ h => h⟩
  · rw [batchAt_setBatch_ne arg bi bj qb hb]
    exact ⟨rfl, rfl, fun _ h => h⟩

/-- The lazy `preprocess` keeps the loop control and `maxLists`, and logs nothing or the one
call `preprocess`, the latter exactly when the queues were not yet built. -/
theorem lazyPreprocess_effect (L : LX_Retriever K) (hL : KeepsLoopControl L) (bi : Nat)
    (s : Machine K) :
    ControlKept s.arg (lazyPreprocess L bi s).arg ∧
    (lazyPreprocess L bi s).arg.maxLists = s.arg.maxLists ∧
    (lazyPreprocess L bi s).calls
      = s.calls ++ (if (batchAt s.arg bi).initializedQueues then [] else [Call.preprocess bi]) := by
  unfold lazyPreprocess
  split_ifs with h
  · exact ⟨controlKept_refl _, rfl, by simp⟩
  · refine ⟨controlKept_setBatch _ _ _ (hL.2.2 _ _).1 (hL.2.2 _ _).2.1 ?_, rfl, rfl⟩
    intro pos hp
    simp only [inactiveAt] at hp ⊢
    rw [(hL.2.2 _ _).2.2] at hp
    exact hp

/-- What one pass of the body of the inner loop of `runTopK` leaves alone, and the calls it
logs: the loop control is kept, and the pass either logs nothing or, for a query whose flag
was not set, logs `moveTopkToHeap i`, the calls of one strategy and
`writeHeapToTopk user`. -/
theorem runTopKQuery_effect (L : LX_Retriever K) (hL : KeepsLoopControl L)
    (pb : ProbeBucket K) (bi i user : Nat) (s : Machine K) :
    ControlKept s.arg (runTopKQuery L pb bi i user s).arg ∧
    ((runTopKQuery L pb bi i user s).calls = s.calls ∨
      (inactiveAt (batchAt s.arg bi) (user - (batchAt s.arg bi).startPos) = false ∧
        ∃ mid, IsStrategyCalls bi user mid ∧
          (runTopKQuery L pb bi i user s).calls
            = s.calls ++ (Call.moveTopkToHeap i :: mid ++ [Call.writeHeapToTopk user]))) := by
  unfold runTopKQuery
  by_cases hflag : inactiveAt (batchAt s.arg bi) (user - (batchAt s.arg bi).startPos) = true
  · rw [if_pos hflag]
    exact ⟨controlKept_refl _, Or.inl rfl⟩
  · rw [if_neg hflag]
    have hflag' : inactiveAt (batchAt s.arg bi) (user - (batchAt s.arg bi).startPos) = false := by
      simpa using hflag
    simp only
    set minScore := (s.arg.topkResults.getD i default).data with hms
    have hc1 : ControlKept s.arg (setGammaAppr L s.arg user minScore) := by
      apply controlKept_of_eq <;> rw [setGammaAppr_eq]
    by_cases hmark : pb.normL2.2 < minScoreAppr L s.arg user minScore
    · rw [if_pos hmark]
      refine ⟨controlKept_trans hc1 (controlKept_setBatch _ _ _ rfl rfl ?_), Or.inl rfl⟩
      intro pos h
      exact getD_set_false _ _ _ h
    · rw [if_neg hmark]
      have hc2 : ControlKept s.arg
          ({ (setGammaAppr L s.arg user minScore).moveTopkToHeap i with
             queryId := L.queryMatrix.getId user } : RetrievalArguments K) :=
        controlKept_trans hc1 (controlKept_of_eq rfl rfl)
      by_cases hplain : pb.t_b * pb.normL2.2 > minScore
      · simp only [if_pos hplain]
        refine ⟨?_, Or.inr ⟨hflag', [Call.plainRunTopK user], Or.inl rfl, ?_⟩⟩
        · exact controlKept_trans hc2 (controlKept_trans
            (controlKept_of_eq (hL.1 _ _ _).1 (hL.1 _ _ _).2) (controlKept_of_eq rfl rfl))
        · simp only [List.append_assoc, List.cons_append, List.nil_append, List.singleton_append]
      · simp only [if_neg hplain]
        set s2 : Machine K :=
          { arg := { (setGammaAppr L s.arg user minScore).moveTopkToHeap i with
                     queryId := L.queryMatrix.getId user },
            calls := s.calls ++ [Call.moveTopkToHeap i] } with hs2
        obtain ⟨lc, _, lcalls⟩ := lazyPreprocess_effect L hL bi s2
        refine ⟨?_, Or.inr ⟨hflag', ?_⟩⟩
        · refine controlKept_trans hc2 (controlKept_trans lc ?_)
          refine controlKept_trans
            (controlKept_of_eq (b := (setLocalQueue bi user (lazyPreprocess L bi s2)).arg)
              rfl rfl) ?_
          exact controlKept_trans (controlKept_of_eq (hL.2.1 _ _ _).1 (hL.2.1 _ _ _).2)
            (controlKept_of_eq rfl rfl)
        · by_cases hinit : (batchAt s2.arg bi).initializedQueues = true
          · refine ⟨[Call.setQueues ⟨bi,
                user - (batchAt (lazyPreprocess L bi s2).arg bi).startPos,
                (lazyPreprocess L bi s2).arg.maxLists⟩, Call.otherRunTopK user],
              Or.inr ⟨_, rfl, Or.inl rfl⟩, ?_⟩
            simp only [setLocalQueue, lcalls, hinit, if_true, hs2, List.append_assoc,
              List.cons_append, List.nil_append, List.singleton_append, List.append_nil]
          · refine ⟨[Call.preprocess bi, Call.setQueues ⟨bi,
                user - (batchAt (lazyPreprocess L bi s2).arg bi).startPos,
                (lazyPreprocess L bi s2).arg.maxLists⟩, Call.otherRunTopK user],
              Or.inr ⟨_, rfl, Or.inr rfl⟩, ?_⟩
            simp only [setLocalQueue, lcalls, hinit, hs2, List.append_assoc,
              List.cons_append, List.nil_append, List.singleton_append]
            simp

/-- The inner loop of `runTopK`, started at the offset `k * user`, ends when given enough
fuel and keeps the loop control; the calls it logs are the blocks of the queries it scans:
rows in increasing order from `user` on, each with a flag that was not set when the loop
started, each block made of `moveTopkToHeap (k * row)`, the calls of one strategy and
`writeHeapToTopk row`. -/
theorem runTopKLoop_scans (L : LX_Retriever K) (hL : KeepsLoopControl L)
    (pb : ProbeBucket K) (bi k stop : Nat) :
    ∀ (fuel i user : Nat) (s : Machine K), s.arg.k = k → i = k * user →
      stop - i ≤ fuel * k →
      ∃ (s' : Machine K) (scans : List (Nat × List Call)),
        runTopKLoop L pb bi stop fuel i user s = some s' ∧
        ControlKept s.arg s'.arg ∧
        s'.calls = s.calls ++ scans.flatMap (scanBlock k) ∧
        List.Pairwise (fun a b => a < b) (scans.map Prod.fst) ∧
        ∀ sc ∈ scans, user ≤ sc.1 ∧ k * sc.1 < stop ∧ IsStrategyCalls bi sc.1 sc.2 ∧
          inactiveAt (batchAt s.arg bi) (sc.1 - (batchAt s.arg bi).startPos) = false := by
  intro fuel
  induction fuel with
  | zero =>
    intro i user s _ _ hfuel
    have hi : ¬ i < stop := by
      simp only [Nat.zero_mul, Nat.le_zero_eq] at hfuel
      omega
    exact ⟨s, [], by simp only [runTopKLoop, if_neg hi], controlKept_refl _, by simp, by simp,
      by simp⟩
  | succ fuel ih =>
    intro i user s hk hi hfuel
    by_cases hlt : i < stop
    · obtain ⟨ec, ecalls⟩ := runTopKQuery_effect L hL pb bi i user s
      set s1 := runTopKQuery L pb bi i user s with hs1
      have hk1 : s1.arg.k = k := by rw [ec.1, hk]
      have hfuel1 : stop - (i + s1.arg.k) ≤ fuel * k := by
        rw [hk1]
        have : (fuel + 1) * k = fuel * k + k := Nat.succ_mul fuel k
        omega
      have hi1 : i + s1.arg.k = k * (user + 1) := by
        rw [hk1, hi, Nat.mul_succ]
      obtain ⟨s', scans, hrun, hc', hcalls', hsorted, hall⟩ :=
        ih (i + s1.arg.k) (user + 1) s1 hk1 hi1 hfuel1
      have hrun' : runTopKLoop L pb bi stop (fuel + 1) i user s = some s' := by
        simp only [runTopKLoop, if_pos hlt]
        exact hrun
      have hall' : ∀ sc ∈ scans, user ≤ sc.1 ∧ k * sc.1 < stop ∧ IsStrategyCalls bi sc.1 sc.2 ∧
          inactiveAt (batchAt s.arg bi) (sc.1 - (batchAt s.arg bi).startPos) = false := by
        intro sc hsc
        obtain ⟨h1, h2, h3, h4⟩ := hall sc hsc
        refine ⟨by omega, h2, h3, ?_⟩
        rw [(ec.2 bi).1] at h4
        exact (ec.2 bi).2.2 _ h4
      rcases ecalls with hc | ⟨hflag, mid, hmid, hc⟩
      · refine ⟨s', scans, hrun', controlKept_trans ec hc', ?_, hsorted, hall'⟩
        rw [hcalls', hc]
      · refine ⟨s', (user, mid) :: scans, hrun', controlKept_trans ec hc', ?_, ?_, ?_⟩
        · rw [hcalls', hc, List.flatMap_cons, scanBlock, ← hi, List.append_assoc]
        · simp only [List.map_cons, List.pairwise_cons, List.mem_map, Prod.exists,
            exists_and_right, exists_eq_right, forall_exists_index]
          refine ⟨?_, hsorted⟩
          intro u x hx
          have := (hall (u, x) hx).1
          simp only at this
          omega
        · intro sc hsc
          rcases List.mem_cons.mp hsc with rfl | hsc
          · exact ⟨le_refl _, by rw [← hi]; exact hlt, hmid, hflag⟩
          · exact hall' sc hsc
    · exact ⟨s, [], by simp only [runTopKLoop, if_neg hlt], controlKept_refl _, by simp,
        by simp, by simp⟩

/-- The pass of `runTopK` over one query batch ends when the fuel covers the batch's rows and
keeps the loop control; the calls it logs are the blocks of the queries it scans: rows of the
batch in increasing order, each with a flag that was not set before the pass. -/
theorem runTopKBatch_scans (L : LX_Retriever K) (hL : KeepsLoopControl L)
    (pb : ProbeBucket K) (fuel bi : Nat) (s : Machine K)
    (hfuel : (batchAt s.arg bi).endPos - (batchAt s.arg bi).startPos ≤ fuel) :
    ∃ (s' : Machine K) (scans : List (Nat × List Call)),
      runTopKBatch L pb fuel bi s = some s' ∧
      ControlKept s.arg s'.arg ∧
      s'.calls = s.calls ++ scans.flatMap (scanBlock s.arg.k) ∧
      List.Pairwise (fun a b => a < b) (scans.map Prod.fst) ∧
      ∀ sc ∈ scans, (batchAt s.arg bi).startPos ≤ sc.1 ∧ sc.1 < (batchAt s.arg bi).endPos ∧
        IsStrategyCalls bi sc.1 sc.2 ∧
        inactiveAt (batchAt s.arg bi) (sc.1 - (batchAt s.arg bi).startPos) = false := by
  unfold runTopKBatch
  simp only
  split_ifs with hskip
  · exact ⟨s, [], rfl, controlKept_refl _, by simp, by simp, by simp⟩
  · have hf : (batchAt s.arg bi).endPos * s.arg.k - (batchAt s.arg bi).startPos * s.arg.k
        ≤ fuel * s.arg.k := by
      rw [← Nat.sub_mul]
      exact Nat.mul_le_mul_right _ hfuel
    obtain ⟨s', scans, hrun, hc, hcalls, hsorted, hall⟩ :=
      runTopKLoop_scans L hL pb bi s.arg.k ((batchAt s.arg bi).endPos * s.arg.k) fuel
        ((batchAt s.arg bi).startPos * s.arg.k) (batchAt s.arg bi).startPos s rfl
        (Nat.mul_comm _ _) hf
    refine ⟨s', scans, hrun, hc, hcalls, hsorted, ?_⟩
    intro sc hsc
    obtain ⟨h1, h2, h3, h4⟩ := hall sc hsc
    refine ⟨h1, ?_, h3, h4⟩
    rw [Nat.mul_comm] at h2
    exact Nat.lt_of_mul_lt_mul_right h2

/-- The pass of the loop body for a query whose flag is set: nothing happens. -/
theorem runTopKQuery_of_flag (L : LX_Retriever K) (pb : ProbeBucket K) (bi i user : Nat)
    (t : Machine K)
    (hflag : inactiveAt (batchAt t.arg bi) (user - (batchAt t.arg bi).startPos) = true) :
    runTopKQuery L pb bi i user t = t := by
  unfold runTopKQuery
  rw [if_pos hflag]

/-- A per-query strategy call inside the block of a scanned query is a call for that
query. -/
theorem strategy_call_of_scanBlock (k bi u : Nat) (sc : Nat × List Call) (c : Call)
    (hsc : IsStrategyCalls bi sc.1 sc.2) (hc : c ∈ scanBlock k sc)
    (hu : c = Call.plainRunTopK u ∨ c = Call.otherRunTopK u) : u = sc.1 := by
  unfold scanBlock at hc
  simp only [List.mem_cons, List.mem_append, List.mem_singleton] at hc
  rcases hsc with h | ⟨q, _, h | h⟩ <;> rw [h] at hc <;>
    simp only [List.mem_cons, List.mem_singleton, List.not_mem_nil, or_false] at hc <;>
    rcases hu with rfl | rfl <;> simp at hc <;> exact hc

/-- The loop of `runTopK` over the query batches ends when the fuel covers every batch and
keeps the loop control; every per-query strategy call it logs is for a row of one of the
visited batches whose flag was not set when the loop started. -/
theorem runTopKBatches_calls (L : LX_Retriever K) (hL : KeepsLoopControl L)
    (pb : ProbeBucket K) (fuel : Nat) :
    ∀ (bis : List Nat) (s : Machine K),
      (∀ bj, (batchAt s.arg bj).endPos - (batchAt s.arg bj).startPos ≤ fuel) →
      ∃ (s' : Machine K) (extra : List Call),
        runTopKBatches L pb fuel bis s = some s' ∧
        ControlKept s.arg s'.arg ∧
        s'.calls = s.calls ++ extra ∧
        ∀ c ∈ extra, ∀ u, (c = Call.plainRunTopK u ∨ c = Call.otherRunTopK u) →
          ∃ bi ∈ bis, (batchAt s.arg bi).startPos ≤ u ∧ u < (batchAt s.arg bi).endPos ∧
            inactiveAt (batchAt s.arg bi) (u - (batchAt s.arg bi).startPos) = false := by
  intro bis
  induction bis with
  | nil =>
    intro s _
    exact ⟨s, [], rfl, controlKept_refl _, by simp, by simp⟩
  | cons bi rest ih =>
    intro s hfuel
    obtain ⟨s1, scans, hrun1, hc1, hcalls1, _, hall1⟩ :=
      runTopKBatch_scans L hL pb fuel bi s (hfuel bi)
    have hfuel1 : ∀ bj, (batchAt s1.arg bj).endPos - (batchAt s1.arg bj).startPos ≤ fuel := by
      intro bj
      rw [(hc1.2 bj).1, (hc1.2 bj).2.1]
      exact hfuel bj
    obtain ⟨s', extra, hrun, hc, hcalls, hall⟩ := ih s1 hfuel1
    refine ⟨s', scans.flatMap (scanBlock s.arg.k) ++ extra, ?_, controlKept_trans hc1 hc, ?_, ?_⟩
    · simp only [runTopKBatches, hrun1]
      exact hrun
    · rw [hcalls, hcalls1, List.append_assoc]
    · intro c hc' u hu
      rcases List.mem_append.mp hc' with h | h
      · obtain ⟨sc, hsc, hcsc⟩ := List.mem_flatMap.mp h
        obtain ⟨h1, h2, h3, h4⟩ := hall1 sc hsc
        have hus := strategy_call_of_scanBlock s.arg.k bi u sc c h3 hcsc hu
        subst hus
        exact ⟨bi, List.mem_cons_self _ _, h1, h2, h4⟩
      · obtain ⟨bj, hbj, h1, h2, h3⟩ := hall c h u hu
        rw [(hc1.2 bj).1] at h1 h3
        rw [(hc1.2 bj).2.1] at h2
        exact ⟨bj, List.mem_cons_of_mem _ hbj, h1, h2, (hc1.2 bj).2.2 _ h3⟩

end LX_Retriever

namespace demo

open LX_Retriever

/-- The retrievers of the example leave `k` and the query batches alone, and its
`preprocess` only fills the queue storage. -/
theorem retriever_keepsLoopControl : KeepsLoopControl retriever :=
  ⟨fun _ _ _ => ⟨rfl, rfl⟩, fun _ _ _ => ⟨rfl, rfl⟩, fun _ _ => ⟨rfl, rfl, rfl⟩⟩

end demo

namespace LX_Retriever

open demo

variable {K : Type} [LinearOrderedField K]

/-- Counterexample for C10 as stated.  In the example the flag of row `0` is set, yet the
per-query loop of batch-mode `run` hands row `0` to the baseline: the calls of the run are
`preprocess`, `plainRun 0`, `setQueues` and `otherRun 1`. -/
theorem run_scans_flagged_query :
    inactiveAt (batchAt start.arg 0) (0 - (batchAt start.arg 0).startPos) = true ∧
    (run retriever bucket 4 start).map (fun s => s.calls)
      = some [Call.preprocess 0, Call.plainRun 0, Call.setQueues ⟨0, 1, 3⟩, Call.otherRun 1] := by
  with_unfolding_all decide

/-- Claim C10, amended.  In `runTopK` the inactive flag is read at the top of the body of
the per-query loop: a pass for a query whose flag is set makes no call and changes nothing.
And a whole `runTopK` over a bucket, with retrievers that leave the loop control alone and
fuel for every batch, returns, and every per-query strategy call it logs is for a row of a
batch in which that row's flag was not set when `runTopK` started: a query whose flag is set
gets no strategy call in that bucket's processing. -/
theorem runTopK_skips_flagged_query (L : LX_Retriever K) (hL : KeepsLoopControl L)
    (pb : ProbeBucket K) (fuel : Nat) (s : Machine K)
    (hfuel : ∀ b ∈ s.arg.queryBatches, b.endPos - b.startPos ≤ fuel) :
    (∀ (bi i user : Nat) (t : Machine K),
      inactiveAt (batchAt t.arg bi) (user - (batchAt t.arg bi).startPos) = true →
      runTopKQuery L pb bi i user t = t) ∧
    ∃ (s' : Machine K) (extra : List Call),
      runTopK L pb fuel s = some s' ∧ s'.calls = s.calls ++ extra ∧
      ∀ u, (Call.plainRunTopK u ∈ extra ∨ Call.otherRunTopK u ∈ extra) →
        ∃ bi, bi < s.arg.queryBatches.length ∧
          (batchAt s.arg bi).startPos ≤ u ∧ u < (batchAt s.arg bi).endPos ∧
          inactiveAt (batchAt s.arg bi) (u - (batchAt s.arg bi).startPos) = false := by
  refine ⟨fun bi i user t h => runTopKQuery_of_flag L pb bi i user t h, ?_⟩
  unfold runTopK
  split_ifs with htb
  · refine ⟨_, [Call.plainRunTopKBucket], rfl, rfl, ?_⟩
    intro u hu
    simp at hu
  · have hfuel' : ∀ bj, (batchAt s.arg bj).endPos - (batchAt s.arg bj).startPos ≤ fuel := by
      intro bj
      unfold batchAt
      by_cases hb : bj < s.arg.queryBatches.length
      · rw [List.getD_eq_getElem?_getD, List.getElem?_eq_getElem hb]
        exact hfuel _ (List.getElem_mem hb)
      · rw [List.getD_eq_getElem?_getD, List.getElem?_eq_none (not_lt.mp hb)]
        exact Nat.zero_le _
    obtain ⟨s', extra, hrun, _, hcalls, hall⟩ :=
      runTopKBatches_calls L hL pb fuel (List.range s.arg.queryBatches.length)
        { s with arg := { s.arg with numLists := pb.numLists } } hfuel'
    refine ⟨s', extra, hrun, hcalls, ?_⟩
    intro u hu
    have : ∃ c ∈ extra, c = Call.plainRunTopK u ∨ c = Call.otherRunTopK u := by
      rcases hu with h | h
      · exact ⟨_, h, Or.inl rfl⟩
      · exact ⟨_, h, Or.inr rfl⟩
    obtain ⟨c, hc, hcu⟩ := this
    obtain ⟨bi, hbi, h1, h2, h3⟩ := hall c hc u hcu
    exact ⟨bi, List.mem_range.mp hbi, h1, h2, h3⟩

/-- Witness for C10: the whole `runTopK` of the example with fuel `4`. -/
theorem runTopK_skips_flagged_query_witness :
    KeepsLoopControl retriever ∧
    (∀ b ∈ start.arg.queryBatches, b.endPos - b.startPos ≤ 4) ∧
    ∃ (s' : Machine ℚ) (extra : List Call),
      runTopK retriever bucket 4 start = some s' ∧ s'.calls = start.calls ++ extra ∧
      ∀ u, (Call.plainRunTopK u ∈ extra ∨ Call.otherRunTopK u ∈ extra) →
        ∃ bi, bi < start.arg.queryBatches.length ∧
          (batchAt start.arg bi).startPos ≤ u ∧ u < (batchAt start.arg bi).endPos ∧
          inactiveAt (batchAt start.arg bi) (u - (batchAt start.arg bi).startPos) = false :=
  ⟨retriever_keepsLoopControl, by with_unfolding_all decide,
    (runTopK_skips_flagged_query retriever retriever_keepsLoopControl bucket 4 start
      (by with_unfolding_all decide)).2⟩

end LX_Retriever

end ta

namespace mips

namespace bound

namespace BallBound

open metric math

variable {K V : Type} [LinearOrderedField K] [AddCommGroup V] [Module K V]

end BallBound

end bound

end mips

namespace ta

namespace RetrievalArguments

variable {K : Type} [LinearOrderedField K]

/-- A resized buffer has the requested length. -/
theorem length_resize (buffer : List (QueueElement K)) (n : Nat) :
    (resize buffer n).length = n := by
  unfold resize
  simp only [List.length_append, List.length_take, List.length_replicate]
  omega

/-- Claim C19.  `moveTopkToHeap`, called with the offset `q * k` of a query whose `k` slots
lie inside the result buffer, puts those slots, in order, into the first `k` places of the
scratch heap (`heap[j] = topkResults[q * k + j]` for `j < k`), leaves any further place of
the heap and the whole result buffer unchanged, and keeps the length of a heap of at least
`k` entries. -/
theorem moveTopkToHeap_copies_slots (arg : RetrievalArguments K) (q : Nat)
    (hq : q * arg.k + arg.k ≤ arg.topkResults.length) :
    (∀ j, j < arg.k →
      (arg.moveTopkToHeap (q * arg.k)).heap[j]? = arg.topkResults[q * arg.k + j]?) ∧
    (∀ j, arg.k ≤ j → (arg.moveTopkToHeap (q * arg.k)).heap[j]? = arg.heap[j]?) ∧
    (arg.moveTopkToHeap (q * arg.k)).topkResults = arg.topkResults ∧
    (arg.k ≤ arg.heap.length →
      (arg.moveTopkToHeap (q * arg.k)).heap.length = arg.heap.length) := by
  have hlen : ((arg.topkResults.drop (q * arg.k)).take arg.k).length = arg.k := by
    simp only [List.length_take, List.length_drop]
    omega
  refine ⟨?_, ?_, rfl, ?_⟩
  · intro j hj
    simp only [moveTopkToHeap]
    rw [List.getElem?_append_left (by rw [hlen]; exact hj), List.getElem?_take_of_lt hj,
      List.getElem?_drop]
  · intro j hj
    simp only [moveTopkToHeap]
    rw [List.getElem?_append_right (by rw [hlen]; exact hj), hlen, List.getElem?_drop]
    congr 1
    omega
  · intro hk
    simp only [moveTopkToHeap, List.length_append, hlen, List.length_drop]
    omega

/-- Witness for C19: query `1` of the example, whose slots `2` and `3` lie inside the
buffer of eight slots. -/
theorem moveTopkToHeap_copies_slots_witness :
    1 * demo.arguments.k + demo.arguments.k ≤ demo.arguments.topkResults.length ∧
    (∀ j, j < demo.arguments.k →
      (demo.arguments.moveTopkToHeap (1 * demo.arguments.k)).heap[j]?
        = demo.arguments.topkResults[1 * demo.arguments.k + j]?) ∧
    (demo.arguments.moveTopkToHeap (1 * demo.arguments.k)).topkResults
      = demo.arguments.topkResults :=
  ⟨by with_unfolding_all decide,
    (moveTopkToHeap_copies_slots demo.arguments 1 (by with_unfolding_all decide)).1,
    (moveTopkToHeap_copies_slots demo.arguments 1 (by with_unfolding_all decide)).2.2.1⟩

/-- Claim C20.  `writeHeapToTopk(q)`, with a scratch heap of `k` entries and the slots of
query `q` inside the result buffer, makes the slots `q * k .. q * k + k - 1` equal to the
heap entry by entry, leaves every other slot, the length of the buffer and the heap
unchanged; `moveTopkToHeap(q * k)` followed by `writeHeapToTopk(q)` leaves the whole
buffer unchanged.  After `allocTopkResults` the heap has `k` entries and the buffer
`rowNum * k` slots. -/
theorem writeHeapToTopk_writes_own_slots (arg : RetrievalArguments K) (q : Nat)
    (hheap : arg.heap.length = arg.k)
    (hq : q * arg.k + arg.k ≤ arg.topkResults.length) :
    (∀ j, j < arg.k → (arg.writeHeapToTopk q).topkResults[q * arg.k + j]? = arg.heap[j]?) ∧
    (∀ i, i < q * arg.k ∨ q * arg.k + arg.k ≤ i →
      (arg.writeHeapToTopk q).topkResults[i]? = arg.topkResults[i]?) ∧
    (arg.writeHeapToTopk q).topkResults.length = arg.topkResults.length ∧
    (arg.writeHeapToTopk q).heap = arg.heap ∧
    ((arg.moveTopkToHeap (q * arg.k)).writeHeapToTopk q).topkResults = arg.topkResults ∧
    (∀ (a : RetrievalArguments K) (rowNum : Nat),
      (a.allocTopkResults rowNum).heap.length = a.k ∧
      (a.allocTopkResults rowNum).topkResults.length = rowNum * a.k) := by
  have htake : (arg.topkResults.take (q * arg.k)).length = q * arg.k := by
    simp only [List.length_take]
    omega
  refine ⟨?_, ?_, ?_, rfl, ?_, ?_⟩
  · intro j hj
    simp only [writeHeapToTopk, List.append_assoc]
    rw [List.getElem?_append_right (by rw [htake]; omega), htake,
      List.getElem?_append_left (by rw [hheap]; omega)]
    congr 1
    omega
  · intro i hi
    simp only [writeHeapToTopk, List.append_assoc]
    rcases hi with hi | hi
    · rw [List.getElem?_append_left (by rw [htake]; exact hi), List.getElem?_take_of_lt hi]
    · rw [List.getElem?_append_right (by rw [htake]; omega), htake,
        List.getElem?_append_right (by rw [hheap]; omega), hheap, List.getElem?_drop]
      congr 1
      omega
  · simp only [writeHeapToTopk, List.length_append, List.length_take, List.length_drop]
    omega
  · have hd : arg.heap.drop arg.k = [] := by
      rw [List.drop_eq_nil_iff]
      omega
    have hlen : ((arg.topkResults.drop (q * arg.k)).take arg.k).length = arg.k := by
      simp only [List.length_take, List.length_drop]
      omega
    simp only [writeHeapToTopk, moveTopkToHeap, hd, List.append_nil, hlen]
    rw [List.append_assoc, ← List.drop_drop, List.take_append_drop, List.take_append_drop]
  · intro a rowNum
    exact ⟨length_resize _ _, length_resize _ _⟩

/-- Witness for C20: query `1` of the example; its heap has `k = 2` entries. -/
theorem writeHeapToTopk_writes_own_slots_witness :
    demo.arguments.heap.length = demo.arguments.k ∧
    1 * demo.arguments.k + demo.arguments.k ≤ demo.arguments.topkResults.length ∧
    (∀ j, j < demo.arguments.k →
      (demo.arguments.writeHeapToTopk 1).topkResults[1 * demo.arguments.k + j]?
        = demo.arguments.heap[j]?) ∧
    ((demo.arguments.moveTopkToHeap (1 * demo.arguments.k)).writeHeapToTopk 1).topkResults
      = demo.arguments.topkResults :=
  ⟨by with_unfolding_all decide, by with_unfolding_all decide,
    (writeHeapToTopk_writes_own_slots demo.arguments 1 (by with_unfolding_all decide)
      (by with_unfolding_all decide)).1,
    (writeHeapToTopk_writes_own_slots demo.arguments 1 (by with_unfolding_all decide)
      (by with_unfolding_all decide)).2.2.2.2.1⟩

end RetrievalArguments

end ta

namespace ta

namespace LX_Retriever

variable {K : Type} [LinearOrderedField K]

/-- Claim C21.  Each of the four unsupported entry points ends the process for every input:
it writes the diagnostic and exits with status `1`; no state is returned, so no strategy was
called and neither the bucket, the query batch nor the retrieval arguments were changed. -/
theorem unsupported_entry_points_exit (L : LX_Retriever K) (query : Nat)
    (queryBatch : QueryBatch K) (probeBucket : ProbeBucket K) (s : Machine K) :
    runSingleQuery L query probeBucket s = Except.error
      { output := "You should not call run for single query on LEMP_LI\n", status := 1 } ∧
    runQueryBatch L queryBatch probeBucket s = Except.error
      { output := "You should not call run for single query on LEMP_LI\n", status := 1 } ∧
    runTopKSingleQuery L query probeBucket s = Except.error
      { output := "You should not call run for single query on LEMP_LI\n", status := 1 } ∧
    runTopKQueryBatch L queryBatch probeBucket s = Except.error
      { output := "You should not call run for single query on LEMP_LI\n", status := 1 } :=
  ⟨rfl, rfl, rfl, rfl⟩

end LX_Retriever

namespace AuxiliaryState

/-- Counterexample for C22 as stated.  For the method `LEMP_LI`, `init` leaves two
method-specific pointers non-null (`ext_cp_array` and `candidatesToVerify`); for `LEMP_AP`
and `LEMP_LSH` three; for `LEMP_L` none. -/
theorem init_counts :
    (init (construct LEMP_Method.LEMP_LI false)).ext_cp_array = true ∧
    (init (construct LEMP_Method.LEMP_LI false)).candidatesToVerify = true ∧
    nonNullCount (init (construct LEMP_Method.LEMP_LI false)) = 2 ∧
    nonNullCount (init (construct LEMP_Method.LEMP_AP false)) = 3 ∧
    nonNullCount (init (construct LEMP_Method.LEMP_LSH false)) = 3 ∧
    nonNullCount (init (construct LEMP_Method.LEMP_L false)) = 0 := by
  decide

/-- Claim C22, amended.  After construction every method-specific pointer is null; after
`init` the non-null pointers are exactly those of the configured method: `state` for
`LEMP_TA`, `tanraState` for `LEMP_TANRA`, `cp_array` for `LEMP_LC` and `LEMP_C`,
`ext_cp_array` for `LEMP_LI` and `LEMP_I`, `hashlen` and `hashwgt` for `LEMP_AP`,
`sketches` and `rig` for `LEMP_LSH`, and the shared `candidatesToVerify` for all of these
but `LEMP_TA`; `LEMP_L` has none.  The method itself is not changed. -/
theorem init_allocates_by_method (method : LEMP_Method) (isTARR : Bool) :
    nonNullCount (construct method isTARR) = 0 ∧
    (init (construct method isTARR)).method = method ∧
    ((init (construct method isTARR)).state = true ↔ method = LEMP_Method.LEMP_TA) ∧
    ((init (construct method isTARR)).tanraState = true ↔ method = LEMP_Method.LEMP_TANRA) ∧
    ((init (construct method isTARR)).cp_array = true ↔
      (method = LEMP_Method.LEMP_LC ∨ method = LEMP_Method.LEMP_C)) ∧
    ((init (construct method isTARR)).ext_cp_array = true ↔
      (method = LEMP_Method.LEMP_LI ∨ method = LEMP_Method.LEMP_I)) ∧
    ((init (construct method isTARR)).hashlen = true ↔ method = LEMP_Method.LEMP_AP) ∧
    ((init (construct method isTARR)).hashwgt = true ↔ method = LEMP_Method.LEMP_AP) ∧
    ((init (construct method isTARR)).sketches = true ↔ method = LEMP_Method.LEMP_LSH) ∧
    ((init (construct method isTARR)).rig = true ↔ method = LEMP_Method.LEMP_LSH) ∧
    ((init (construct method isTARR)).candidatesToVerify = true ↔
      (method ≠ LEMP_Method.LEMP_L ∧ method ≠ LEMP_Method.LEMP_TA)) := by
  cases method <;> cases isTARR <;> decide

end AuxiliaryState

end ta

namespace ta

namespace LX_Retriever

variable {K : Type} [LinearOrderedField K]

open demo

/-- Counterexample for C16 as stated.  A call of `tune` on a dispatcher with an empty
sample table returns without writing the bucket (no call is logged, the outcome stays
unset), so the bucket is not written once in every tuning call.  And a call of `tuneTopk`
whose alternative reports a winning index outside the table ends in the exception of
`at()` without a result. -/
theorem tune_without_samples_writes_nothing :
    (tune (tuners 15 2) (untuned [])).map (fun s => s.calls) = some [] ∧
    (tune (tuners 15 2) (untuned [])).map (fun s => s.state.outcome) = some none ∧
    tuneDecision
      { state := { (untuned []).state with
                   dataForTuning := { bestTime := 0, t_b_indx := 3, bestPhi := 2 } },
        calls := [] } = none := by
  with_unfolding_all decide

/-- Claim C16, amended.  The decision of `tune` and `tuneTopk`: if the baseline's total
sampled time is strictly less than the alternative's best time, the bucket is written with
`(1, 1)`; otherwise (a tie included) with `(bestPhi + 1, value)`, where `value` is `-1` if
the winning index `t_b_indx` is `0` and otherwise the result stored at that index of the
sample table; an index outside the table ends the call without a write.  `tuneTopk` always
reaches the decision, `tune` only for a non-empty sample table (otherwise it changes
nothing); the passes in front of the decision log no write, so a call that decides writes
the bucket exactly once. -/
theorem tuning_decision_rule (T : Tuners K) (s t : TuneMachine K) :
    (t.state.sampleTotalTime < t.state.dataForTuning.bestTime →
      tuneDecision t = some (writeBucket t 1 1)) ∧
    (¬ t.state.sampleTotalTime < t.state.dataForTuning.bestTime →
      (t.state.dataForTuning.t_b_indx = 0 →
        tuneDecision t
          = some (writeBucket t ((t.state.dataForTuning.bestPhi + 1 : Int) : K) (-1))) ∧
      (t.state.dataForTuning.t_b_indx ≠ 0 →
        (∀ item, t.state.xValues[t.state.dataForTuning.t_b_indx]? = some item →
          tuneDecision t = some
            (writeBucket t ((t.state.dataForTuning.bestPhi + 1 : Int) : K) item.result)) ∧
        (t.state.xValues[t.state.dataForTuning.t_b_indx]? = none →
          tuneDecision t = none))) ∧
    (∀ a b, (writeBucket t a b).calls = t.calls ++ [TuneCall.setAfterTuning a b] ∧
      (writeBucket t a b).state.outcome = some { thresholdRatio := a, chosenValue := b }) ∧
    (tune T s = if s.state.xValues.length > 0 then tuneDecision (tunePasses T s) else some s) ∧
    (tunePasses T s).calls = s.calls ++ [TuneCall.plainTune, TuneCall.otherTune] ∧
    tuneTopk T s = tuneDecision (tuneTopkPasses T s) ∧
    (tuneTopkPasses T s).calls = s.calls ++ [TuneCall.otherTuneTopk] := by
  refine ⟨?_, ?_, ?_, rfl, rfl, rfl, rfl⟩
  · intro h
    simp only [tuneDecision, if_pos h]
  · intro h
    refine ⟨?_, ?_⟩
    · intro h0
      simp only [tuneDecision, if_neg h, if_pos h0]
    · intro h0
      refine ⟨?_, ?_⟩
      · intro item hitem
        simp only [tuneDecision, if_neg h, if_neg h0, hitem]
      · intro hnone
        simp only [tuneDecision, if_neg h, if_neg h0, hnone]
  · intro a b
    exact ⟨rfl, rfl⟩

/-- Evaluation for C17 at its failing input.  With an empty sample table `tune` makes no
call and leaves the machine as it is, but `tuneTopk` still runs the alternative's tuning
pass and writes the bucket. -/
theorem tuneTopk_without_samples_still_tunes :
    tune (tuners 15 2) (untuned []) = some (untuned []) ∧
    (tuneTopk (tuners 15 2) (untuned [])).map (fun s => s.calls)
      = some [TuneCall.otherTuneTopk, TuneCall.setAfterTuning 1 1] ∧
    (tuneTopk (tuners 15 2) (untuned [])).map (fun s => s.state.outcome)
      = some (some { thresholdRatio := 1, chosenValue := 1 }) := by
  with_unfolding_all decide

/-- Evaluation for C18 at its failing input.  Two calls of `tuneTopk` with the same sample
table (one sample with the recorded baseline time `10`) and the same result of the
alternative (best time `15`, index `0`, `bestPhi = 2`): on the untuned dispatcher the total
is `10` and the bucket gets `(1, 1)`; on the dispatcher left by that call the total has grown
to `20` and the bucket gets `(3, -1)`. -/
theorem tuneTopk_depends_on_earlier_tuning :
    (tuneTopk (tuners 15 2) (untuned [{ result := 1 / 2, i := 0, j := 0 }])).map
        (fun s => (s.state.sampleTotalTime, s.state.outcome))
      = some (10, some { thresholdRatio := 1, chosenValue := 1 }) ∧
    ((tuneTopk (tuners 15 2) (untuned [{ result := 1 / 2, i := 0, j := 0 }])).bind
        (fun s => tuneTopk (tuners 15 2) s)).map
        (fun s => (s.state.xValues, s.state.sampleTotalTime, s.state.outcome))
      = some ([{ result := 1 / 2, i := 0, j := 0 }], 20,
          some { thresholdRatio := 3, chosenValue := -1 }) := by
  with_unfolding_all decide

end LX_Retriever

end ta

/-! ## Batch mode: what dispatching keeps, and what it logs -/

namespace ta

namespace LX_Retriever

variable {K : Type} [LinearOrderedField K]

/-- Setting a clear flag that exists raises the number of set flags by one. -/
theorem count_set_true (l : List Bool) (n : Nat) (hn : n < l.length)
    (h : l.getD n false = false) : (l.set n true).count true = l.count true + 1 := by
  induction l generalizing n with
  | nil => simp at hn
  | cons a l ih =>
    cases n with
    | zero =>
      simp only [List.getD_cons_zero] at h
      subst h
      simp
    | succ n =>
      simp only [List.getD_cons_succ] at h
      simp only [List.length_cons, Nat.add_lt_add_iff_right] at hn
      simp only [List.set_cons_succ, List.count_cons, ih n hn h]
      omega

/-- Every batch is kept by doing nothing. -/
theorem batchKept_refl (q : QueryBatch K) : BatchKept q q :=
  ⟨rfl, rfl, rfl, rfl, rfl, fun _ h => h⟩

/-- Keeping a batch composes. -/
theorem batchKept_trans {a b c : QueryBatch K} (h1 : BatchKept a b) (h2 : BatchKept b c) :
    BatchKept a c :=
  ⟨h2.1.trans h1.1, h2.2.1.trans h1.2.1, h2.2.2.1.trans h1.2.2.1,
    h2.2.2.2.1.trans h1.2.2.2.1, h2.2.2.2.2.1.trans h1.2.2.2.2.1,
    fun pos h => h1.2.2.2.2.2 pos (h2.2.2.2.2.2 pos h)⟩

/-- Every state is kept by doing nothing. -/
theorem kept_refl (arg : RetrievalArguments K) : Kept arg arg :=
  ⟨rfl, rfl, rfl, fun _ => batchKept_refl _⟩

/-- Keeping the arguments composes. -/
theorem kept_trans {a b c : RetrievalArguments K} (h1 : Kept a b) (h2 : Kept b c) :
    Kept a c :=
  ⟨h2.1.trans h1.1, h2.2.1.trans h1.2.1, h2.2.2.1.trans h1.2.2.1,
    fun bj => batchKept_trans (h1.2.2.2 bj) (h2.2.2.2 bj)⟩

/-- Arguments with the same `k`, `maxLists` and query batches are kept. -/
theorem kept_of_eq {a b : RetrievalArguments K} (hk : b.k = a.k)
    (hm : b.maxLists = a.maxLists) (hq : b.queryBatches = a.queryBatches) : Kept a b := by
  refine ⟨hk, hm, by rw [hq], fun bj => ?_⟩
  have e : batchAt b bj = batchAt a bj := by
    unfold batchAt
    rw [hq]
  rw [e]
  exact batchKept_refl _

/-- The result of an entry point that keeps control is kept. -/
theorem kept_of_keepsControl {f : RetrievalArguments K → RetrievalArguments K}
    (hf : KeepsControl f) (arg : RetrievalArguments K) : Kept arg (f arg) :=
  kept_of_eq (hf arg).1 (hf arg).2.1 (hf arg).2.2

/-- Replacing batch `bi` by a kept version of it keeps the arguments. -/
theorem kept_setBatch (arg : RetrievalArguments K) (bi : Nat) (qb : QueryBatch K)
    (h : BatchKept (batchAt arg bi) qb) : Kept arg (setBatch arg bi qb) := by
  refine ⟨rfl, rfl, by simp [setBatch], fun bj => ?_⟩
  by_cases hb : bi = bj
  · subst hb
    rw [batchAt_setBatch]
    split_ifs
    · exact h
    · exact batchKept_refl _
  · rw [batchAt_setBatch_ne arg bi bj qb hb]
    exact batchKept_refl _

/-- Arguments with the same query batches have the same built queues. -/
theorem built_of_eq {a b : RetrievalArguments K} (hq : b.queryBatches = a.queryBatches)
    (bj : Nat) : built b bj = built a bj := by
  unfold built batchAt
  rw [hq]

/-- The queues of a batch are built or not. -/
theorem built_le_one (a : RetrievalArguments K) (bj : Nat) : built a bj ≤ 1 := by
  unfold built
  split_ifs <;> omega

/-- The counters keep pace with the flags when nothing is done. -/
theorem counted_refl (arg : RetrievalArguments K) : Counted arg arg :=
  fun _ => rfl

/-- Keeping pace composes. -/
theorem counted_trans {a b c : RetrievalArguments K} (h1 : Counted a b) (h2 : Counted b c) :
    Counted a c := by
  intro bj
  have := h1 bj
  have := h2 bj
  omega

/-- The counters keep pace with the flags when the query batches stay as they are. -/
theorem counted_of_eq {a b : RetrievalArguments K} (hq : b.queryBatches = a.queryBatches) :
    Counted a b := by
  intro bj
  have e : batchAt b bj = batchAt a bj := by
    unfold batchAt
    rw [hq]
  rw [e]

/-- The counters keep pace with the flags when one batch is replaced by one with the same
flags and counter. -/
theorem counted_setBatch (arg : RetrievalArguments K) (bi : Nat) (qb : QueryBatch K)
    (hf : qb.inactiveQueries = (batchAt arg bi).inactiveQueries)
    (hc : qb.inactiveCounter = (batchAt arg bi).inactiveCounter) :
    Counted arg (setBatch arg bi qb) := by
  intro bj
  by_cases hb : bi = bj
  · subst hb
    rw [batchAt_setBatch]
    split_ifs
    · simp only [setFlags, hf, hc]
    · rfl
  · rw [batchAt_setBatch_ne arg bi bj qb hb]

/-- A frame condition implies the loop-control condition of the top-k statements. -/
theorem keepsLoopControl_of_framed (L : LX_Retriever K) (hL : Framed L) :
    KeepsLoopControl L := by
  obtain ⟨h1, _, h3⟩ := hL
  refine ⟨fun u pb arg => ?_, fun u pb arg => ?_, fun qb m => ?_⟩
  · exact ⟨((h1 u pb).2.2.1 arg).1, ((h1 u pb).2.2.1 arg).2.2⟩
  · exact ⟨((h1 u pb).2.2.2.2.2 arg).1, ((h1 u pb).2.2.2.2.2 arg).2.2⟩
  · rw [h3 qb m]
    exact ⟨rfl, rfl, rfl⟩

/-- The check of the log passes all the more when more queues are built. -/
theorem queuesReady_mono (e : List Call) :
    ∀ (r r1 : Nat → Bool) (p : Bool), (∀ b, r b = true → r1 b = true) →
      queuesReady r p e = true → queuesReady r1 p e = true := by
  induction e with
  | nil => intro r r1 p _ h; exact h
  | cons c rest ih =>
    intro r r1 p hr h
    cases c <;> simp only [queuesReady, Bool.and_eq_true] at h ⊢
    case setQueues q => exact ⟨h.1, hr _ h.2.1, ih r r1 true hr h.2.2⟩
    case preprocess b =>
      refine ⟨h.1, ih _ _ false ?_ h.2⟩
      intro x hx
      simp only [Bool.or_eq_true, decide_eq_true_eq] at hx ⊢
      exact hx.imp id (hr x)
    all_goals exact ⟨h.1, ih r r1 false hr h.2⟩

/-- The check of the log passes for two stretches in a row when it passes for each, the
second with the queues that are built after the first. -/
theorem queuesReady_append (e1 e2 : List Call) (r2 : Nat → Bool)
    (h2 : queuesReady r2 false e2 = true) :
    ∀ (r : Nat → Bool) (p : Bool), queuesReady r p e1 = true →
      (∀ b, r2 b = true → r b = true ∨ Call.preprocess b ∈ e1) →
      queuesReady r p (e1 ++ e2) = true := by
  induction e1 with
  | nil =>
    intro r p h1 h3
    have hp : p = false := by simpa [queuesReady] using h1
    subst hp
    refine queuesReady_mono e2 r2 r false ?_ h2
    intro b hb
    simpa using h3 b hb
  | cons c rest ih =>
    intro r p h1 h3
    cases c <;> simp only [queuesReady, Bool.and_eq_true, List.cons_append] at h1 ⊢
    case setQueues q =>
      refine ⟨h1.1, h1.2.1, ih r true h1.2.2 ?_⟩
      intro b hb
      simpa using h3 b hb
    case preprocess b0 =>
      refine ⟨h1.1, ih _ false h1.2 ?_⟩
      intro b hb
      rcases h3 b hb with h | h
      · left
        simp [h]
      · simp only [List.mem_cons, Call.preprocess.injEq] at h
        rcases h with h | h
        · left
          simp [h]
        · right
          exact h
    all_goals
      refine ⟨h1.1, ih r false h1.2 ?_⟩
      intro b hb
      simpa using h3 b hb

/-- Doing nothing is a step. -/
theorem step_refl (s : Machine K) : Step s s :=
  ⟨kept_refl _, [], by simp, fun bj => by simp, rfl⟩

/-- Steps compose. -/
theorem step_trans {a b c : Machine K} (h1 : Step a b) (h2 : Step b c) : Step a c := by
  obtain ⟨k1, e1, c1, n1, q1⟩ := h1
  obtain ⟨k2, e2, c2, n2, q2⟩ := h2
  refine ⟨kept_trans k1 k2, e1 ++ e2, by rw [c2, c1, List.append_assoc], fun bj => ?_, ?_⟩
  · have := n1 bj
    have := n2 bj
    rw [List.count_append]
    omega
  · refine queuesReady_append e1 e2 _ q2 _ false q1 ?_
    intro bj hb
    have hn := n1 bj
    have hb1 : built b.arg bj = 1 := by simp [built, hb]
    by_cases h0 : (batchAt a.arg bj).initializedQueues = true
    · exact Or.inl h0
    · right
      have : built a.arg bj = 0 := by simp [built, h0]
      apply List.count_pos_iff.mp
      omega

/-- A change that keeps `k`, `maxLists` and the query batches and logs one call that is no
`preprocess`, `setQueues` or per-query call of the alternative is a step. -/
theorem step_of_eq {s s1 : Machine K} (c : Call) (hk : s1.arg.k = s.arg.k)
    (hm : s1.arg.maxLists = s.arg.maxLists)
    (hq : s1.arg.queryBatches = s.arg.queryBatches) (hc : s1.calls = s.calls ++ [c])
    (hn : ∀ r, queuesReady r false [c] = true) (hp : ∀ bj, c ≠ Call.preprocess bj) :
    Step s s1 := by
  refine ⟨kept_of_eq hk hm hq, [c], hc, fun bj => ?_, hn _⟩
  have : [c].count (Call.preprocess bj) = 0 := by
    apply List.count_eq_zero_of_not_mem
    simp only [List.mem_singleton]
    exact fun h => hp bj h.symm
  rw [this, built_of_eq hq]
  omega

/-- A change that keeps `k`, `maxLists` and the query batches and logs nothing is a step. -/
theorem step_of_silent {s s1 : Machine K} (hk : s1.arg.k = s.arg.k)
    (hm : s1.arg.maxLists = s.arg.maxLists)
    (hq : s1.arg.queryBatches = s.arg.queryBatches) (hc : s1.calls = s.calls) :
    Step s s1 := by
  refine ⟨kept_of_eq hk hm hq, [], by simp [hc], fun bj => ?_, rfl⟩
  rw [built_of_eq hq]
  simp

/-- The lazy `preprocess` of a batch of the arguments is a step; it logs `preprocess` exactly
when the queues were not built, and the queues are marked as built afterwards. -/
theorem lazyPreprocess_step (L : LX_Retriever K) (hL : Framed L) (bi : Nat) (s : Machine K)
    (hbi : bi < s.arg.queryBatches.length) :
    Step s (lazyPreprocess L bi s) ∧
    (lazyPreprocess L bi s).calls = s.calls ++
      (if (batchAt s.arg bi).initializedQueues then [] else [Call.preprocess bi]) ∧
    (batchAt (lazyPreprocess L bi s).arg bi).initializedQueues = true := by
  unfold lazyPreprocess
  by_cases hi : (batchAt s.arg bi).initializedQueues = true
  · simp only [hi, if_true, List.append_nil]
    exact ⟨step_refl s, trivial, trivial⟩
  · simp only [hi, Bool.false_eq_true, if_false]
    have hb : batchAt (setBatch s.arg bi
        { L.preprocess (batchAt s.arg bi) s.arg.maxLists with initializedQueues := true }) bi
        = { L.preprocess (batchAt s.arg bi) s.arg.maxLists with initializedQueues := true } := by
      rw [batchAt_setBatch, if_pos hbi]
    refine ⟨⟨?_, [Call.preprocess bi], rfl, fun bj => ?_, ?_⟩, trivial, ?_⟩
    · apply kept_setBatch
      rw [hL.2.2 (batchAt s.arg bi) s.arg.maxLists]
      exact ⟨rfl, rfl, rfl, rfl, rfl, fun _ h => h⟩
    · by_cases hb2 : bi = bj
      · subst hb2
        simp only [built, hb, hi]
        simp
      · have e : built (setBatch s.arg bi
            { L.preprocess (batchAt s.arg bi) s.arg.maxLists with initializedQueues := true }) bj
            = built s.arg bj := by
          unfold built
          rw [batchAt_setBatch_ne _ _ _ _ hb2]
        rw [e]
        have : [Call.preprocess bi].count (Call.preprocess bj) = 0 := by
          apply List.count_eq_zero_of_not_mem
          simp
          exact fun h => hb2 h.symm
        omega
    · simp [queuesReady]
    · rw [hb]

/-- The lazy `preprocess` leaves the flags and the counter of every batch as they are. -/
theorem lazyPreprocess_counted (L : LX_Retriever K) (hL : Framed L) (bi : Nat)
    (s : Machine K) : Counted s.arg (lazyPreprocess L bi s).arg := by
  unfold lazyPreprocess
  split_ifs
  · exact counted_refl _
  · apply counted_setBatch
    · rw [hL.2.2 (batchAt s.arg bi) s.arg.maxLists]
    · rw [hL.2.2 (batchAt s.arg bi) s.arg.maxLists]

/-- The calls of a pass of the per-query loop of `run` read only kept data. -/
theorem queryCalls_of_kept (L : LX_Retriever K) (pb : ProbeBucket K) (bi : Nat)
    {a b : RetrievalArguments K} (h : Kept a b) (u : Nat) :
    queryCalls L pb bi b u = queryCalls L pb bi a u := by
  unfold queryCalls
  rw [h.2.1, (h.2.2.2 bi).1]

/-- One pass of the per-query loop of `run` logs the calls `queryCalls`. -/
theorem runQuery_calls (L : LX_Retriever K) (pb : ProbeBucket K) (bi i : Nat)
    (s : Machine K) :
    (runQuery L pb bi i s).calls = s.calls ++ queryCalls L pb bi s.arg i := by
  unfold runQuery queryCalls
  split_ifs
  · rfl
  · simp [setLocalQueue, batchAt]

/-- One pass of the per-query loop of `run` leaves `k`, `maxLists` and the query batches as
they are. -/
theorem runQuery_frame (L : LX_Retriever K) (hL : Framed L) (pb : ProbeBucket K)
    (bi i : Nat) (s : Machine K) :
    (runQuery L pb bi i s).arg.k = s.arg.k ∧
    (runQuery L pb bi i s).arg.maxLists = s.arg.maxLists ∧
    (runQuery L pb bi i s).arg.queryBatches = s.arg.queryBatches := by
  unfold runQuery
  split_ifs
  · exact (hL.1 i pb).1 _
  · exact (hL.1 i pb).2.2.2.1 _

/-- One pass of the per-query loop of `run` on a batch whose queues are built is a step. -/
theorem runQuery_step (L : LX_Retriever K) (hL : Framed L) (pb : ProbeBucket K)
    (bi i : Nat) (s : Machine K) (hinit : (batchAt s.arg bi).initializedQueues = true) :
    Step s (runQuery L pb bi i s) := by
  obtain ⟨hk, hm, hq⟩ := runQuery_frame L hL pb bi i s
  refine ⟨kept_of_eq hk hm hq, queryCalls L pb bi s.arg i, runQuery_calls L pb bi i s,
    fun bj => ?_, ?_⟩
  · rw [built_of_eq hq]
    have : (queryCalls L pb bi s.arg i).count (Call.preprocess bj) = 0 := by
      apply List.count_eq_zero_of_not_mem
      unfold queryCalls
      split_ifs <;> simp
    omega
  · unfold queryCalls
    split_ifs <;> simp [queuesReady, hinit]

/-- The per-query loop of `run` one pass at a time. -/
theorem runQueryLoop_succ (L : LX_Retriever K) (pb : ProbeBucket K) (bi fuel i : Nat)
    (s : Machine K) :
    runQueryLoop L pb bi (fuel + 1) i s
      = if i < (batchAt s.arg bi).endPos then
          if L.queryMatrix.length i < pb.bucketScanThreshold then some s
          else runQueryLoop L pb bi fuel (i + 1) (runQuery L pb bi i s)
        else some s := rfl

/-- The scanned rows one row at a time. -/
theorem scannedRows_eq (L : LX_Retriever K) (pb : ProbeBucket K) (i stop : Nat) :
    scannedRows L pb i stop
      = if i < stop then
          if L.queryMatrix.length i < pb.bucketScanThreshold then []
          else i :: scannedRows L pb (i + 1) stop
        else [] := by
  unfold scannedRows
  split_ifs with h1 h2
  · have : stop - i = (stop - (i + 1)) + 1 := by omega
    rw [this, List.range'_succ, List.takeWhile_cons]
    simp [h2]
  · have : stop - i = (stop - (i + 1)) + 1 := by omega
    rw [this, List.range'_succ, List.takeWhile_cons]
    simp [h2]
  · have : stop - i = 0 := by omega
    rw [this]
    rfl

/-- The per-query loop of `run` ends when the fuel covers the rows still to visit; it logs
the calls of the scanned rows, in position order, and on a batch whose queues are built it
is a step. -/
theorem runQueryLoop_calls (L : LX_Retriever K) (hL : Framed L) (pb : ProbeBucket K)
    (bi : Nat) :
    ∀ (fuel i : Nat) (s : Machine K), (batchAt s.arg bi).endPos - i ≤ fuel →
      ∃ s' : Machine K, runQueryLoop L pb bi fuel i s = some s' ∧
        s'.arg.k = s.arg.k ∧ s'.arg.maxLists = s.arg.maxLists ∧
        s'.arg.queryBatches = s.arg.queryBatches ∧
        s'.calls = s.calls ++
          (scannedRows L pb i (batchAt s.arg bi).endPos).flatMap (queryCalls L pb bi s.arg) ∧
        ((batchAt s.arg bi).initializedQueues = true → Step s s') := by
  intro fuel
  induction fuel with
  | zero =>
    intro i s hf
    have hi : ¬ i < (batchAt s.arg bi).endPos := by omega
    refine ⟨s, by simp only [runQueryLoop, if_neg hi], rfl, rfl, rfl, ?_, fun _ => step_refl s⟩
    rw [scannedRows_eq, if_neg hi]
    simp
  | succ fuel ih =>
    intro i s hf
    rw [runQueryLoop_succ, scannedRows_eq]
    by_cases hi : i < (batchAt s.arg bi).endPos
    · rw [if_pos hi, if_pos hi]
      by_cases hlen : L.queryMatrix.length i < pb.bucketScanThreshold
      · rw [if_pos hlen, if_pos hlen]
        exact ⟨s, rfl, rfl, rfl, rfl, by simp, fun _ => step_refl s⟩
      · rw [if_neg hlen, if_neg hlen]
        obtain ⟨hk, hm, hq⟩ := runQuery_frame L hL pb bi i s
        have hb : batchAt (runQuery L pb bi i s).arg bi = batchAt s.arg bi := by
          unfold batchAt
          rw [hq]
        obtain ⟨s', hrun, hk', hm', hq', hcalls, hstep⟩ :=
          ih (i + 1) (runQuery L pb bi i s) (by rw [hb]; omega)
        refine ⟨s', hrun, hk'.trans hk, hm'.trans hm, hq'.trans hq, ?_, ?_⟩
        · rw [hcalls, runQuery_calls, hb, List.flatMap_cons, List.append_assoc]
          congr 2
          congr 1
          funext u
          exact queryCalls_of_kept L pb bi (kept_of_eq hk hm hq) u
        · intro hinit
          exact step_trans (runQuery_step L hL pb bi i s hinit) (hstep (by rw [hb]; exact hinit))
    · rw [if_neg hi, if_neg hi]
      exact ⟨s, rfl, rfl, rfl, rfl, by simp, fun _ => step_refl s⟩

/-- The loop of `run` over the batches one batch at a time. -/
theorem runBatches_cons (L : LX_Retriever K) (pb : ProbeBucket K) (fuel bi : Nat)
    (rest : List Nat) (s : Machine K) :
    runBatches L pb fuel (bi :: rest) s
      = if (batchAt s.arg bi).normL2.2 < pb.bucketScanThreshold then some s
        else match runBatchBody L pb fuel bi s with
          | none => none
          | some s1 => runBatches L pb fuel rest s1 := by
  simp only [runBatches, runBatchBody]
  split_ifs <;> rfl

/-- The lazy `preprocess` of batch `bi` leaves the other batches as they are. -/
theorem lazyPreprocess_other (L : LX_Retriever K) (bi bj : Nat) (s : Machine K)
    (h : bi ≠ bj) : batchAt (lazyPreprocess L bi s).arg bj = batchAt s.arg bj := by
  unfold lazyPreprocess
  split_ifs
  · rfl
  · exact batchAt_setBatch_ne _ _ _ _ h

/-- The body of the batch loop of `run` ends when the fuel covers the rows of the batch; it
is a step, logs the calls `batchCalls` and leaves the other batches as they are. -/
theorem runBatchBody_step (L : LX_Retriever K) (hL : Framed L) (pb : ProbeBucket K)
    (fuel bi : Nat) (s : Machine K) (hbi : bi < s.arg.queryBatches.length)
    (hfuel : (batchAt s.arg bi).endPos - (batchAt s.arg bi).startPos ≤ fuel) :
    ∃ s1 : Machine K, runBatchBody L pb fuel bi s = some s1 ∧ Step s s1 ∧
      s1.calls = s.calls ++ batchCalls L pb s.arg bi ∧
      (∀ bj, bi ≠ bj → batchAt s1.arg bj = batchAt s.arg bj) ∧
      Counted s.arg s1.arg := by
  unfold runBatchBody batchCalls
  by_cases h1 : pb.t_b = 1 ∨ pb.t_b * (batchAt s.arg bi).normL2.1 > pb.bucketScanThreshold
  · rw [if_pos h1, if_pos h1]
    obtain ⟨hk, hm, hq⟩ := (hL.1 bi pb).2.1 s.arg
    refine ⟨_, rfl, step_of_eq (Call.plainRunBatch bi) hk hm hq rfl (fun _ => rfl)
      (fun _ => by simp), rfl, fun bj _ => ?_, counted_of_eq hq⟩
    unfold batchAt
    rw [hq]
  · rw [if_neg h1, if_neg h1]
    by_cases h2 : pb.t_b * (batchAt s.arg bi).normL2.2 ≤ pb.bucketScanThreshold
    · rw [if_pos h2, if_pos h2]
      obtain ⟨hk, hm, hq⟩ := (hL.1 bi pb).2.2.2.2.1 s.arg
      refine ⟨_, rfl, step_of_eq (Call.otherRunBatch bi) hk hm hq rfl (fun _ => rfl)
        (fun _ => by simp), rfl, fun bj _ => ?_, counted_of_eq hq⟩
      unfold batchAt
      rw [hq]
    · rw [if_neg h2, if_neg h2]
      obtain ⟨hstep, hcalls, hinit⟩ := lazyPreprocess_step L hL bi s hbi
      have hkept := hstep.1
      have hs : (batchAt (lazyPreprocess L bi s).arg bi).startPos = (batchAt s.arg bi).startPos :=
        (hkept.2.2.2 bi).1
      have he : (batchAt (lazyPreprocess L bi s).arg bi).endPos = (batchAt s.arg bi).endPos :=
        (hkept.2.2.2 bi).2.1
      obtain ⟨s1, hrun, _, _, hq, hc, hst⟩ :=
        runQueryLoop_calls L hL pb bi fuel (batchAt (lazyPreprocess L bi s).arg bi).startPos
          (lazyPreprocess L bi s) (by rw [hs, he]; exact hfuel)
      refine ⟨s1, hrun, step_trans hstep (hst hinit), ?_, fun bj hb => ?_,
        counted_trans (lazyPreprocess_counted L hL bi s) (counted_of_eq hq)⟩
      · rw [hc, hcalls, hs, he, List.append_assoc]
        congr 2
        congr 1
        funext u
        exact queryCalls_of_kept L pb bi hkept u
      · rw [← lazyPreprocess_other L bi bj s hb]
        unfold batchAt
        rw [hq]

/-- Mapping two functions that agree on a list over it gives the same calls. -/
theorem flatMap_congr_mem {α β : Type} (l : List α) (f g : α → List β)
    (h : ∀ x ∈ l, f x = g x) : l.flatMap f = l.flatMap g := by
  induction l with
  | nil => rfl
  | cons a l ih =>
    rw [List.flatMap_cons, List.flatMap_cons, h a (List.mem_cons_self a l),
      ih (fun x hx => h x (List.mem_cons_of_mem a hx))]

/-- The calls of a batch read only kept data and the batch's own queue flag. -/
theorem batchCalls_of_kept (L : LX_Retriever K) (pb : ProbeBucket K) (bj : Nat)
    {a b : RetrievalArguments K} (h : Kept a b)
    (hi : (batchAt b bj).initializedQueues = (batchAt a bj).initializedQueues) :
    batchCalls L pb b bj = batchCalls L pb a bj := by
  unfold batchCalls
  rw [(h.2.2.2 bj).1, (h.2.2.2 bj).2.1, (h.2.2.2 bj).2.2.2.1, hi]
  have : queryCalls L pb bj b = queryCalls L pb bj a := by
    funext u
    exact queryCalls_of_kept L pb bj h u
  rw [this]

/-- The live batches read only kept data. -/
theorem liveBatches_of_kept (pb : ProbeBucket K) {a b : RetrievalArguments K} (h : Kept a b)
    (bis : List Nat) : liveBatches pb b bis = liveBatches pb a bis := by
  unfold liveBatches
  congr 1
  funext x
  rw [(h.2.2.2 x).2.2.2.1]

/-- The live batches one batch at a time. -/
theorem liveBatches_cons (pb : ProbeBucket K) (arg : RetrievalArguments K) (bi : Nat)
    (rest : List Nat) :
    liveBatches pb arg (bi :: rest)
      = if (batchAt arg bi).normL2.2 < pb.bucketScanThreshold then []
        else bi :: liveBatches pb arg rest := by
  unfold liveBatches
  rw [List.takeWhile_cons]
  by_cases h : (batchAt arg bi).normL2.2 < pb.bucketScanThreshold
  · simp [h]
  · simp [h]

/-- The live batches are among the batches. -/
theorem mem_of_mem_liveBatches (pb : ProbeBucket K) (arg : RetrievalArguments K)
    (bis : List Nat) (b : Nat) (h : b ∈ liveBatches pb arg bis) : b ∈ bis :=
  (List.takeWhile_sublist _).subset h

/-- The loop of `run` over distinct batches of the arguments ends when the fuel covers the
rows of every batch; it is a step and logs the calls of the live batches, in order. -/
theorem runBatches_calls (L : LX_Retriever K) (hL : Framed L) (pb : ProbeBucket K)
    (fuel : Nat) :
    ∀ (bis : List Nat) (s : Machine K), bis.Nodup →
      (∀ b ∈ bis, b < s.arg.queryBatches.length) →
      (∀ b, (batchAt s.arg b).endPos - (batchAt s.arg b).startPos ≤ fuel) →
      ∃ s' : Machine K, runBatches L pb fuel bis s = some s' ∧ Step s s' ∧
        s'.calls = s.calls ++ (liveBatches pb s.arg bis).flatMap (batchCalls L pb s.arg) ∧
        Counted s.arg s'.arg := by
  intro bis
  induction bis with
  | nil =>
    intro s _ _ _
    exact ⟨s, rfl, step_refl s, by simp [liveBatches], counted_refl _⟩
  | cons bi rest ih =>
    intro s hnd hlen hfuel
    rw [runBatches_cons, liveBatches_cons]
    by_cases hlow : (batchAt s.arg bi).normL2.2 < pb.bucketScanThreshold
    · rw [if_pos hlow, if_pos hlow]
      exact ⟨s, rfl, step_refl s, by simp, counted_refl _⟩
    · rw [if_neg hlow, if_neg hlow]
      obtain ⟨s1, hbody, hstep, hcalls, hother, hcnt⟩ :=
        runBatchBody_step L hL pb fuel bi s (hlen bi (List.mem_cons_self _ _)) (hfuel bi)
      rw [hbody]
      have hk := hstep.1
      obtain ⟨s', hrun, hstep', hcalls', hcnt'⟩ := ih s1 (List.nodup_cons.mp hnd).2
        (fun b hb => by rw [hk.2.2.1]; exact hlen b (List.mem_cons_of_mem _ hb))
        (fun b => by rw [(hk.2.2.2 b).1, (hk.2.2.2 b).2.1]; exact hfuel b)
      refine ⟨s', hrun, step_trans hstep hstep', ?_, counted_trans hcnt hcnt'⟩
      rw [hcalls', hcalls, liveBatches_of_kept pb hk, List.flatMap_cons, List.append_assoc]
      congr 2
      apply flatMap_congr_mem
      intro b hb
      have hne : bi ≠ b := by
        intro h
        subst h
        exact (List.nodup_cons.mp hnd).1 (mem_of_mem_liveBatches pb s.arg rest _ hb)
      exact batchCalls_of_kept L pb b hk (by rw [hother b hne])

/-- The method `run` ends when the fuel covers the rows of every batch; it is a step and
logs the calls of the live batches, in order. -/
theorem run_calls (L : LX_Retriever K) (hL : Framed L) (pb : ProbeBucket K) (fuel : Nat)
    (s : Machine K)
    (hfuel : ∀ b, (batchAt s.arg b).endPos - (batchAt s.arg b).startPos ≤ fuel) :
    ∃ s' : Machine K, run L pb fuel s = some s' ∧ Step s s' ∧
      s'.calls = s.calls ++
        (liveBatches pb s.arg (List.range s.arg.queryBatches.length)).flatMap
          (batchCalls L pb s.arg) ∧
      Counted s.arg s'.arg := by
  obtain ⟨s', hrun, hstep, hcalls, hcnt⟩ := runBatches_calls L hL pb fuel
    (List.range s.arg.queryBatches.length)
    { s with arg := { s.arg with numLists := pb.numLists } } (List.nodup_range _)
    (fun b hb => List.mem_range.mp hb) hfuel
  exact ⟨s', hrun, step_trans (step_of_silent rfl rfl rfl rfl) hstep, hcalls,
    counted_trans (counted_of_eq rfl) hcnt⟩

/-- Replacing a batch of the arguments by a kept version of it with the same queue flag is a
step that logs nothing. -/
theorem step_of_setBatch (s : Machine K) (bi : Nat) (qb : QueryBatch K)
    (hk : BatchKept (batchAt s.arg bi) qb)
    (hi : qb.initializedQueues = (batchAt s.arg bi).initializedQueues) :
    Step s { arg := setBatch s.arg bi qb, calls := s.calls } := by
  refine ⟨kept_setBatch _ _ _ hk, [], by simp, fun bj => ?_, rfl⟩
  simp only [List.count_nil, Nat.zero_add]
  unfold built
  by_cases hb : bi = bj
  · subst hb
    rw [batchAt_setBatch]
    split_ifs <;> simp_all
  · rw [batchAt_setBatch_ne _ _ _ _ hb]

/-- Handing a queue of a batch whose queues are built to the alternative, and calling it, is
a step when `k`, `maxLists` and the query batches stay as they are. -/
theorem step_of_alternative {s s1 : Machine K} (q : QueuePtr) (c : Call)
    (hc : (∃ u, c = Call.otherRun u) ∨ ∃ u, c = Call.otherRunTopK u)
    (hinit : (batchAt s.arg q.batch).initializedQueues = true)
    (hk : s1.arg.k = s.arg.k) (hm : s1.arg.maxLists = s.arg.maxLists)
    (hq : s1.arg.queryBatches = s.arg.queryBatches)
    (hcalls : s1.calls = s.calls ++ [Call.setQueues q, c]) : Step s s1 := by
  refine ⟨kept_of_eq hk hm hq, [Call.setQueues q, c], hcalls, fun bj => ?_, ?_⟩
  · rw [built_of_eq hq]
    have : [Call.setQueues q, c].count (Call.preprocess bj) = 0 := by
      apply List.count_eq_zero_of_not_mem
      rcases hc with ⟨u, rfl⟩ | ⟨u, rfl⟩ <;> simp
    omega
  · rcases hc with ⟨u, rfl⟩ | ⟨u, rfl⟩ <;> simp [queuesReady, hinit]

/-- One pass of the body of the inner loop of `runTopK`, for a row of a batch of the
arguments, is a step; when the flag of the row exists, the counters keep pace with the
flags. -/
theorem runTopKQuery_step (L : LX_Retriever K) (hL : Framed L) (pb : ProbeBucket K)
    (bi i user : Nat) (s : Machine K) (hbi : bi < s.arg.queryBatches.length) :
    Step s (runTopKQuery L pb bi i user s) ∧
    (user - (batchAt s.arg bi).startPos < (batchAt s.arg bi).inactiveQueries.length →
      Counted s.arg (runTopKQuery L pb bi i user s).arg) := by
  unfold runTopKQuery
  by_cases hflag : inactiveAt (batchAt s.arg bi) (user - (batchAt s.arg bi).startPos) = true
  · rw [if_pos hflag]
    exact ⟨step_refl s, fun _ => counted_refl _⟩
  · rw [if_neg hflag]
    have hflag' : inactiveAt (batchAt s.arg bi) (user - (batchAt s.arg bi).startPos) = false := by
      simpa using hflag
    simp only
    set minScore := (s.arg.topkResults.getD i default).data with hms
    have hg : setGammaAppr L s.arg user minScore
        = { s.arg with currGammaAppr := (setGammaAppr L s.arg user minScore).currGammaAppr } :=
      setGammaAppr_eq L s.arg user minScore
    have hgk : (setGammaAppr L s.arg user minScore).k = s.arg.k := by rw [hg]
    have hgm : (setGammaAppr L s.arg user minScore).maxLists = s.arg.maxLists := by rw [hg]
    have hgq : (setGammaAppr L s.arg user minScore).queryBatches = s.arg.queryBatches := by
      rw [hg]
    have hgb : ∀ bj, batchAt (setGammaAppr L s.arg user minScore) bj = batchAt s.arg bj := by
      intro bj
      unfold batchAt
      rw [hgq]
    by_cases hmark : pb.normL2.2 < minScoreAppr L s.arg user minScore
    · rw [if_pos hmark]
      have h1 : Step s (⟨setGammaAppr L s.arg user minScore, s.calls⟩ : Machine K) :=
        step_of_silent hgk hgm hgq rfl
      constructor
      · refine step_trans h1 (step_of_setBatch
          (⟨setGammaAppr L s.arg user minScore, s.calls⟩ : Machine K) bi _ ?_ rfl)
        simp only
        rw [hgb]
        exact ⟨rfl, rfl, rfl, rfl, by simp, fun pos h => getD_set_false _ _ _ h⟩
      · intro hpos bj
        by_cases hb : bi = bj
        · subst hb
          rw [batchAt_setBatch]
          split_ifs
          · simp only [setFlags]
            rw [hgb, count_set_true _ _ hpos hflag']
            omega
          · rw [hgb]
        · rw [batchAt_setBatch_ne _ _ _ _ hb, hgb]
    · rw [if_neg hmark]
      set s2 : Machine K :=
        { arg := { (setGammaAppr L s.arg user minScore).moveTopkToHeap i with
                   queryId := L.queryMatrix.getId user },
          calls := s.calls ++ [Call.moveTopkToHeap i] } with hs2
      have h2 : Step s s2 :=
        step_of_eq (Call.moveTopkToHeap i) hgk hgm hgq rfl (fun _ => rfl) (fun _ => by simp)
      have hc2 : Counted s.arg s2.arg := counted_of_eq hgq
      by_cases hplain : pb.t_b * pb.normL2.2 > minScore
      · simp only [if_pos hplain]
        obtain ⟨hk, hm, hq⟩ := (hL.1 user pb).2.2.1 s2.arg
        have h3 : Step s2 (⟨L.plainRetriever.runTopK user pb s2.arg,
            s2.calls ++ [Call.plainRunTopK user]⟩ : Machine K) :=
          step_of_eq (Call.plainRunTopK user) hk hm hq rfl (fun _ => rfl) (fun _ => by simp)
        constructor
        · refine step_trans h2 (step_trans h3 ?_)
          exact step_of_eq (Call.writeHeapToTopk user) rfl rfl rfl rfl (fun _ => rfl)
            (fun _ => by simp)
        · intro _
          exact counted_trans hc2 (counted_of_eq hq)
      · simp only [if_neg hplain]
        have hbi2 : bi < s2.arg.queryBatches.length := by
          show bi < (setGammaAppr L s.arg user minScore).queryBatches.length
          rw [hgq]
          exact hbi
        obtain ⟨hstep, _, hinit⟩ := lazyPreprocess_step L hL bi s2 hbi2
        obtain ⟨hk, hm, hq⟩ := (hL.1 user pb).2.2.2.2.2
          (setLocalQueue bi user (lazyPreprocess L bi s2)).arg
        have h4 : Step (lazyPreprocess L bi s2)
            (⟨L.otherRetriever.runTopK user pb
                (setLocalQueue bi user (lazyPreprocess L bi s2)).arg,
              (setLocalQueue bi user (lazyPreprocess L bi s2)).calls
                ++ [Call.otherRunTopK user]⟩ : Machine K) := by
          refine step_of_alternative
            ⟨bi, user - (batchAt (lazyPreprocess L bi s2).arg bi).startPos,
              (lazyPreprocess L bi s2).arg.maxLists⟩
            (Call.otherRunTopK user) (Or.inr ⟨user, rfl⟩) hinit hk hm hq ?_
          simp [setLocalQueue]
        constructor
        · refine step_trans h2 (step_trans hstep (step_trans h4 ?_))
          exact step_of_eq (Call.writeHeapToTopk user) rfl rfl rfl rfl (fun _ => rfl)
            (fun _ => by simp)
        · intro _
          exact counted_trans hc2
            (counted_trans (lazyPreprocess_counted L hL bi s2) (counted_of_eq hq))

/-- The inner loop of `runTopK` over rows of a batch of the arguments ends when given enough
fuel, and is a step; when the flags of the rows exist, the counters keep pace with the
flags. -/
theorem runTopKLoop_step (L : LX_Retriever K) (hL : Framed L) (pb : ProbeBucket K)
    (bi k stop : Nat) :
    ∀ (fuel i user : Nat) (s : Machine K), s.arg.k = k → i = k * user →
      stop - i ≤ fuel * k → bi < s.arg.queryBatches.length →
      ∃ s' : Machine K, runTopKLoop L pb bi stop fuel i user s = some s' ∧ Step s s' ∧
        ((∀ u, user ≤ u → k * u < stop →
            u - (batchAt s.arg bi).startPos < (batchAt s.arg bi).inactiveQueries.length) →
          Counted s.arg s'.arg) := by
  intro fuel
  induction fuel with
  | zero =>
    intro i user s _ _ hfuel _
    have hi : ¬ i < stop := by
      simp only [Nat.zero_mul, Nat.le_zero_eq] at hfuel
      omega
    exact ⟨s, by simp only [runTopKLoop, if_neg hi], step_refl s, fun _ => counted_refl _⟩
  | succ fuel ih =>
    intro i user s hk hi hfuel hbi
    by_cases hlt : i < stop
    · obtain ⟨hst, hcnt⟩ := runTopKQuery_step L hL pb bi i user s hbi
      set s1 := runTopKQuery L pb bi i user s with hs1
      have hkept := hst.1
      have hk1 : s1.arg.k = k := by rw [hkept.1, hk]
      have hfuel1 : stop - (i + s1.arg.k) ≤ fuel * k := by
        rw [hk1]
        have : (fuel + 1) * k = fuel * k + k := Nat.succ_mul fuel k
        omega
      have hi1 : i + s1.arg.k = k * (user + 1) := by
        rw [hk1, hi, Nat.mul_succ]
      obtain ⟨s', hrun, hstep, hcnt'⟩ := ih (i + s1.arg.k) (user + 1) s1 hk1 hi1 hfuel1
        (by rw [hkept.2.2.1]; exact hbi)
      refine ⟨s', ?_, step_trans hst hstep, fun hpos => ?_⟩
      · simp only [runTopKLoop, if_pos hlt]
        exact hrun
      · refine counted_trans (hcnt (hpos user (le_refl _) (by rw [← hi]; exact hlt)))
          (hcnt' (fun u hu hlt2 => ?_))
        rw [(hkept.2.2.2 bi).1, (hkept.2.2.2 bi).2.2.2.2.1]
        exact hpos u (by omega) hlt2
    · exact ⟨s, by simp only [runTopKLoop, if_neg hlt], step_refl s, fun _ => counted_refl _⟩

/-- The pass of `runTopK` over a batch of the arguments ends when the fuel covers the
batch's rows, and is a step; when the batch is well-formed, the counters keep pace with the
flags. -/
theorem runTopKBatch_step (L : LX_Retriever K) (hL : Framed L) (pb : ProbeBucket K)
    (fuel bi : Nat) (s : Machine K) (hbi : bi < s.arg.queryBatches.length)
    (hfuel : (batchAt s.arg bi).endPos - (batchAt s.arg bi).startPos ≤ fuel) :
    ∃ s' : Machine K, runTopKBatch L pb fuel bi s = some s' ∧ Step s s' ∧
      (WellFormed (batchAt s.arg bi) → Counted s.arg s'.arg) := by
  unfold runTopKBatch
  simp only
  split_ifs with hskip
  · exact ⟨s, rfl, step_refl s, fun _ => counted_refl _⟩
  · have hf : (batchAt s.arg bi).endPos * s.arg.k - (batchAt s.arg bi).startPos * s.arg.k
        ≤ fuel * s.arg.k := by
      rw [← Nat.sub_mul]
      exact Nat.mul_le_mul_right _ hfuel
    obtain ⟨s', hrun, hstep, hcnt⟩ :=
      runTopKLoop_step L hL pb bi s.arg.k ((batchAt s.arg bi).endPos * s.arg.k) fuel
        ((batchAt s.arg bi).startPos * s.arg.k) (batchAt s.arg bi).startPos s rfl
        (Nat.mul_comm _ _) hf hbi
    refine ⟨s', hrun, hstep, fun hwf => hcnt (fun u hu hlt => ?_)⟩
    rw [Nat.mul_comm] at hlt
    have hu2 : u < (batchAt s.arg bi).endPos := Nat.lt_of_mul_lt_mul_right hlt
    have h1 := hwf.1
    have h2 := hwf.2
    omega

/-- Well-formedness is kept. -/
theorem wellFormed_of_kept {q q1 : QueryBatch K} (h : BatchKept q q1) (hw : WellFormed q) :
    WellFormed q1 := by
  obtain ⟨h1, h2, h3, _, h5, _⟩ := h
  unfold WellFormed at hw ⊢
  rw [h1, h2, h3, h5]
  exact hw

/-- The loop of `runTopK` over batches of the arguments ends when the fuel covers the rows
of every batch, and is a step; when the batches are well-formed, the counters keep pace with
the flags. -/
theorem runTopKBatches_step (L : LX_Retriever K) (hL : Framed L) (pb : ProbeBucket K)
    (fuel : Nat) :
    ∀ (bis : List Nat) (s : Machine K),
      (∀ b ∈ bis, b < s.arg.queryBatches.length) →
      (∀ b, (batchAt s.arg b).endPos - (batchAt s.arg b).startPos ≤ fuel) →
      ∃ s' : Machine K, runTopKBatches L pb fuel bis s = some s' ∧ Step s s' ∧
        ((∀ b, b < s.arg.queryBatches.length → WellFormed (batchAt s.arg b)) →
          Counted s.arg s'.arg) := by
  intro bis
  induction bis with
  | nil =>
    intro s _ _
    exact ⟨s, rfl, step_refl s, fun _ => counted_refl _⟩
  | cons bi rest ih =>
    intro s hlen hfuel
    obtain ⟨s1, hbody, hstep, hcnt⟩ := runTopKBatch_step L hL pb fuel bi s
      (hlen bi (List.mem_cons_self _ _)) (hfuel bi)
    have hk := hstep.1
    obtain ⟨s', hrun, hstep', hcnt'⟩ := ih s1
      (fun b hb => by rw [hk.2.2.1]; exact hlen b (List.mem_cons_of_mem _ hb))
      (fun b => by rw [(hk.2.2.2 b).1, (hk.2.2.2 b).2.1]; exact hfuel b)
    refine ⟨s', ?_, step_trans hstep hstep', fun hwf => ?_⟩
    · simp only [runTopKBatches, hbody]
      exact hrun
    · refine counted_trans (hcnt (hwf bi (hlen bi (List.mem_cons_self _ _))))
        (hcnt' (fun b hb => ?_))
      exact wellFormed_of_kept (hk.2.2.2 b) (hwf b (by rw [← hk.2.2.1]; exact hb))

/-- The method `runTopK` ends when the fuel covers the rows of every batch, and is a step;
when the batches are well-formed, the counters keep pace with the flags. -/
theorem runTopK_step (L : LX_Retriever K) (hL : Framed L) (pb : ProbeBucket K) (fuel : Nat)
    (s : Machine K)
    (hfuel : ∀ b, (batchAt s.arg b).endPos - (batchAt s.arg b).startPos ≤ fuel) :
    ∃ s' : Machine K, runTopK L pb fuel s = some s' ∧ Step s s' ∧
      ((∀ b, b < s.arg.queryBatches.length → WellFormed (batchAt s.arg b)) →
        Counted s.arg s'.arg) := by
  unfold runTopK
  split_ifs with h1
  · obtain ⟨hk, hm, hq⟩ := hL.2.1 pb s.arg
    exact ⟨_, rfl, step_of_eq Call.plainRunTopKBucket hk hm hq rfl (fun _ => rfl)
      (fun _ => by simp), fun _ => counted_of_eq hq⟩
  · obtain ⟨s', hrun, hstep, hcnt⟩ := runTopKBatches_step L hL pb fuel
      (List.range s.arg.queryBatches.length)
      { s with arg := { s.arg with numLists := pb.numLists } }
      (fun b hb => List.mem_range.mp hb) hfuel
    exact ⟨s', hrun, step_trans (step_of_silent rfl rfl rfl rfl) hstep,
      fun hwf => counted_trans (counted_of_eq rfl) (hcnt hwf)⟩

/-- A sequence of `run` and `runTopK` calls ends when the fuel covers the rows of every
batch, and is a step; when the batches are well-formed, the counters keep pace with the
flags. -/
theorem runOps_step (L : LX_Retriever K) (hL : Framed L) (fuel : Nat) :
    ∀ (ops : List (Op K)) (s : Machine K),
      (∀ b, (batchAt s.arg b).endPos - (batchAt s.arg b).startPos ≤ fuel) →
      ∃ s' : Machine K, runOps L fuel ops s = some s' ∧ Step s s' ∧
        ((∀ b, b < s.arg.queryBatches.length → WellFormed (batchAt s.arg b)) →
          Counted s.arg s'.arg) := by
  intro ops
  induction ops with
  | nil =>
    intro s _
    exact ⟨s, rfl, step_refl s, fun _ => counted_refl _⟩
  | cons op rest ih =>
    intro s hfuel
    have key : ∀ s1 : Machine K, Step s s1 →
        ((∀ b, b < s.arg.queryBatches.length → WellFormed (batchAt s.arg b)) →
          Counted s.arg s1.arg) →
        ∃ s' : Machine K, runOps L fuel rest s1 = some s' ∧ Step s s' ∧
          ((∀ b, b < s.arg.queryBatches.length → WellFormed (batchAt s.arg b)) →
            Counted s.arg s'.arg) := by
      intro s1 hstep hcnt
      have hk := hstep.1
      obtain ⟨s', hrun, hstep', hcnt'⟩ := ih s1
        (fun b => by rw [(hk.2.2.2 b).1, (hk.2.2.2 b).2.1]; exact hfuel b)
      refine ⟨s', hrun, step_trans hstep hstep', fun hwf => ?_⟩
      refine counted_trans (hcnt hwf) (hcnt' (fun b hb => ?_))
      exact wellFormed_of_kept (hk.2.2.2 b) (hwf b (by rw [← hk.2.2.1]; exact hb))
    cases op with
    | run pb =>
      obtain ⟨s1, h1, hstep, _, hcnt⟩ := run_calls L hL pb fuel s hfuel
      obtain ⟨s', hrun, hst⟩ := key s1 hstep (fun _ => hcnt)
      exact ⟨s', by simp only [runOps, h1]; exact hrun, hst⟩
    | runTopK pb =>
      obtain ⟨s1, h1, hstep, hcnt⟩ := runTopK_step L hL pb fuel s hfuel
      obtain ⟨s', hrun, hst⟩ := key s1 hstep hcnt
      exact ⟨s', by simp only [runOps, h1]; exact hrun, hst⟩

/-- A batch read at an index within range is one of the batches. -/
theorem batchAt_mem (arg : RetrievalArguments K) (bj : Nat)
    (h : bj < arg.queryBatches.length) : batchAt arg bj ∈ arg.queryBatches := by
  unfold batchAt
  rw [List.getD_eq_getElem?_getD, List.getElem?_eq_getElem h]
  exact List.getElem_mem h

/-- Fuel that covers the rows of every batch covers the rows of the batch read at any
index. -/
theorem fuel_of_mem (arg : RetrievalArguments K) (fuel : Nat)
    (h : ∀ b ∈ arg.queryBatches, b.endPos - b.startPos ≤ fuel) :
    ∀ bj, (batchAt arg bj).endPos - (batchAt arg bj).startPos ≤ fuel := by
  intro bj
  by_cases hb : bj < arg.queryBatches.length
  · exact h _ (batchAt_mem arg bj hb)
  · unfold batchAt
    rw [List.getD_eq_getElem?_getD, List.getElem?_eq_none (not_lt.mp hb)]
    exact Nat.zero_le _

/-- The scanned rows are the rows of the range before the first one whose norm is below the
threshold. -/
theorem mem_scannedRows (L : LX_Retriever K) (pb : ProbeBucket K) :
    ∀ (n i stop : Nat), stop - i = n → ∀ u, u ∈ scannedRows L pb i stop ↔
      i ≤ u ∧ u < stop ∧
        ∀ v, i ≤ v → v ≤ u → ¬ L.queryMatrix.length v < pb.bucketScanThreshold := by
  intro n
  induction n with
  | zero =>
    intro i stop hn u
    rw [scannedRows_eq, if_neg (by omega)]
    simp only [List.not_mem_nil, false_iff, not_and]
    intro h1 h2
    omega
  | succ n ih =>
    intro i stop hn u
    rw [scannedRows_eq, if_pos (by omega)]
    by_cases hlen : L.queryMatrix.length i < pb.bucketScanThreshold
    · rw [if_pos hlen]
      simp only [List.not_mem_nil, false_iff, not_and]
      intro h1 _ h3
      exact h3 i (le_refl _) h1 hlen
    · rw [if_neg hlen, List.mem_cons, ih (i + 1) stop (by omega) u]
      constructor
      · rintro (rfl | ⟨h1, h2, h3⟩)
        · refine ⟨le_refl _, by omega, fun v hv1 hv2 => ?_⟩
          have : v = u := by omega
          rw [this]
          exact hlen
        · refine ⟨by omega, h2, fun v hv1 hv2 => ?_⟩
          by_cases hv : v = i
          · rw [hv]
            exact hlen
          · exact h3 v (by omega) hv2
      · rintro ⟨h1, h2, h3⟩
        by_cases hu : u = i
        · exact Or.inl hu
        · exact Or.inr ⟨by omega, h2, fun v hv1 hv2 => h3 v (by omega) hv2⟩

end LX_Retriever

namespace demo

open LX_Retriever

/-- The retrievers of the example write nothing but the scratch heap, and its `preprocess`
only fills the queue storage. -/
theorem retriever_framed : Framed retriever :=
  ⟨fun _ _ => ⟨fun _ => ⟨rfl, rfl, rfl⟩, fun _ => ⟨rfl, rfl, rfl⟩, fun _ => ⟨rfl, rfl, rfl⟩,
    fun _ => ⟨rfl, rfl, rfl⟩, fun _ => ⟨rfl, rfl, rfl⟩, fun _ => ⟨rfl, rfl, rfl⟩⟩,
   fun _ _ => ⟨rfl, rfl, rfl⟩, fun _ _ => rfl⟩

end demo

namespace LX_Retriever

variable {K : Type} [LinearOrderedField K]

/-- The calls of a batch are all about that batch: the whole-batch call of one strategy, the
`preprocess` of the batch, or a per-query call for one of its rows. -/
theorem mem_batchCalls (L : LX_Retriever K) (pb : ProbeBucket K) (arg : RetrievalArguments K)
    (bi : Nat) (c : Call) (h : c ∈ batchCalls L pb arg bi) :
    c = Call.plainRunBatch bi ∨ c = Call.otherRunBatch bi ∨ c = Call.preprocess bi ∨
    ∃ u, (batchAt arg bi).startPos ≤ u ∧ u < (batchAt arg bi).endPos ∧
      (c = Call.plainRun u ∨ c = Call.otherRun u ∨
       c = Call.setQueues ⟨bi, u - (batchAt arg bi).startPos, arg.maxLists⟩) := by
  unfold batchCalls at h
  split_ifs at h with h1 h2 h3
  · simp only [List.mem_singleton] at h
    exact Or.inl h
  · simp only [List.mem_singleton] at h
    exact Or.inr (Or.inl h)
  all_goals
    simp only [List.nil_append, List.mem_append, List.mem_singleton, List.mem_flatMap] at h
    first
    | rcases h with h | ⟨u, hu, hc⟩
      · exact Or.inr (Or.inr (Or.inl h))
    | obtain ⟨u, hu, hc⟩ := h
    all_goals
      right; right; right
      have hu' := (mem_scannedRows L pb _ _ _ rfl u).mp hu
      refine ⟨u, hu'.1, hu'.2.1, ?_⟩
      unfold queryCalls at hc
      split_ifs at hc
      · simp only [List.mem_singleton] at hc
        exact Or.inl hc
      · simp only [List.mem_cons, List.mem_singleton, List.not_mem_nil, or_false] at hc
        rcases hc with hc | hc
        · exact Or.inr (Or.inr hc)
        · exact Or.inr (Or.inl hc)

/-- The rows of a range that a `takeWhile` keeps are those before the first row that fails
the test. -/
theorem mem_takeWhile_range' (p : Nat → Bool) :
    ∀ (n i u : Nat), u ∈ (List.range' i n).takeWhile p ↔
      i ≤ u ∧ u < i + n ∧ ∀ v, i ≤ v → v ≤ u → p v = true := by
  intro n
  induction n with
  | zero =>
    intro i u
    simp only [List.range'_zero, List.takeWhile_nil, List.not_mem_nil, false_iff, not_and]
    intro h1 h2
    omega
  | succ n ih =>
    intro i u
    rw [List.range'_succ, List.takeWhile_cons]
    by_cases hp : p i = true
    · rw [if_pos hp, List.mem_cons, ih (i + 1) u]
      constructor
      · rintro (rfl | ⟨h1, h2, h3⟩)
        · refine ⟨le_refl _, by omega, fun v hv1 hv2 => ?_⟩
          have : v = u := by omega
          rw [this]
          exact hp
        · refine ⟨by omega, by omega, fun v hv1 hv2 => ?_⟩
          by_cases hv : v = i
          · rw [hv]
            exact hp
          · exact h3 v (by omega) hv2
      · rintro ⟨h1, h2, h3⟩
        by_cases hu : u = i
        · exact Or.inl hu
        · exact Or.inr ⟨by omega, by omega, fun v hv1 hv2 => h3 v (by omega) hv2⟩
    · rw [if_neg hp]
      simp only [List.not_mem_nil, false_iff, not_and]
      intro h1 _ h3
      exact hp (h3 i (le_refl _) h1)

/-- The live batches among the first `n` are those before the first batch whose maximum norm
is below the threshold. -/
theorem mem_liveBatches_range (pb : ProbeBucket K) (arg : RetrievalArguments K) (n bi : Nat) :
    bi ∈ liveBatches pb arg (List.range n) ↔
      bi < n ∧ ∀ b, b ≤ bi → ¬ (batchAt arg b).normL2.2 < pb.bucketScanThreshold := by
  unfold liveBatches
  rw [List.range_eq_range', mem_takeWhile_range']
  simp only [Nat.zero_le, Nat.zero_add, true_and, decide_eq_true_eq, true_implies]

/-- With the sentinel ratio `1` the loop of `run` over the batches is the baseline-only path:
it returns the arguments that path returns and logs one whole-batch call of the baseline per
visited batch; the visited batches are the live ones when the baseline's whole-batch entry
point keeps control. -/
theorem runBatches_baseline (L : LX_Retriever K) (pb : ProbeBucket K) (fuel : Nat)
    (htb : pb.t_b = 1) :
    ∀ (bis : List Nat) (s : Machine K), ∃ visited : List Nat,
      runBatches L pb fuel bis s
        = some ⟨baselineOnlyRun L.plainRetriever pb bis s.arg,
            s.calls ++ visited.map Call.plainRunBatch⟩ ∧
      ((∀ u, KeepsControl (L.plainRetriever.runBatch u pb)) →
        visited = liveBatches pb s.arg bis) := by
  intro bis
  induction bis with
  | nil =>
    intro s
    exact ⟨[], by simp [runBatches, baselineOnlyRun], fun _ => rfl⟩
  | cons bi rest ih =>
    intro s
    by_cases hlow : (batchAt s.arg bi).normL2.2 < pb.bucketScanThreshold
    · refine ⟨[], ?_, fun _ => ?_⟩
      · simp [runBatches, baselineOnlyRun, hlow]
      · rw [liveBatches_cons, if_pos hlow]
    · obtain ⟨visited, hrun, hlive⟩ := ih
        ⟨L.plainRetriever.runBatch bi pb s.arg, s.calls ++ [Call.plainRunBatch bi]⟩
      refine ⟨bi :: visited, ?_, fun hk => ?_⟩
      · simp only [runBatches, baselineOnlyRun, if_neg hlow, if_pos (Or.inl htb : pb.t_b = 1 ∨
          pb.t_b * (batchAt s.arg bi).normL2.1 > pb.bucketScanThreshold)]
        rw [hrun]
        simp
      · rw [liveBatches_cons, if_neg hlow, hlive hk]
        congr 1
        exact liveBatches_of_kept pb (kept_of_keepsControl (hk bi) s.arg) rest

/-- In a stretch of the log that passes the check, a per-query call of the alternative comes
directly after a `setQueues` that hands over a queue of a batch whose queues are built by
then. -/
theorem queuesReady_alternative (c : Call)
    (hc : (∃ u, c = Call.otherRun u) ∨ ∃ u, c = Call.otherRunTopK u) (post : List Call) :
    ∀ (pre : List Call) (r : Nat → Bool) (p : Bool),
      queuesReady r p (pre ++ c :: post) = true →
      (pre = [] ∧ p = true) ∨
      ∃ (pre1 : List Call) (q : QueuePtr), pre = pre1 ++ [Call.setQueues q] ∧
        (r q.batch = true ∨ Call.preprocess q.batch ∈ pre1) := by
  intro pre
  induction pre with
  | nil =>
    intro r p h
    left
    refine ⟨rfl, ?_⟩
    rcases hc with ⟨u, rfl⟩ | ⟨u, rfl⟩ <;>
      simp only [List.nil_append, queuesReady, Bool.and_eq_true] at h <;> exact h.1
  | cons a pre1 ih =>
    intro r p h
    right
    cases a <;> simp only [List.cons_append, queuesReady, Bool.and_eq_true] at h
    case setQueues q0 =>
      rcases ih r true h.2.2 with ⟨h1, _⟩ | ⟨pre2, q, h1, h2⟩
      · exact ⟨[], q0, by rw [h1]; rfl, Or.inl h.2.1⟩
      · refine ⟨Call.setQueues q0 :: pre2, q, by rw [h1]; rfl, ?_⟩
        exact h2.imp id (fun h3 => List.mem_cons_of_mem _ h3)
    case preprocess b =>
      rcases ih _ false h.2 with ⟨_, h1⟩ | ⟨pre2, q, h1, h2⟩
      · simp at h1
      · refine ⟨Call.preprocess b :: pre2, q, by rw [h1]; rfl, ?_⟩
        rcases h2 with h2 | h2
        · simp only [Bool.or_eq_true, decide_eq_true_eq] at h2
          rcases h2 with h2 | h2
          · right
            rw [h2]
            exact List.mem_cons_self _ _
          · exact Or.inl h2
        · exact Or.inr (List.mem_cons_of_mem _ h2)
    all_goals
      rcases ih r false h.2 with ⟨_, h1⟩ | ⟨pre2, q, h1, h2⟩
      · simp at h1
      · exact ⟨_ :: pre2, q, by rw [h1]; rfl,
          h2.imp id (fun h3 => List.mem_cons_of_mem _ h3)⟩

/-- A list of flags with as many set flags as flags has every flag set. -/
theorem getD_of_count_eq_length (l : List Bool) (h : l.count true = l.length) (pos : Nat)
    (hp : pos < l.length) : l.getD pos false = true := by
  rw [List.getD_eq_getElem?_getD, List.getElem?_eq_getElem hp]
  exact ((List.count_eq_length.mp h) _ (List.getElem_mem hp)).symm

/-- The batches of the arguments are well-formed at every index within range when all of
them are. -/
theorem wellFormed_of_mem (arg : RetrievalArguments K)
    (h : ∀ b ∈ arg.queryBatches, WellFormed b) :
    ∀ b, b < arg.queryBatches.length → WellFormed (batchAt arg b) :=
  fun b hb => h _ (batchAt_mem arg b hb)

end LX_Retriever

end ta

/-! ## Batch mode: the statements -/

namespace ta

namespace LX_Retriever

open demo

variable {K : Type} [LinearOrderedField K]

/-- Claim C11.  Batch-mode `run`, with retrievers that stay within their part of the state
and fuel for the rows of every batch, returns, and the calls it logs are those of the live
batches, in order: the batches before the first one whose maximum norm `normL2.second` is
strictly below the bucket's scan threshold.  Every logged call is the whole-batch call, the
`preprocess` or a per-query call for a row of a live batch, so neither the first batch below
the threshold nor any later batch is handed to a strategy.  With the batches in
descending-norm order the live batches are exactly the batches whose maximum norm is at
least the threshold. -/
theorem run_stops_at_first_low_batch (L : LX_Retriever K) (hL : Framed L)
    (pb : ProbeBucket K) (fuel : Nat) (s : Machine K)
    (hfuel : ∀ b ∈ s.arg.queryBatches, b.endPos - b.startPos ≤ fuel) :
    (∃ (s' : Machine K) (extra : List Call), run L pb fuel s = some s' ∧
      s'.calls = s.calls ++ extra ∧
      extra = (liveBatches pb s.arg (List.range s.arg.queryBatches.length)).flatMap
        (batchCalls L pb s.arg) ∧
      ∀ c ∈ extra, ∃ bi ∈ liveBatches pb s.arg (List.range s.arg.queryBatches.length),
        c = Call.plainRunBatch bi ∨ c = Call.otherRunBatch bi ∨ c = Call.preprocess bi ∨
        ∃ u, (batchAt s.arg bi).startPos ≤ u ∧ u < (batchAt s.arg bi).endPos ∧
          (c = Call.plainRun u ∨ c = Call.otherRun u ∨
           c = Call.setQueues ⟨bi, u - (batchAt s.arg bi).startPos, s.arg.maxLists⟩)) ∧
    (∀ bi, bi ∈ liveBatches pb s.arg (List.range s.arg.queryBatches.length) ↔
      bi < s.arg.queryBatches.length ∧
        ∀ b, b ≤ bi → ¬ (batchAt s.arg b).normL2.2 < pb.bucketScanThreshold) ∧
    ((∀ b1 b2, b1 ≤ b2 → b2 < s.arg.queryBatches.length →
        (batchAt s.arg b2).normL2.2 ≤ (batchAt s.arg b1).normL2.2) →
      ∀ bi, bi ∈ liveBatches pb s.arg (List.range s.arg.queryBatches.length) ↔
        bi < s.arg.queryBatches.length ∧
          pb.bucketScanThreshold ≤ (batchAt s.arg bi).normL2.2) := by
  have hmem := mem_liveBatches_range pb s.arg s.arg.queryBatches.length
  refine ⟨?_, hmem, ?_⟩
  · obtain ⟨s', hrun, _, hcalls, _⟩ :=
      run_calls L hL pb fuel s (fuel_of_mem s.arg fuel hfuel)
    refine ⟨s', _, hrun, hcalls, rfl, ?_⟩
    intro c hc
    obtain ⟨bi, hbi, hcb⟩ := List.mem_flatMap.mp hc
    exact ⟨bi, hbi, mem_batchCalls L pb s.arg bi c hcb⟩
  · intro hdesc bi
    rw [hmem bi]
    constructor
    · rintro ⟨h1, h2⟩
      exact ⟨h1, not_lt.mp (h2 bi (le_refl _))⟩
    · rintro ⟨h1, h2⟩
      exact ⟨h1, fun b hb => not_lt.mpr (le_trans h2 (hdesc b bi hb h1))⟩

/-- Witness for C11: `run` of the example with four batches and fuel `4`; the first two
batches have the maximum norm `8`, which is not below the threshold `1`, the third has the
maximum norm `1/2`, and the fourth, again with `8`, lies behind it: the live batches are the
first two. -/
theorem run_stops_at_first_low_batch_witness :
    Framed retriever ∧
    (∀ b ∈ startFour.arg.queryBatches, b.endPos - b.startPos ≤ 4) ∧
    liveBatches bucket startFour.arg (List.range startFour.arg.queryBatches.length)
      = [0, 1] ∧
    ∀ bi, bi ∈ liveBatches bucket startFour.arg
        (List.range startFour.arg.queryBatches.length) ↔
      bi < startFour.arg.queryBatches.length ∧
        ∀ b, b ≤ bi → ¬ (batchAt startFour.arg b).normL2.2 < bucket.bucketScanThreshold :=
  ⟨retriever_framed, by with_unfolding_all decide, by with_unfolding_all decide,
    (run_stops_at_first_low_batch retriever retriever_framed bucket 4 startFour
      (by with_unfolding_all decide)).2.1⟩

/-- Claim C14.  For a bucket tuned to the baseline (`t_b == 1`): `runTopK` makes the one
call `runTopKBucket` of the baseline on the bucket and the arguments and returns its result;
batch-mode `run` returns (whatever the fuel), its result is that of the baseline-only path
over the same batches, and its log grows by one whole-batch call of the baseline per visited
batch and by nothing else, so neither the alternative nor `preprocess` is called.  When the
baseline's whole-batch entry point keeps control, the visited batches are the live ones, and
with the batches in descending-norm order these are exactly the batches whose maximum norm
is at least the scan threshold. -/
theorem baseline_bucket_equivalence (L : LX_Retriever K) (pb : ProbeBucket K) (fuel : Nat)
    (s : Machine K) (htb : pb.t_b = 1) :
    runTopK L pb fuel s
      = some ⟨L.plainRetriever.runTopKBucket pb s.arg, s.calls ++ [Call.plainRunTopKBucket]⟩ ∧
    ∃ (s' : Machine K) (visited : List Nat), run L pb fuel s = some s' ∧
      s'.arg = baselineOnlyRun L.plainRetriever pb (List.range s.arg.queryBatches.length)
        { s.arg with numLists := pb.numLists } ∧
      s'.calls = s.calls ++ visited.map Call.plainRunBatch ∧
      ((∀ u, KeepsControl (L.plainRetriever.runBatch u pb)) →
        visited = liveBatches pb s.arg (List.range s.arg.queryBatches.length) ∧
        ((∀ b1 b2, b1 ≤ b2 → b2 < s.arg.queryBatches.length →
            (batchAt s.arg b2).normL2.2 ≤ (batchAt s.arg b1).normL2.2) →
          ∀ bi, bi ∈ visited ↔ bi < s.arg.queryBatches.length ∧
            pb.bucketScanThreshold ≤ (batchAt s.arg bi).normL2.2)) := by
  constructor
  · unfold runTopK
    rw [if_pos htb]
  · obtain ⟨visited, hrun, hlive⟩ := runBatches_baseline L pb fuel htb
      (List.range s.arg.queryBatches.length)
      { s with arg := { s.arg with numLists := pb.numLists } }
    refine ⟨_, visited, hrun, rfl, rfl, fun hk => ?_⟩
    have hv : visited = liveBatches pb s.arg (List.range s.arg.queryBatches.length) :=
      hlive hk
    refine ⟨hv, fun hdesc bi => ?_⟩
    rw [hv, mem_liveBatches_range]
    constructor
    · rintro ⟨h1, h2⟩
      exact ⟨h1, not_lt.mp (h2 bi (le_refl _))⟩
    · rintro ⟨h1, h2⟩
      exact ⟨h1, fun b hb => not_lt.mpr (le_trans h2 (hdesc b bi hb h1))⟩

/-- Witness for C14: the example with the bucket tuned to the baseline and a second batch
whose maximum norm `1/2` is below the threshold `1`: `run` hands the first batch to the
baseline and stops. -/
theorem baseline_bucket_equivalence_witness :
    baselineBucket.t_b = 1 ∧
    (run retriever baselineBucket 0 startTwo).map (fun t => t.calls)
      = some [Call.plainRunBatch 0] ∧
    runTopK retriever baselineBucket 0 startTwo
      = some ⟨retriever.plainRetriever.runTopKBucket baselineBucket startTwo.arg,
          startTwo.calls ++ [Call.plainRunTopKBucket]⟩ :=
  ⟨rfl, by with_unfolding_all decide,
    (baseline_bucket_equivalence retriever baselineBucket 0 startTwo rfl).1⟩

/-- Claim C15.  The lazy `preprocess` of a batch of the arguments logs `preprocess` exactly
when the batch's `initializedQueues` is false, and the flag is true directly afterwards.
Across any sequence of `run` and `runTopK` calls, with retrievers that stay within their
part of the state and fuel for the rows of every batch: the sequence returns; every batch is
preprocessed at most once; a batch whose queues were built before
the sequence is not preprocessed again and its flag stays true; a batch that is preprocessed
has its flag true at the end; and every per-query call of the alternative comes directly
after the `setQueues` of a queue of a batch whose queues were built before the sequence or
have been built by a `preprocess` earlier in it. -/
theorem queues_built_at_most_once (L : LX_Retriever K) (hL : Framed L) (fuel : Nat)
    (ops : List (Op K)) (s : Machine K)
    (hfuel : ∀ b ∈ s.arg.queryBatches, b.endPos - b.startPos ≤ fuel) :
    (∀ (bi : Nat) (t : Machine K), bi < t.arg.queryBatches.length →
      (lazyPreprocess L bi t).calls = t.calls ++
        (if (batchAt t.arg bi).initializedQueues then [] else [Call.preprocess bi]) ∧
      (batchAt (lazyPreprocess L bi t).arg bi).initializedQueues = true) ∧
    ∃ (s' : Machine K) (extra : List Call),
      runOps L fuel ops s = some s' ∧ s'.calls = s.calls ++ extra ∧
      (∀ bi, extra.count (Call.preprocess bi) ≤ 1) ∧
      (∀ bi, (batchAt s.arg bi).initializedQueues = true →
        Call.preprocess bi ∉ extra ∧ (batchAt s'.arg bi).initializedQueues = true) ∧
      (∀ bi, Call.preprocess bi ∈ extra → (batchAt s'.arg bi).initializedQueues = true) ∧
      ∀ (pre : List Call) (c : Call) (post : List Call), extra = pre ++ c :: post →
        ((∃ u, c = Call.otherRun u) ∨ ∃ u, c = Call.otherRunTopK u) →
        ∃ (pre1 : List Call) (q : QueuePtr), pre = pre1 ++ [Call.setQueues q] ∧
          ((batchAt s.arg q.batch).initializedQueues = true ∨
            Call.preprocess q.batch ∈ pre1) := by
  constructor
  · intro bi t hbi
    exact (lazyPreprocess_step L hL bi t hbi).2
  · obtain ⟨s', hrun, ⟨_, extra, hcalls, hcount, hready⟩, _⟩ :=
      runOps_step L hL fuel ops s (fuel_of_mem s.arg fuel hfuel)
    have hb : ∀ (a : RetrievalArguments K) (bi : Nat),
        built a bi = if (batchAt a bi).initializedQueues = true then 1 else 0 := by
      intro a bi
      unfold built
      rfl
    refine ⟨s', extra, hrun, hcalls, fun bi => ?_, fun bi hi => ?_, fun bi hm => ?_, ?_⟩
    · have := hcount bi
      have := built_le_one s'.arg bi
      omega
    · have h1 := hcount bi
      have h2 := built_le_one s'.arg bi
      rw [hb s.arg bi, if_pos hi] at h1
      constructor
      · intro hm
        have := List.count_pos_iff.mpr hm
        omega
      · by_contra hn
        rw [hb s'.arg bi, if_neg hn] at h1
        omega
    · have h1 := hcount bi
      have h3 := List.count_pos_iff.mpr hm
      by_contra hn
      rw [hb s'.arg bi, if_neg hn] at h1
      omega
    · intro pre c post he hc
      rw [he] at hready
      rcases queuesReady_alternative c hc post pre _ false hready with ⟨_, h⟩ | h
      · simp at h
      · exact h

/-- Witness for C15: `runTopK`, `run` and `runTopK` again on the example, with fuel `4`;
the one batch is preprocessed once, in front of the first per-query call of the
alternative. -/
theorem queues_built_at_most_once_witness :
    Framed retriever ∧
    (runOps retriever 4 [Op.runTopK bucket, Op.run bucket, Op.runTopK bucket] start).map
        (fun t => t.calls)
      = some [Call.moveTopkToHeap 4, Call.preprocess 0, Call.setQueues ⟨0, 2, 3⟩,
          Call.otherRunTopK 2, Call.writeHeapToTopk 2, Call.moveTopkToHeap 6,
          Call.plainRunTopK 3, Call.writeHeapToTopk 3, Call.plainRun 0,
          Call.setQueues ⟨0, 1, 3⟩, Call.otherRun 1] ∧
    ∃ (s' : Machine ℚ) (extra : List Call),
      runOps retriever 4 [Op.runTopK bucket, Op.run bucket, Op.runTopK bucket] start
        = some s' ∧
      s'.calls = start.calls ++ extra ∧
      ∀ bi, extra.count (Call.preprocess bi) ≤ 1 :=
  ⟨retriever_framed, by with_unfolding_all decide,
    (queues_built_at_most_once retriever retriever_framed 4
      [Op.runTopK bucket, Op.run bucket, Op.runTopK bucket] start
      (by with_unfolding_all decide)).2.imp
      (fun _ h => h.imp (fun _ h2 => ⟨h2.1, h2.2.1, h2.2.2.1⟩))⟩

/-- Claim C27.  A pass of `runTopK` over a batch whose `inactiveCounter` equals `rowNum`
returns at once and changes nothing.  Across any sequence of `run` and `runTopK` calls, with
retrievers that stay within their part of the state, well-formed batches and fuel for the
rows of every batch, the sequence returns, and for every batch: no set flag has been
cleared; `inactiveCounter` has grown by exactly the number of flags that have been set; so
if `inactiveCounter` was the number of set flags before, it is so afterwards, it is at most
`rowNum`, and it equals `rowNum` only when the flag of every query of the batch is set. -/
theorem inactivity_bookkeeping (L : LX_Retriever K) (hL : Framed L) (fuel : Nat)
    (ops : List (Op K)) (s : Machine K)
    (hwf : ∀ b ∈ s.arg.queryBatches, WellFormed b)
    (hfuel : ∀ b ∈ s.arg.queryBatches, b.endPos - b.startPos ≤ fuel) :
    (∀ (pb : ProbeBucket K) (f bi : Nat) (t : Machine K),
      (batchAt t.arg bi).inactiveCounter = (batchAt t.arg bi).rowNum →
      runTopKBatch L pb f bi t = some t) ∧
    ∃ s' : Machine K, runOps L fuel ops s = some s' ∧
      ∀ bi, bi < s.arg.queryBatches.length →
        (∀ pos, inactiveAt (batchAt s.arg bi) pos = true →
          inactiveAt (batchAt s'.arg bi) pos = true) ∧
        (batchAt s'.arg bi).inactiveCounter + setFlags (batchAt s.arg bi)
          = (batchAt s.arg bi).inactiveCounter + setFlags (batchAt s'.arg bi) ∧
        ((batchAt s.arg bi).inactiveCounter = setFlags (batchAt s.arg bi) →
          (batchAt s'.arg bi).inactiveCounter = setFlags (batchAt s'.arg bi) ∧
          (batchAt s'.arg bi).inactiveCounter ≤ (batchAt s'.arg bi).rowNum ∧
          ((batchAt s'.arg bi).inactiveCounter = (batchAt s'.arg bi).rowNum →
            ∀ pos, pos < (batchAt s'.arg bi).rowNum →
              inactiveAt (batchAt s'.arg bi) pos = true)) := by
  constructor
  · intro pb f bi t h
    unfold runTopKBatch
    simp only [h, if_true]
  · obtain ⟨s', hrun, ⟨hkept, _⟩, hcnt⟩ :=
      runOps_step L hL fuel ops s (fuel_of_mem s.arg fuel hfuel)
    refine ⟨s', hrun, fun bi hbi => ?_⟩
    obtain ⟨_, _, _, _, _, hmono⟩ := hkept.2.2.2 bi
    have hcount := hcnt (wellFormed_of_mem s.arg hwf) bi
    have hw := wellFormed_of_kept (hkept.2.2.2 bi) (wellFormed_of_mem s.arg hwf bi hbi)
    refine ⟨fun pos hp => ?_, hcount, fun hinv => ?_⟩
    · by_contra hn
      have := hmono pos (by simpa using hn)
      rw [hp] at this
      exact Bool.noConfusion this
    · have he : (batchAt s'.arg bi).inactiveCounter = setFlags (batchAt s'.arg bi) := by omega
      have hle : setFlags (batchAt s'.arg bi) ≤ (batchAt s'.arg bi).inactiveQueries.length :=
        List.count_le_length _ _
      refine ⟨he, by rw [he, ← hw.1]; exact hle, fun hfull pos hp => ?_⟩
      apply getD_of_count_eq_length
      · show setFlags (batchAt s'.arg bi) = _
        rw [← he, hfull, hw.1]
      · rw [hw.1]
        exact hp

/-- Witness for C27: `runTopK`, `run` and `runTopK` again on the example, with fuel `4`;
the counter goes from `1` to `4` while the flags of the rows `1`, `2` and `3` are set. -/
theorem inactivity_bookkeeping_witness :
    Framed retriever ∧
    (runOps retriever 4 [Op.runTopK bucket, Op.run bucket, Op.runTopK bucket] start).map
        (fun t => t.arg.queryBatches.map (fun b => (b.inactiveQueries, b.inactiveCounter)))
      = some [([true, true, true, true], 4)] ∧
    ∃ s' : Machine ℚ,
      runOps retriever 4 [Op.runTopK bucket, Op.run bucket, Op.runTopK bucket] start
        = some s' ∧
      ∀ bi, bi < start.arg.queryBatches.length →
        (batchAt s'.arg bi).inactiveCounter + setFlags (batchAt start.arg bi)
          = (batchAt start.arg bi).inactiveCounter + setFlags (batchAt s'.arg bi) :=
  ⟨retriever_framed, by with_unfolding_all decide,
    (inactivity_bookkeeping retriever retriever_framed 4
      [Op.runTopK bucket, Op.run bucket, Op.runTopK bucket] start
      (fun b hb => by
        have hb1 : b = batch := by simpa [start, arguments] using hb
        rw [hb1]
        exact ⟨rfl, by decide⟩)
      (by with_unfolding_all decide)).2.imp
      (fun _ h => ⟨h.1, fun bi hbi => (h.2 bi hbi).2.1⟩)⟩

end LX_Retriever

end ta

/-! ## `double` arithmetic: rounding to the nearest number with 53 significant bits -/

namespace mips
namespace fp

/-- The rounded integer is the floor or the integer after it. -/
theorem roundHalfEven_floor (a : ℚ) :
    roundHalfEven a = ⌊a⌋ ∨ (roundHalfEven a = ⌊a⌋ + 1 ∧ 1 / 2 ≤ a - ⌊a⌋) := by
  unfold roundHalfEven
  split_ifs with h1 h2 h3
  · exact Or.inl rfl
  · exact Or.inr ⟨rfl, h2.le⟩
  · exact Or.inl rfl
  · exact Or.inr ⟨rfl, not_lt.mp h1⟩

/-- Rounding to an integer moves a number by at most one half. -/
theorem roundHalfEven_error (a : ℚ) : |(roundHalfEven a : ℚ) - a| ≤ 1 / 2 := by
  have hf := Int.floor_le a
  have hl := Int.lt_floor_add_one a
  unfold roundHalfEven
  rw [abs_le]
  split_ifs with h1 h2 h3
  · constructor <;> linarith
  · push_cast
    constructor <;> linarith
  · constructor <;> linarith
  · push_cast
    constructor <;> linarith

/-- An integer below `a` is below the rounded integer. -/
theorem le_roundHalfEven (a : ℚ) (n : ℤ) (h : (n : ℚ) ≤ a) : n ≤ roundHalfEven a := by
  have hn : n ≤ ⌊a⌋ := Int.le_floor.mpr h
  rcases roundHalfEven_floor a with e | ⟨e, _⟩ <;> omega

/-- An integer above `a` is above the rounded integer. -/
theorem roundHalfEven_le (a : ℚ) (n : ℤ) (h : a ≤ (n : ℚ)) : roundHalfEven a ≤ n := by
  rcases roundHalfEven_floor a with e | ⟨e, hfrac⟩
  · rw [e]
    exact Int.cast_le.mp (le_trans (Int.floor_le a) h)
  · rw [e]
    have hlt : (⌊a⌋ : ℚ) < n := by linarith
    have : ⌊a⌋ < n := Int.cast_lt.mp hlt
    omega

/-- Rounding to an integer is monotone. -/
theorem roundHalfEven_mono {a b : ℚ} (h : a ≤ b) : roundHalfEven a ≤ roundHalfEven b := by
  have hfl : ⌊a⌋ ≤ ⌊b⌋ := Int.floor_mono h
  rcases lt_or_eq_of_le hfl with hlt | heq
  · have h1 : roundHalfEven a ≤ ⌊a⌋ + 1 := by
      rcases roundHalfEven_floor a with e | ⟨e, _⟩ <;> omega
    have h2 : ⌊b⌋ ≤ roundHalfEven b := by
      rcases roundHalfEven_floor b with e | ⟨e, _⟩ <;> omega
    omega
  · unfold roundHalfEven
    rw [← heq]
    split_ifs <;> first | omega | (exfalso; linarith)

/-- The unit in the last place is positive. -/
theorem ulp_pos (y : ℚ) : 0 < ulp y := by
  unfold ulp
  positivity

/-- A positive magnitude lies in the binade of its exponent. -/
theorem binade (y : ℚ) (hy : 0 < y) :
    (2 : ℚ) ^ Int.log 2 y ≤ y ∧ y < (2 : ℚ) ^ (Int.log 2 y + 1) := by
  have h1 := Int.zpow_log_le_self (b := 2) (by norm_num) hy
  have h2 := Int.lt_zpow_succ_log_self (b := 2) (by norm_num) y
  simp only [Nat.cast_ofNat] at h1 h2
  exact ⟨h1, h2⟩

/-- The exponent of a magnitude is the one of the binade it lies in. -/
theorem log_eq_of_binade (y : ℚ) (e : ℤ) (hy : 0 < y) (h1 : (2 : ℚ) ^ e ≤ y)
    (h2 : y < (2 : ℚ) ^ (e + 1)) : Int.log 2 y = e := by
  have a1 := (Int.zpow_le_iff_le_log (b := 2) (by norm_num) (x := e) hy).mp
    (by simpa using h1)
  have a2 := (Int.lt_zpow_iff_log_lt (b := 2) (by norm_num) (x := e + 1) hy).mp
    (by simpa using h2)
  omega

/-- The scaled significand of a positive magnitude lies between `2^52` and `2^53`. -/
theorem significand_bounds (y : ℚ) (hy : 0 < y) :
    (2 : ℚ) ^ (52 : ℕ) ≤ y / ulp y ∧ y / ulp y < (2 : ℚ) ^ (53 : ℕ) := by
  obtain ⟨h1, h2⟩ := binade y hy
  have hu := ulp_pos y
  have e1 : (2 : ℚ) ^ Int.log 2 y = (2 : ℚ) ^ (52 : ℕ) * ulp y := by
    unfold ulp
    rw [← zpow_natCast, ← zpow_add₀ (by norm_num : (2 : ℚ) ≠ 0)]
    congr 1
    push_cast
    ring
  have e2 : (2 : ℚ) ^ (Int.log 2 y + 1) = (2 : ℚ) ^ (53 : ℕ) * ulp y := by
    unfold ulp
    rw [← zpow_natCast, ← zpow_add₀ (by norm_num : (2 : ℚ) ≠ 0)]
    congr 1
    push_cast
    ring
  rw [e1] at h1
  rw [e2] at h2
  exact ⟨(le_div_iff₀ hu).mpr h1, (div_lt_iff₀ hu).mpr h2⟩

/-- Rounding the magnitude `0` gives `0`. -/
theorem roundMagnitude_zero : roundMagnitude 0 = 0 := by
  unfold roundMagnitude roundHalfEven
  simp

/-- A rounded magnitude is not negative. -/
theorem roundMagnitude_nonneg (y : ℚ) (hy : 0 ≤ y) : 0 ≤ roundMagnitude y := by
  unfold roundMagnitude
  have hu := ulp_pos y
  have h0 : (0 : ℤ) ≤ roundHalfEven (y / ulp y) :=
    le_roundHalfEven _ 0 (by simpa using div_nonneg hy hu.le)
  have : (0 : ℚ) ≤ (roundHalfEven (y / ulp y) : ℚ) := by exact_mod_cast h0
  exact mul_nonneg this hu.le

/-- A rounded positive magnitude stays in the closed binade of its exponent. -/
theorem roundMagnitude_binade (y : ℚ) (hy : 0 < y) :
    (2 : ℚ) ^ Int.log 2 y ≤ roundMagnitude y ∧
    roundMagnitude y ≤ (2 : ℚ) ^ (Int.log 2 y + 1) := by
  obtain ⟨h1, h2⟩ := significand_bounds y hy
  have hu := ulp_pos y
  have a1 : ((2 ^ 52 : ℤ)) ≤ roundHalfEven (y / ulp y) :=
    le_roundHalfEven _ _ (by push_cast; exact h1)
  have a2 : roundHalfEven (y / ulp y) ≤ ((2 ^ 53 : ℤ)) :=
    roundHalfEven_le _ _ (by push_cast; exact h2.le)
  have b1 : (2 : ℚ) ^ (52 : ℕ) ≤ (roundHalfEven (y / ulp y) : ℚ) := by exact_mod_cast a1
  have b2 : (roundHalfEven (y / ulp y) : ℚ) ≤ (2 : ℚ) ^ (53 : ℕ) := by exact_mod_cast a2
  have e1 : (2 : ℚ) ^ Int.log 2 y = (2 : ℚ) ^ (52 : ℕ) * ulp y := by
    unfold ulp
    rw [← zpow_natCast, ← zpow_add₀ (by norm_num : (2 : ℚ) ≠ 0)]
    congr 1
    push_cast
    ring
  have e2 : (2 : ℚ) ^ (Int.log 2 y + 1) = (2 : ℚ) ^ (53 : ℕ) * ulp y := by
    unfold ulp
    rw [← zpow_natCast, ← zpow_add₀ (by norm_num : (2 : ℚ) ≠ 0)]
    congr 1
    push_cast
    ring
  rw [e1, e2]
  unfold roundMagnitude
  exact ⟨mul_le_mul_of_nonneg_right b1 hu.le, mul_le_mul_of_nonneg_right b2 hu.le⟩

/-- Rounding a magnitude to 53 significant bits moves it by at most `2^(-53)` of itself. -/
theorem roundMagnitude_error (y : ℚ) (hy : 0 ≤ y) :
    |roundMagnitude y - y| ≤ (2 : ℚ) ^ (-53 : ℤ) * y := by
  rcases eq_or_lt_of_le hy with h0 | hpos
  · rw [← h0, roundMagnitude_zero]
    simp
  · have hu := ulp_pos y
    have herr := roundHalfEven_error (y / ulp y)
    have e : roundMagnitude y - y = ((roundHalfEven (y / ulp y) : ℚ) - y / ulp y) * ulp y := by
      unfold roundMagnitude
      field_simp
    rw [e, abs_mul, abs_of_pos hu]
    have h1 : |(roundHalfEven (y / ulp y) : ℚ) - y / ulp y| * ulp y ≤ 1 / 2 * ulp y :=
      mul_le_mul_of_nonneg_right herr hu.le
    have h2 : 1 / 2 * ulp y = (2 : ℚ) ^ (-53 : ℤ) * (2 : ℚ) ^ Int.log 2 y := by
      unfold ulp
      rw [← zpow_add₀ (by norm_num : (2 : ℚ) ≠ 0)]
      have : (1 : ℚ) / 2 = (2 : ℚ) ^ (-1 : ℤ) := by norm_num
      rw [this, ← zpow_add₀ (by norm_num : (2 : ℚ) ≠ 0)]
      congr 1
      ring
    have h3 : (2 : ℚ) ^ (-53 : ℤ) * (2 : ℚ) ^ Int.log 2 y ≤ (2 : ℚ) ^ (-53 : ℤ) * y :=
      mul_le_mul_of_nonneg_left (binade y hpos).1 (by positivity)
    exact le_trans h1 (h2 ▸ h3)

/-- Rounding magnitudes is monotone. -/
theorem roundMagnitude_mono {y z : ℚ} (hy : 0 ≤ y) (h : y ≤ z) :
    roundMagnitude y ≤ roundMagnitude z := by
  rcases eq_or_lt_of_le hy with h0 | hpos
  · rw [← h0, roundMagnitude_zero]
    exact roundMagnitude_nonneg z (le_trans hy h)
  · have hz : 0 < z := lt_of_lt_of_le hpos h
    have hlog : Int.log 2 y ≤ Int.log 2 z := Int.log_mono_right hpos h
    rcases eq_or_lt_of_le hlog with heq | hlt
    · have hu : ulp z = ulp y := by
        unfold ulp
        rw [heq]
      unfold roundMagnitude
      rw [hu]
      have hpu := ulp_pos y
      have hdiv : y / ulp y ≤ z / ulp y := div_le_div_of_nonneg_right h hpu.le
      have hr : (roundHalfEven (y / ulp y) : ℚ) ≤ (roundHalfEven (z / ulp y) : ℚ) := by
        exact_mod_cast roundHalfEven_mono hdiv
      exact mul_le_mul_of_nonneg_right hr hpu.le
    · have h1 := (roundMagnitude_binade y hpos).2
      have h2 := (roundMagnitude_binade z hz).1
      have h3 : (2 : ℚ) ^ (Int.log 2 y + 1) ≤ (2 : ℚ) ^ Int.log 2 z :=
        zpow_le_zpow_right₀ (by norm_num) (by omega)
      linarith

/-- Rounding to a `double` is odd: the sign is kept apart from the magnitude. -/
theorem binary64_neg (x : ℚ) : binary64 (-x) = -binary64 x := by
  unfold binary64
  rcases lt_trichotomy x 0 with h | h | h
  · rw [if_pos (by linarith : (0 : ℚ) ≤ -x), if_neg (by linarith)]
    simp
  · subst h
    simp [roundMagnitude_zero]
  · rw [if_neg (by linarith : ¬ (0 : ℚ) ≤ -x), if_pos h.le]
    simp

/-- Rounding to a `double` keeps `0`. -/
theorem binary64_zero : binary64 0 = 0 := by
  unfold binary64
  simp [roundMagnitude_zero]

/-- Rounding to a `double` moves a number by at most `2^(-53)` of its magnitude. -/
theorem binary64_error (x : ℚ) : |binary64 x - x| ≤ (2 : ℚ) ^ (-53 : ℤ) * |x| := by
  unfold binary64
  split_ifs with h
  · rw [abs_of_nonneg h]
    exact roundMagnitude_error x h
  · have hx : 0 ≤ -x := by linarith
    have := roundMagnitude_error (-x) hx
    rw [abs_of_neg (not_le.mp h)]
    have e : -roundMagnitude (-x) - x = -(roundMagnitude (-x) - -x) := by ring
    rw [e, abs_neg]
    exact this

/-- Rounding to a `double` is monotone. -/
theorem binary64_mono : Monotone binary64 := by
  intro x y h
  unfold binary64
  by_cases hx : 0 ≤ x
  · have hy : 0 ≤ y := le_trans hx h
    rw [if_pos hx, if_pos hy]
    exact roundMagnitude_mono hx h
  · rw [if_neg hx]
    by_cases hy : 0 ≤ y
    · rw [if_pos hy]
      have := roundMagnitude_nonneg (-x) (by linarith)
      have := roundMagnitude_nonneg y hy
      linarith
    · rw [if_neg hy]
      have := roundMagnitude_mono (y := -y) (z := -x) (by linarith) (by linarith)
      linarith

/-- The rounding of a positive magnitude from its binade `e` and the floor `f` of its scaled
significand. -/
theorem roundMagnitude_eval (y : ℚ) (e f : ℤ) (hy : 0 < y) (h1 : (2 : ℚ) ^ e ≤ y)
    (h2 : y < (2 : ℚ) ^ (e + 1)) (h3 : (f : ℚ) ≤ y / 2 ^ (e - 52))
    (h4 : y / 2 ^ (e - 52) < f + 1) :
    roundMagnitude y
      = ((if y / 2 ^ (e - 52) - f < 1 / 2 then f
          else if 1 / 2 < y / 2 ^ (e - 52) - f then f + 1
          else if f % 2 = 0 then f else f + 1 : ℤ) : ℚ) * 2 ^ (e - 52) := by
  unfold roundMagnitude ulp roundHalfEven
  rw [log_eq_of_binade y e hy h1 h2, Int.floor_eq_iff.mpr ⟨h3, h4⟩]

/-- A positive number with 53 significant bits is its own rounding. -/
theorem binary64_representable (n e : ℤ) (h1 : 2 ^ 52 ≤ n) (h2 : n < 2 ^ 53) :
    binary64 (n * 2 ^ (e - 52)) = n * 2 ^ (e - 52) := by
  have hp : (0 : ℚ) < 2 ^ (e - 52) := by positivity
  have hn1 : (2 : ℚ) ^ (52 : ℕ) ≤ (n : ℚ) := by exact_mod_cast h1
  have hn2 : (n : ℚ) < (2 : ℚ) ^ (53 : ℕ) := by exact_mod_cast h2
  have hn0 : (0 : ℚ) < n := lt_of_lt_of_le (by positivity) hn1
  have hy : (0 : ℚ) < n * 2 ^ (e - 52) := mul_pos hn0 hp
  have e1 : (2 : ℚ) ^ e = (2 : ℚ) ^ (52 : ℕ) * 2 ^ (e - 52) := by
    rw [← zpow_natCast, ← zpow_add₀ (by norm_num : (2 : ℚ) ≠ 0)]
    congr 1
    push_cast
    ring
  have e2 : (2 : ℚ) ^ (e + 1) = (2 : ℚ) ^ (53 : ℕ) * 2 ^ (e - 52) := by
    rw [← zpow_natCast, ← zpow_add₀ (by norm_num : (2 : ℚ) ≠ 0)]
    congr 1
    push_cast
    ring
  have hdiv : (n : ℚ) * 2 ^ (e - 52) / 2 ^ (e - 52) = n := by
    field_simp
  unfold binary64
  rw [if_pos hy.le, roundMagnitude_eval _ e n hy
    (by rw [e1]; exact mul_le_mul_of_nonneg_right hn1 hp.le)
    (by rw [e2]; exact mul_lt_mul_of_pos_right hn2 hp)
    (by rw [hdiv]) (by rw [hdiv]; linarith)]
  rw [hdiv]
  simp

/-- The literal `0.2` is the `double` `fifth`. -/
theorem binary64_fifth : binary64 (1 / 5) = fifth := by
  unfold binary64
  rw [if_pos (by norm_num [fifth, tenth, threeTenths]), roundMagnitude_eval _ (-3) 7205759403792793 (by norm_num [fifth, tenth, threeTenths])
    (by norm_num [fifth, tenth, threeTenths]) (by norm_num [fifth, tenth, threeTenths]) (by norm_num [fifth, tenth, threeTenths]) (by norm_num [fifth, tenth, threeTenths])]
  norm_num [fifth]

/-- The literal `0.1` is the `double` `tenth`. -/
theorem binary64_tenth : binary64 (1 / 10) = tenth := by
  unfold binary64
  rw [if_pos (by norm_num [fifth, tenth, threeTenths]), roundMagnitude_eval _ (-4) 7205759403792793 (by norm_num [fifth, tenth, threeTenths])
    (by norm_num [fifth, tenth, threeTenths]) (by norm_num [fifth, tenth, threeTenths]) (by norm_num [fifth, tenth, threeTenths]) (by norm_num [fifth, tenth, threeTenths])]
  norm_num [tenth]

/-- The literal `0.3` is the `double` `threeTenths`. -/
theorem binary64_threeTenths : binary64 (3 / 10) = threeTenths := by
  unfold binary64
  rw [if_pos (by norm_num [fifth, tenth, threeTenths]), roundMagnitude_eval _ (-2) 5404319552844595 (by norm_num [fifth, tenth, threeTenths])
    (by norm_num [fifth, tenth, threeTenths]) (by norm_num [fifth, tenth, threeTenths]) (by norm_num [fifth, tenth, threeTenths]) (by norm_num [fifth, tenth, threeTenths])]
  norm_num [threeTenths]

/-- The number `1/2` is a `double`. -/
theorem binary64_half : binary64 (1 / 2) = 1 / 2 ^ 1 := by
  unfold binary64
  rw [if_pos (by norm_num [fifth, tenth, threeTenths]), roundMagnitude_eval _ (-1) 4503599627370496 (by norm_num [fifth, tenth, threeTenths])
    (by norm_num [fifth, tenth, threeTenths]) (by norm_num [fifth, tenth, threeTenths]) (by norm_num [fifth, tenth, threeTenths]) (by norm_num [fifth, tenth, threeTenths])]
  norm_num [fifth, tenth, threeTenths]

/-- The number `1` is a `double`. -/
theorem binary64_one : binary64 (1) = 1 := by
  unfold binary64
  rw [if_pos (by norm_num [fifth, tenth, threeTenths]), roundMagnitude_eval _ (0) 4503599627370496 (by norm_num [fifth, tenth, threeTenths])
    (by norm_num [fifth, tenth, threeTenths]) (by norm_num [fifth, tenth, threeTenths]) (by norm_num [fifth, tenth, threeTenths]) (by norm_num [fifth, tenth, threeTenths])]
  norm_num [fifth, tenth, threeTenths]

/-- The difference `1 - 0.2` lies halfway between two `double`s and is rounded up, to the `double` `0.8`. -/
theorem binary64_one_sub_fifth : binary64 (1 - fifth) = 3602879701896397 / 2 ^ 52 := by
  unfold binary64
  rw [if_pos (by norm_num [fifth, tenth, threeTenths]), roundMagnitude_eval _ (-1) 7205759403792793 (by norm_num [fifth, tenth, threeTenths])
    (by norm_num [fifth, tenth, threeTenths]) (by norm_num [fifth, tenth, threeTenths]) (by norm_num [fifth, tenth, threeTenths]) (by norm_num [fifth, tenth, threeTenths])]
  norm_num [fifth, tenth, threeTenths]

/-- The difference `0.8 - 0.5` of `double`s is exact: `0.30000000000000004`. -/
theorem binary64_eight_sub_half : binary64 (3602879701896397 / 2 ^ 52 - 1 / 2) = 1351079888211149 / 2 ^ 52 := by
  unfold binary64
  rw [if_pos (by norm_num [fifth, tenth, threeTenths]), roundMagnitude_eval _ (-2) 5404319552844596 (by norm_num [fifth, tenth, threeTenths])
    (by norm_num [fifth, tenth, threeTenths]) (by norm_num [fifth, tenth, threeTenths]) (by norm_num [fifth, tenth, threeTenths]) (by norm_num [fifth, tenth, threeTenths])]
  norm_num [fifth, tenth, threeTenths]

/-- The difference `0.5 - 0.2` of `double`s is exact: `0.3` less one unit in the last place. -/
theorem binary64_half_sub_fifth : binary64 (1 / 2 - fifth) = 5404319552844595 / 2 ^ 54 := by
  unfold binary64
  rw [if_pos (by norm_num [fifth, tenth, threeTenths]), roundMagnitude_eval _ (-2) 5404319552844595 (by norm_num [fifth, tenth, threeTenths])
    (by norm_num [fifth, tenth, threeTenths]) (by norm_num [fifth, tenth, threeTenths]) (by norm_num [fifth, tenth, threeTenths]) (by norm_num [fifth, tenth, threeTenths])]
  norm_num [fifth, tenth, threeTenths]

/-- The difference `0.3 - 0.2` of `double`s is exact: `0.09999999999999998`. -/
theorem binary64_threeTenths_sub_fifth : binary64 (threeTenths - fifth) = 900719925474099 / 2 ^ 53 := by
  unfold binary64
  rw [if_pos (by norm_num [fifth, tenth, threeTenths]), roundMagnitude_eval _ (-4) 7205759403792792 (by norm_num [fifth, tenth, threeTenths])
    (by norm_num [fifth, tenth, threeTenths]) (by norm_num [fifth, tenth, threeTenths]) (by norm_num [fifth, tenth, threeTenths]) (by norm_num [fifth, tenth, threeTenths])]
  norm_num [fifth, tenth, threeTenths]

/-- The difference `1 - 0.3` is rounded to the `double` `0.7`. -/
theorem binary64_one_sub_threeTenths : binary64 (1 - threeTenths) = 3152519739159347 / 2 ^ 52 := by
  unfold binary64
  rw [if_pos (by norm_num [fifth, tenth, threeTenths]), roundMagnitude_eval _ (-1) 6305039478318694 (by norm_num [fifth, tenth, threeTenths])
    (by norm_num [fifth, tenth, threeTenths]) (by norm_num [fifth, tenth, threeTenths]) (by norm_num [fifth, tenth, threeTenths]) (by norm_num [fifth, tenth, threeTenths])]
  norm_num [fifth, tenth, threeTenths]

/-- The sum `0.7 + 0.1` is rounded down, to `0.7999999999999999`. -/
theorem binary64_seven_add_tenth : binary64 (3152519739159347 / 2 ^ 52 + tenth) = 7205759403792793 / 2 ^ 53 := by
  unfold binary64
  rw [if_pos (by norm_num [fifth, tenth, threeTenths]), roundMagnitude_eval _ (-1) 7205759403792793 (by norm_num [fifth, tenth, threeTenths])
    (by norm_num [fifth, tenth, threeTenths]) (by norm_num [fifth, tenth, threeTenths]) (by norm_num [fifth, tenth, threeTenths]) (by norm_num [fifth, tenth, threeTenths])]
  norm_num [fifth, tenth, threeTenths]

/-- The sum `1 + 2^(-53)` lies halfway between `1` and `1 + 2^(-52)` and is rounded to the even one, `1`. -/
theorem binary64_one_add_half_ulp : binary64 (1 + 1 / 2 ^ 53) = 1 := by
  unfold binary64
  rw [if_pos (by norm_num [fifth, tenth, threeTenths]), roundMagnitude_eval _ (0) 4503599627370496 (by norm_num [fifth, tenth, threeTenths])
    (by norm_num [fifth, tenth, threeTenths]) (by norm_num [fifth, tenth, threeTenths]) (by norm_num [fifth, tenth, threeTenths]) (by norm_num [fifth, tenth, threeTenths])]
  norm_num [fifth, tenth, threeTenths]

/-- The number `1 + 2^(-52)` is a `double`. -/
theorem binary64_one_add_ulp : binary64 (1 + 1 / 2 ^ 52) = 4503599627370497 / 2 ^ 52 := by
  unfold binary64
  rw [if_pos (by norm_num [fifth, tenth, threeTenths]), roundMagnitude_eval _ (0) 4503599627370497 (by norm_num [fifth, tenth, threeTenths])
    (by norm_num [fifth, tenth, threeTenths]) (by norm_num [fifth, tenth, threeTenths]) (by norm_num [fifth, tenth, threeTenths]) (by norm_num [fifth, tenth, threeTenths])]
  norm_num [fifth, tenth, threeTenths]

/-- The number `2^(-52)` is a `double`. -/
theorem binary64_ulp_one : binary64 (1 / 2 ^ 52) = 1 / 2 ^ 52 := by
  unfold binary64
  rw [if_pos (by norm_num [fifth, tenth, threeTenths]), roundMagnitude_eval _ (-52) 4503599627370496 (by norm_num [fifth, tenth, threeTenths])
    (by norm_num [fifth, tenth, threeTenths]) (by norm_num [fifth, tenth, threeTenths]) (by norm_num [fifth, tenth, threeTenths]) (by norm_num [fifth, tenth, threeTenths])]
  norm_num [fifth, tenth, threeTenths]

/-- The number `2^(-53)` is a `double`. -/
theorem binary64_half_ulp_one : binary64 (1 / 2 ^ 53) = 1 / 2 ^ 53 := by
  unfold binary64
  rw [if_pos (by norm_num [fifth, tenth, threeTenths]), roundMagnitude_eval _ (-53) 4503599627370496 (by norm_num [fifth, tenth, threeTenths])
    (by norm_num [fifth, tenth, threeTenths]) (by norm_num [fifth, tenth, threeTenths]) (by norm_num [fifth, tenth, threeTenths]) (by norm_num [fifth, tenth, threeTenths])]
  norm_num [fifth, tenth, threeTenths]

/-- The difference `1 - 0.1` is rounded to the `double` `0.9`. -/
theorem binary64_one_sub_tenth : binary64 (1 - tenth) = 8106479329266893 / 2 ^ 53 := by
  unfold binary64
  rw [if_pos (by norm_num [fifth, tenth, threeTenths]), roundMagnitude_eval _ (-1) 8106479329266892 (by norm_num [fifth, tenth, threeTenths])
    (by norm_num [fifth, tenth, threeTenths]) (by norm_num [fifth, tenth, threeTenths]) (by norm_num [fifth, tenth, threeTenths]) (by norm_num [fifth, tenth, threeTenths])]
  norm_num [fifth, tenth, threeTenths]

/-- The `double` `0.9` is its own rounding. -/
theorem binary64_nine : binary64 (8106479329266893 / 2 ^ 53) = 8106479329266893 / 2 ^ 53 := by
  unfold binary64
  rw [if_pos (by norm_num [fifth, tenth, threeTenths]), roundMagnitude_eval _ (-1) 8106479329266893 (by norm_num [fifth, tenth, threeTenths])
    (by norm_num [fifth, tenth, threeTenths]) (by norm_num [fifth, tenth, threeTenths]) (by norm_num [fifth, tenth, threeTenths]) (by norm_num [fifth, tenth, threeTenths])]
  norm_num [fifth, tenth, threeTenths]

/-- Half the `double` `0.9` is exact: `0.45`. -/
theorem binary64_half_nine : binary64 (8106479329266893 / 2 ^ 53 / 2) = 8106479329266893 / 2 ^ 54 := by
  unfold binary64
  rw [if_pos (by norm_num [fifth, tenth, threeTenths]), roundMagnitude_eval _ (-2) 8106479329266893 (by norm_num [fifth, tenth, threeTenths])
    (by norm_num [fifth, tenth, threeTenths]) (by norm_num [fifth, tenth, threeTenths]) (by norm_num [fifth, tenth, threeTenths]) (by norm_num [fifth, tenth, threeTenths])]
  norm_num [fifth, tenth, threeTenths]

/-- The sum `1 + (-0.45)` is rounded to the `double` `0.55`. -/
theorem binary64_one_sub_half_nine : binary64 (1 - 8106479329266893 / 2 ^ 54) = 2476979795053773 / 2 ^ 52 := by
  unfold binary64
  rw [if_pos (by norm_num [fifth, tenth, threeTenths]), roundMagnitude_eval _ (-1) 4953959590107545 (by norm_num [fifth, tenth, threeTenths])
    (by norm_num [fifth, tenth, threeTenths]) (by norm_num [fifth, tenth, threeTenths]) (by norm_num [fifth, tenth, threeTenths]) (by norm_num [fifth, tenth, threeTenths])]
  norm_num [fifth, tenth, threeTenths]

/-- The difference `0.55 - 0.1` is rounded up, to `0.45000000000000007`. -/
theorem binary64_center_sub_tenth : binary64 (2476979795053773 / 2 ^ 52 - tenth) = 4053239664633447 / 2 ^ 53 := by
  unfold binary64
  rw [if_pos (by norm_num [fifth, tenth, threeTenths]), roundMagnitude_eval _ (-2) 8106479329266893 (by norm_num [fifth, tenth, threeTenths])
    (by norm_num [fifth, tenth, threeTenths]) (by norm_num [fifth, tenth, threeTenths]) (by norm_num [fifth, tenth, threeTenths]) (by norm_num [fifth, tenth, threeTenths])]
  norm_num [fifth, tenth, threeTenths]

open metric

/-- Rounding to a `double` has the unit roundoff `2^(-53)`. -/
theorem binary64_roundsWithin : RoundsWithin binary64 ((2 : ℚ) ^ (-53 : ℤ)) := by
  refine ⟨by positivity, ?_, binary64_error⟩
  norm_num

/-- A number that is not negative is rounded to a `double` that is not negative. -/
theorem binary64_nonneg {x : ℚ} (h : 0 ≤ x) : 0 ≤ binary64 x := by
  have := binary64_mono h
  rwa [binary64_zero] at this

/-- The computed distance of two points of the line does not depend on their order. -/
theorem line64_symm (a b : ℚ) : line64 a b = line64 b a := by
  unfold line64
  have h : a - b = -(b - a) := by ring
  rw [h, binary64_neg, abs_neg]

/-- The computed distance from a point to one below it is the rounded difference. -/
theorem line64_of_le {a b : ℚ} (h : b ≤ a) : line64 a b = binary64 (a - b) := by
  unfold line64
  exact abs_of_nonneg (binary64_nonneg (by linarith))

/-- The computed distance from a point to one above it is the rounded difference. -/
theorem line64_of_ge {a b : ℚ} (h : a ≤ b) : line64 a b = binary64 (b - a) := by
  rw [line64_symm, line64_of_le h]

/-- The computed distance of the line has the relative error `2^(-53)` against the true
distance. -/
theorem line64_computesWithin : ComputesWithin line64 line ((2 : ℚ) ^ (-53 : ℤ)) := by
  refine ⟨by positivity, by norm_num, ?_⟩
  intro a b
  show abs (abs (binary64 (a - b)) - abs (a - b)) ≤ (2 : ℚ) ^ (-53 : ℤ) * abs (a - b)
  exact le_trans (abs_abs_sub_abs_le _ _) (binary64_error (a - b))

end fp
end mips

namespace mips
namespace bound
namespace rounded

open metric math fp

variable {K V : Type} [LinearOrderedField K] [AddCommGroup V] [Module K V]

/-- A rounded result lies within the relative error of the exact one, and so does its
magnitude. -/
theorem fl_bounds {fl : K → K} {u : K} (h : RoundsWithin fl u) (x : K) :
    x - u * |x| ≤ fl x ∧ fl x ≤ x + u * |x| ∧ |fl x| ≤ (1 + u) * |x| := by
  have he := h.2.2 x
  have h1 := (abs_le.mp he).1
  have h2 := (abs_le.mp he).2
  refine ⟨by linarith, by linarith, ?_⟩
  have h3 : |fl x| ≤ |fl x - x| + |x| := by
    have := abs_add (fl x - x) x
    simpa using this
  linarith

/-- A computed distance lies within the relative error of the true one and is not
negative. -/
theorem dist_bounds {dist : V → V → K} {m : EuclideanDistance K V} {g : K}
    (h : ComputesWithin dist m g) (a b : V) :
    (1 - g) * m.Evaluate a b ≤ dist a b ∧ dist a b ≤ (1 + g) * m.Evaluate a b ∧
    0 ≤ dist a b := by
  have he := h.2.2 a b
  have h1 := (abs_le.mp he).1
  have h2 := (abs_le.mp he).2
  have hn := m.nonneg a b
  have h3 : (1 - g) * m.Evaluate a b ≤ dist a b := by linarith
  refine ⟨h3, by linarith, le_trans ?_ h3⟩
  exact mul_nonneg (by linarith [h.2.1]) hn

/-- The method `Contains` answers `true` exactly for a point whose computed distance from
the center is within the radius of a bound whose radius is not negative. -/
theorem computed_contains_iff (dist : V → V → K) (b : BallBound K V) (point : V) :
    Contains dist b point = true ↔ 0 ≤ b.radius ∧ dist b.center point ≤ b.radius := by
  unfold Contains
  split_ifs with h
  · simp only [Bool.false_eq_true, false_iff, not_and]
    intro h0
    exact absurd h (not_lt.mpr h0)
  · simp only [decide_eq_true_eq, iff_and_self]
    intro _
    exact not_lt.mp h

/-- From `(1 - g) * x <= g * y` to `x <= g / (1 - g) * y`. -/
theorem le_ratio_mul {g x y : K} (hg : g < 1) (h : (1 - g) * x ≤ g * y) :
    x ≤ g / (1 - g) * y := by
  have h1 : 0 < 1 - g := by linarith
  rw [div_mul_eq_mul_div, le_div_iff₀ h1]
  linarith

/-- The excess of a computed distance over the true distance, after the factor `1 - g`. -/
theorem excess_le {g D a : K} (hg0 : 0 ≤ g) (hg1 : g < 1) (h1 : (1 - g) * a ≤ D)
    (h2 : D ≤ (1 + g) * a) : (1 - g) * (D - a) ≤ g * D := by
  have e1 : D - a ≤ g * a := by linarith
  have e2 : (1 - g) * (D - a) ≤ (1 - g) * (g * a) :=
    mul_le_mul_of_nonneg_left e1 (by linarith)
  have e3 : g * ((1 - g) * a) ≤ g * D := mul_le_mul_of_nonneg_left h1 hg0
  have e4 : (1 - g) * (g * a) = g * ((1 - g) * a) := by ring
  linarith

/-- The values `MinDistance(p)` and `MaxDistance(p)` are sound bounds on the true distance to
a contained point up to the rounding error. -/
theorem point_bounds_rounded (fl : K → K) (u : K) (dist : V → V → K)
    (m : EuclideanDistance K V) (g : K) (hfl : RoundsWithin fl u)
    (hd : ComputesWithin dist m g) (B : BallBound K V) (p q : V)
    (h : Contains dist B q = true) :
    MinDistance fl dist B p
      ≤ m.Evaluate p q + (g / (1 - g) + u) * (dist p B.center + B.radius) ∧
    m.Evaluate p q
      ≤ MaxDistance fl dist B p + (g / (1 - g) + u) * (dist p B.center + B.radius) := by
  obtain ⟨hr, hq⟩ := (computed_contains_iff dist B q).mp h
  have hu0 := hfl.1
  have hg0 := hd.1
  have hg1 := hd.2.1
  have n0 : ¬ B.radius < 0 := not_lt.mpr hr
  obtain ⟨d1, d2, d3⟩ := dist_bounds hd p B.center
  obtain ⟨c1, _, _⟩ := dist_bounds hd B.center q
  have hG : 0 ≤ g / (1 - g) := div_nonneg hg0 (by linarith)
  have hS : 0 ≤ dist p B.center + B.radius := by linarith
  have hdq := m.nonneg p q
  have hbq := m.nonneg B.center q
  have t1 := m.triangle p q B.center
  have t2 := m.triangle p B.center q
  have s1 := m.symm q B.center
  have hE : 0 ≤ (g / (1 - g) + u) * (dist p B.center + B.radius) :=
    mul_nonneg (by linarith) hS
  constructor
  · simp only [MinDistance, if_neg n0, ClampNonNegative]
    refine max_le (by linarith) ?_
    obtain ⟨_, f2, _⟩ := fl_bounds hfl (dist p B.center - B.radius)
    have habs : |dist p B.center - B.radius| ≤ dist p B.center + B.radius := by
      rw [abs_le]
      constructor <;> linarith
    have hua : u * |dist p B.center - B.radius| ≤ u * (dist p B.center + B.radius) :=
      mul_le_mul_of_nonneg_left habs hu0
    have hx : (1 - g) * (dist p B.center - B.radius - m.Evaluate p q)
        ≤ g * (dist p B.center + B.radius) := by
      have e1 := excess_le hg0 hg1 d1 d2
      have e2 : (1 - g) * (m.Evaluate p B.center - m.Evaluate B.center q - m.Evaluate p q)
          ≤ 0 := mul_nonpos_of_nonneg_of_nonpos (by linarith) (by linarith)
      have e3 : (1 - g) * (dist p B.center - B.radius - m.Evaluate p q)
          = (1 - g) * (dist p B.center - m.Evaluate p B.center)
            + (1 - g) * (m.Evaluate p B.center - m.Evaluate B.center q - m.Evaluate p q)
            + ((1 - g) * m.Evaluate B.center q - B.radius) + g * B.radius := by ring
      have e4 : g * (dist p B.center + B.radius) = g * dist p B.center + g * B.radius := by
        ring
      linarith
    have hx2 := le_ratio_mul hg1 hx
    have hsplit : (g / (1 - g) + u) * (dist p B.center + B.radius)
        = g / (1 - g) * (dist p B.center + B.radius)
          + u * (dist p B.center + B.radius) := by ring
    linarith
  · simp only [MaxDistance, if_neg n0]
    obtain ⟨f1, _, _⟩ := fl_bounds hfl (dist p B.center + B.radius)
    rw [abs_of_nonneg hS] at f1
    have hx : (1 - g) * (m.Evaluate p q - (dist p B.center + B.radius))
        ≤ g * (dist p B.center + B.radius) := by
      have e2 : (1 - g) * (m.Evaluate p q - m.Evaluate p B.center - m.Evaluate B.center q)
          ≤ 0 := mul_nonpos_of_nonneg_of_nonpos (by linarith) (by linarith)
      have e3 : (1 - g) * (m.Evaluate p q - (dist p B.center + B.radius))
          = (1 - g) * (m.Evaluate p q - m.Evaluate p B.center - m.Evaluate B.center q)
            + ((1 - g) * m.Evaluate p B.center - dist p B.center)
            + ((1 - g) * m.Evaluate B.center q - B.radius)
            + g * (dist p B.center + B.radius) := by ring
      linarith
    have hx2 := le_ratio_mul hg1 hx
    have hsplit : (g / (1 - g) + u) * (dist p B.center + B.radius)
        = g / (1 - g) * (dist p B.center + B.radius)
          + u * (dist p B.center + B.radius) := by ring
    linarith

end rounded
end bound
end mips

namespace mips
namespace bound
namespace rounded

open metric math fp

variable {K V : Type} [LinearOrderedField K] [AddCommGroup V] [Module K V]

/-- The values `MinDistance(other)` and `MaxDistance(other)` are sound bounds on the true
distance between contained points up to the rounding error. -/
theorem bound_bounds_rounded (fl : K → K) (u : K) (dist : V → V → K)
    (m : EuclideanDistance K V) (g : K) (hfl : RoundsWithin fl u)
    (hd : ComputesWithin dist m g) (B1 B2 : BallBound K V) (q1 q2 : V)
    (h1 : Contains dist B1 q1 = true) (h2 : Contains dist B2 q2 = true) :
    MinDistanceBound fl dist B1 B2
      ≤ m.Evaluate q1 q2 + (g / (1 - g) + 2 * u + u ^ 2)
          * (dist B1.center B2.center + B1.radius + B2.radius) ∧
    m.Evaluate q1 q2
      ≤ MaxDistanceBound fl dist B1 B2 + (g / (1 - g) + 2 * u + u ^ 2)
          * (dist B2.center B1.center + B1.radius + B2.radius) := by
  obtain ⟨hr1, hq1⟩ := (computed_contains_iff dist B1 q1).mp h1
  obtain ⟨hr2, hq2⟩ := (computed_contains_iff dist B2 q2).mp h2
  have hu0 := hfl.1
  have hu1 := hfl.2.1
  have hg0 := hd.1
  have hg1 := hd.2.1
  have n0 : ¬ B1.radius < 0 := not_lt.mpr hr1
  obtain ⟨b1, _, _⟩ := dist_bounds hd B1.center q1
  obtain ⟨b2, _, _⟩ := dist_bounds hd B2.center q2
  have hG : 0 ≤ g / (1 - g) := div_nonneg hg0 (by linarith)
  have hdq := m.nonneg q1 q2
  have huu : 0 ≤ u ^ 2 := sq_nonneg u
  constructor
  · obtain ⟨d1, d2, d3⟩ := dist_bounds hd B1.center B2.center
    have hS : 0 ≤ dist B1.center B2.center + B1.radius + B2.radius := by linarith
    have hE : 0 ≤ (g / (1 - g) + 2 * u + u ^ 2)
        * (dist B1.center B2.center + B1.radius + B2.radius) :=
      mul_nonneg (by linarith) hS
    simp only [MinDistanceBound, if_neg n0, ClampNonNegative]
    refine max_le (by linarith) ?_
    obtain ⟨_, x1, ax1⟩ := fl_bounds hfl (dist B1.center B2.center - B1.radius)
    obtain ⟨_, x2, _⟩ :=
      fl_bounds hfl (fl (dist B1.center B2.center - B1.radius) - B2.radius)
    have hA : |dist B1.center B2.center - B1.radius| ≤ dist B1.center B2.center + B1.radius := by
      rw [abs_le]
      constructor <;> linarith
    have hA0 := abs_nonneg (dist B1.center B2.center - B1.radius)
    have hB : |fl (dist B1.center B2.center - B1.radius) - B2.radius|
        ≤ (1 + u) * (dist B1.center B2.center + B1.radius) + B2.radius := by
      have ha := abs_sub (fl (dist B1.center B2.center - B1.radius)) B2.radius
      rw [abs_of_nonneg hr2] at ha
      have hb : (1 + u) * |dist B1.center B2.center - B1.radius|
          ≤ (1 + u) * (dist B1.center B2.center + B1.radius) :=
        mul_le_mul_of_nonneg_left hA (by linarith)
      linarith
    have p1 : u * |dist B1.center B2.center - B1.radius|
        ≤ u * (dist B1.center B2.center + B1.radius) := mul_le_mul_of_nonneg_left hA hu0
    have p2 : u * |fl (dist B1.center B2.center - B1.radius) - B2.radius|
        ≤ u * ((1 + u) * (dist B1.center B2.center + B1.radius) + B2.radius) :=
      mul_le_mul_of_nonneg_left hB hu0
    have p3 : 0 ≤ (u + u ^ 2) * B2.radius := mul_nonneg (by linarith) hr2
    have hx : (1 - g) * (dist B1.center B2.center - B1.radius - B2.radius - m.Evaluate q1 q2)
        ≤ g * (dist B1.center B2.center + B1.radius + B2.radius) := by
      have e1 := excess_le hg0 hg1 d1 d2
      have t1 := m.triangle B1.center q1 B2.center
      have t2 := m.triangle q1 q2 B2.center
      have s2 := m.symm q2 B2.center
      have e2 : (1 - g) * (m.Evaluate B1.center B2.center - m.Evaluate B1.center q1
          - m.Evaluate B2.center q2 - m.Evaluate q1 q2) ≤ 0 :=
        mul_nonpos_of_nonneg_of_nonpos (by linarith) (by linarith)
      have e3 : (1 - g)
            * (dist B1.center B2.center - B1.radius - B2.radius - m.Evaluate q1 q2)
          = (1 - g) * (dist B1.center B2.center - m.Evaluate B1.center B2.center)
            + (1 - g) * (m.Evaluate B1.center B2.center - m.Evaluate B1.center q1
                - m.Evaluate B2.center q2 - m.Evaluate q1 q2)
            + ((1 - g) * m.Evaluate B1.center q1 - B1.radius)
            + ((1 - g) * m.Evaluate B2.center q2 - B2.radius)
            + g * B1.radius + g * B2.radius := by ring
      have e4 : g * (dist B1.center B2.center + B1.radius + B2.radius)
          = g * dist B1.center B2.center + g * B1.radius + g * B2.radius := by ring
      linarith
    have hx2 := le_ratio_mul hg1 hx
    have hsplit : (g / (1 - g) + 2 * u + u ^ 2)
          * (dist B1.center B2.center + B1.radius + B2.radius)
        = g / (1 - g) * (dist B1.center B2.center + B1.radius + B2.radius)
          + u * (dist B1.center B2.center + B1.radius)
          + u * ((1 + u) * (dist B1.center B2.center + B1.radius) + B2.radius)
          + (u + u ^ 2) * B2.radius := by ring
    linarith
  · obtain ⟨d1, d2, d3⟩ := dist_bounds hd B2.center B1.center
    have hS1 : 0 ≤ dist B2.center B1.center + B1.radius := by linarith
    have hS : 0 ≤ dist B2.center B1.center + B1.radius + B2.radius := by linarith
    simp only [MaxDistanceBound, if_neg n0]
    obtain ⟨y1, _, _⟩ := fl_bounds hfl (dist B2.center B1.center + B1.radius)
    rw [abs_of_nonneg hS1] at y1
    have hy1 : (1 - u) * (dist B2.center B1.center + B1.radius)
        ≤ fl (dist B2.center B1.center + B1.radius) := by linarith
    have hy1n : 0 ≤ fl (dist B2.center B1.center + B1.radius) :=
      le_trans (mul_nonneg (by linarith) hS1) hy1
    obtain ⟨y2, _, _⟩ := fl_bounds hfl (fl (dist B2.center B1.center + B1.radius) + B2.radius)
    rw [abs_of_nonneg (by linarith)] at y2
    have hy2 : (1 - u) * ((1 - u) * (dist B2.center B1.center + B1.radius) + B2.radius)
        ≤ (1 - u) * (fl (dist B2.center B1.center + B1.radius) + B2.radius) :=
      mul_le_mul_of_nonneg_left (by linarith) (by linarith)
    have p1 : 0 ≤ u ^ 2 * (dist B2.center B1.center + B1.radius) := mul_nonneg huu hS1
    have p3 : 0 ≤ (u + u ^ 2) * B2.radius := mul_nonneg (by linarith) hr2
    have hx : (1 - g)
          * (m.Evaluate q1 q2 - (dist B2.center B1.center + B1.radius + B2.radius))
        ≤ g * (dist B2.center B1.center + B1.radius + B2.radius) := by
      have t1 := m.triangle q1 B1.center q2
      have t2 := m.triangle B1.center B2.center q2
      have s1 := m.symm q1 B1.center
      have s2 := m.symm B2.center B1.center
      have e2 : (1 - g) * (m.Evaluate q1 q2 - m.Evaluate B1.center q1
          - m.Evaluate B2.center B1.center - m.Evaluate B2.center q2) ≤ 0 :=
        mul_nonpos_of_nonneg_of_nonpos (by linarith) (by linarith)
      have e3 : (1 - g)
            * (m.Evaluate q1 q2 - (dist B2.center B1.center + B1.radius + B2.radius))
          = (1 - g) * (m.Evaluate q1 q2 - m.Evaluate B1.center q1
                - m.Evaluate B2.center B1.center - m.Evaluate B2.center q2)
            + ((1 - g) * m.Evaluate B1.center q1 - B1.radius)
            + ((1 - g) * m.Evaluate B2.center B1.center - dist B2.center B1.center)
            + ((1 - g) * m.Evaluate B2.center q2 - B2.radius)
            + g * (dist B2.center B1.center + B1.radius + B2.radius) := by ring
      linarith
    have hx2 := le_ratio_mul hg1 hx
    have hsplit : (g / (1 - g) + 2 * u + u ^ 2)
          * (dist B2.center B1.center + B1.radius + B2.radius)
        = g / (1 - g) * (dist B2.center B1.center + B1.radius + B2.radius)
          + ((dist B2.center B1.center + B1.radius + B2.radius)
              - (1 - u) * ((1 - u) * (dist B2.center B1.center + B1.radius) + B2.radius))
          + 2 * (u ^ 2 * (dist B2.center B1.center + B1.radius))
          + (u + u ^ 2) * B2.radius := by ring
    have hy3 : (1 - u) * (fl (dist B2.center B1.center + B1.radius) + B2.radius)
        = fl (dist B2.center B1.center + B1.radius) + B2.radius
          - u * (fl (dist B2.center B1.center + B1.radius) + B2.radius) := by ring
    linarith

end rounded
end bound
end mips

namespace mips
namespace bound
namespace rounded

open metric math fp

variable {K V : Type} [LinearOrderedField K] [AddCommGroup V] [Module K V]

/-- In `double` arithmetic the bound with center `1.0` and radius `0.5` contains `0.5`. -/
theorem contains_half : Contains line64 { radius := 1 / 2, center := 1 } (1 / 2) = true := by
  simp only [Contains]
  rw [if_neg (by norm_num), line64_of_le (by norm_num)]
  norm_num [binary64_half]

/-- In `double` arithmetic the bound with center `0.3` and radius `0.1` contains `0.2`: the
computed distance is `0.09999999999999998`. -/
theorem contains_fifth :
    Contains line64 { radius := tenth, center := threeTenths } fifth = true := by
  simp only [Contains]
  rw [if_neg (by norm_num [tenth]), line64_of_le (by norm_num [fifth, threeTenths]),
    binary64_threeTenths_sub_fifth]
  norm_num [tenth]

/-- In `double` arithmetic `MinDistance(0.2)` of the bound with center `1.0` and radius
`0.5` is `0.30000000000000004`. -/
theorem minDistance_fifth :
    MinDistance binary64 line64 { radius := 1 / 2, center := 1 } fifth
      = 1351079888211149 / 2 ^ 52 := by
  simp only [MinDistance, ClampNonNegative]
  rw [if_neg (by norm_num), line64_of_ge (by norm_num [fifth]), binary64_one_sub_fifth,
    binary64_eight_sub_half]
  norm_num

/-- In `double` arithmetic `MaxDistance(1.0)` of the bound with center `0.3` and radius
`0.1` is `0.7999999999999999`. -/
theorem maxDistance_one :
    MaxDistance binary64 line64 { radius := tenth, center := threeTenths } 1
      = 7205759403792793 / 2 ^ 53 := by
  simp only [MaxDistance]
  rw [if_neg (by norm_num [tenth]), line64_of_le (by norm_num [threeTenths]),
    binary64_one_sub_threeTenths, binary64_seven_add_tenth]

/-- The computed distance between `1.0` and `0.2` is the `double` `0.8`. -/
theorem line64_one_fifth : line64 1 fifth = 3602879701896397 / 2 ^ 52 := by
  rw [line64_of_le (by norm_num [fifth]), binary64_one_sub_fifth]

/-- With every rounding the identity and the true distance, the methods are those of the
exact model. -/
theorem exact_model (m : EuclideanDistance K V) (b : BallBound K V) (p : V) :
    Contains m.Evaluate b p = b.Contains m p ∧
    MinDistance id m.Evaluate b p = b.MinDistance m p ∧
    MaxDistance id m.Evaluate b p = b.MaxDistance m p ∧
    growStep id id m.Evaluate b p = b.growStep m p :=
  ⟨rfl, rfl, rfl, rfl⟩

end rounded
end bound
end mips

namespace mips
namespace bound
namespace rounded

open metric math fp

variable {K V : Type} [LinearOrderedField K] [AddCommGroup V] [Module K V]

/-- The true distance from the rounded new center of a growth step to the point that
triggered it is at most `(1 + u)^3 * dist(c, p) / 2 + u * dist(c, 0)`. -/
theorem grown_center_distance (flV : V → V) (m : EuclideanDistance K V) (u : K)
    (hu0 : 0 ≤ u) (hV : RoundsVectorsWithin flV m u) (c p : V) :
    m.Evaluate (flV (c + flV ((1 / 2 : K) • flV (p - c)))) p
      ≤ (1 + u) ^ 3 * (m.Evaluate c p / 2) + u * m.Evaluate c 0 := by
  have hD0 := m.nonneg c p
  have hhalf : |(1 / 2 : K)| = 1 / 2 := abs_of_pos (by norm_num)
  -- the exact difference has the length of the distance
  have f1 : m.Evaluate (p - c) 0 = m.Evaluate c p := by
    have := m.translate (p - c) 0 c
    rw [sub_add_cancel, zero_add] at this
    rw [← this, m.symm]
  have f2 : m.Evaluate (flV (p - c)) (p - c) ≤ u * m.Evaluate c p := by
    have := hV (p - c)
    rwa [f1] at this
  have f3 : m.Evaluate (flV (p - c)) 0 ≤ (1 + u) * m.Evaluate c p := by
    have := m.triangle (flV (p - c)) (p - c) 0
    rw [f1] at this
    linarith
  have f4 : m.Evaluate ((1 / 2 : K) • flV (p - c)) 0
      = m.Evaluate (flV (p - c)) 0 / 2 := by
    have := m.scale (1 / 2) (flV (p - c)) 0
    rw [smul_zero, hhalf] at this
    rw [this]
    ring
  have f5 : m.Evaluate (flV ((1 / 2 : K) • flV (p - c))) ((1 / 2 : K) • flV (p - c))
      ≤ u * (m.Evaluate (flV (p - c)) 0 / 2) := by
    have := hV ((1 / 2 : K) • flV (p - c))
    rwa [f4] at this
  have f5b : u * (m.Evaluate (flV (p - c)) 0 / 2) ≤ u * ((1 + u) * m.Evaluate c p / 2) := by
    apply mul_le_mul_of_nonneg_left _ hu0
    linarith
  have f6 : m.Evaluate (flV ((1 / 2 : K) • flV (p - c))) 0
      ≤ (1 + u) * ((1 + u) * m.Evaluate c p / 2) := by
    have := m.triangle (flV ((1 / 2 : K) • flV (p - c))) ((1 / 2 : K) • flV (p - c)) 0
    rw [f4] at this
    have e : (1 + u) * ((1 + u) * m.Evaluate c p / 2)
        = (1 + u) * m.Evaluate c p / 2 + u * ((1 + u) * m.Evaluate c p / 2) := by ring
    linarith
  have f7 : m.Evaluate (c + flV ((1 / 2 : K) • flV (p - c))) 0
      ≤ (1 + u) * ((1 + u) * m.Evaluate c p / 2) + m.Evaluate c 0 := by
    have h1 := m.triangle (c + flV ((1 / 2 : K) • flV (p - c))) c 0
    have h2 := m.translate (flV ((1 / 2 : K) • flV (p - c))) 0 c
    rw [zero_add, add_comm] at h2
    linarith
  have f8 : m.Evaluate (flV (c + flV ((1 / 2 : K) • flV (p - c))))
      (c + flV ((1 / 2 : K) • flV (p - c)))
      ≤ u * ((1 + u) * ((1 + u) * m.Evaluate c p / 2) + m.Evaluate c 0) :=
    le_trans (hV _) (mul_le_mul_of_nonneg_left f7 hu0)
  have f9 : m.Evaluate (c + flV ((1 / 2 : K) • flV (p - c))) p
      = m.Evaluate (flV ((1 / 2 : K) • flV (p - c))) (p - c) := by
    have := m.translate (flV ((1 / 2 : K) • flV (p - c))) (p - c) c
    rw [sub_add_cancel, add_comm] at this
    exact this
  have f10 : m.Evaluate ((1 / 2 : K) • flV (p - c)) ((1 / 2 : K) • (p - c))
      ≤ u * m.Evaluate c p / 2 := by
    rw [m.scale, hhalf]
    linarith
  have f11 : m.Evaluate ((1 / 2 : K) • (p - c)) (p - c) = m.Evaluate c p / 2 := by
    have h1 := m.translate 0 ((1 / 2 : K) • (p - c)) ((1 / 2 : K) • (p - c))
    have e : (1 / 2 : K) • (p - c) + (1 / 2 : K) • (p - c) = p - c := by module
    rw [zero_add, e] at h1
    have h2 := m.scale (1 / 2) 0 (p - c)
    rw [smul_zero, hhalf, m.symm 0 (p - c), f1] at h2
    rw [h1, h2]
    ring
  have f12 : m.Evaluate (flV ((1 / 2 : K) • flV (p - c))) (p - c)
      ≤ u * ((1 + u) * m.Evaluate c p / 2) + u * m.Evaluate c p / 2 + m.Evaluate c p / 2 := by
    have h1 := m.triangle (flV ((1 / 2 : K) • flV (p - c))) ((1 / 2 : K) • flV (p - c))
      (p - c)
    have h2 := m.triangle ((1 / 2 : K) • flV (p - c)) ((1 / 2 : K) • (p - c)) (p - c)
    linarith
  have h := m.triangle (flV (c + flV ((1 / 2 : K) • flV (p - c))))
    (c + flV ((1 / 2 : K) • flV (p - c))) p
  rw [f9] at h
  have e : (1 + u) ^ 3 * (m.Evaluate c p / 2) + u * m.Evaluate c 0
      = u * ((1 + u) * ((1 + u) * m.Evaluate c p / 2) + m.Evaluate c 0)
        + (u * ((1 + u) * m.Evaluate c p / 2) + u * m.Evaluate c p / 2
          + m.Evaluate c p / 2) := by ring
  linarith

/-- The rounded new radius of a growth step is at least
`(1 - u)^3 * (1 - g) * dist(c, p) / 2`, and at least the old radius when the rounding is
monotone and the old radius is a `double`. -/
theorem grown_radius_bounds (fl : K → K) (u : K) (dist : V → V → K)
    (m : EuclideanDistance K V) (g : K) (hfl : RoundsWithin fl u)
    (hd : ComputesWithin dist m g) (b : BallBound K V) (p : V) (hr : 0 ≤ b.radius)
    (hout : b.radius < dist b.center p) :
    (1 - u) * (dist b.center p - b.radius) ≤ fl (dist b.center p - b.radius) ∧
    (1 - u) ^ 3 * ((1 - g) * m.Evaluate b.center p / 2)
      ≤ fl (b.radius + fl ((1 / 2) * fl (dist b.center p - b.radius))) ∧
    (Monotone fl → fl b.radius = b.radius →
      b.radius ≤ fl (b.radius + fl ((1 / 2) * fl (dist b.center p - b.radius)))) := by
  have hu0 := hfl.1
  have hu1 := hfl.2.1
  have hx : 0 < dist b.center p - b.radius := by linarith
  have h1u : 0 ≤ 1 - u := by linarith
  have a1 : (1 - u) * (dist b.center p - b.radius) ≤ fl (dist b.center p - b.radius) := by
    have := (fl_bounds hfl (dist b.center p - b.radius)).1
    rw [abs_of_pos hx] at this
    linarith
  have d0 : 0 ≤ fl (dist b.center p - b.radius) := le_trans (mul_nonneg h1u hx.le) a1
  have y0 : 0 ≤ (1 / 2) * fl (dist b.center p - b.radius) := by linarith
  have a2 : (1 - u) * ((1 / 2) * fl (dist b.center p - b.radius))
      ≤ fl ((1 / 2) * fl (dist b.center p - b.radius)) := by
    have := (fl_bounds hfl ((1 / 2) * fl (dist b.center p - b.radius))).1
    rw [abs_of_nonneg y0] at this
    linarith
  have t0 : 0 ≤ fl ((1 / 2) * fl (dist b.center p - b.radius)) :=
    le_trans (mul_nonneg h1u y0) a2
  have s0 : 0 ≤ b.radius + fl ((1 / 2) * fl (dist b.center p - b.radius)) := by linarith
  have a3 : (1 - u) * (b.radius + fl ((1 / 2) * fl (dist b.center p - b.radius)))
      ≤ fl (b.radius + fl ((1 / 2) * fl (dist b.center p - b.radius))) := by
    have := (fl_bounds hfl (b.radius + fl ((1 / 2) * fl (dist b.center p - b.radius)))).1
    rw [abs_of_nonneg s0] at this
    linarith
  refine ⟨a1, ?_, ?_⟩
  · have hdb := (dist_bounds hd b.center p).1
    -- chain the three roundings
    have c1 : (1 - u) * ((1 / 2) * ((1 - u) * (dist b.center p - b.radius)))
        ≤ (1 - u) * ((1 / 2) * fl (dist b.center p - b.radius)) :=
      mul_le_mul_of_nonneg_left (by linarith) h1u
    have c2 : (1 - u) * (b.radius + (1 - u) * ((1 / 2) * ((1 - u)
          * (dist b.center p - b.radius))))
        ≤ (1 - u) * (b.radius + fl ((1 / 2) * fl (dist b.center p - b.radius))) :=
      mul_le_mul_of_nonneg_left (by linarith) h1u
    have h3 : 0 ≤ (1 - u) ^ 3 := pow_nonneg h1u 3
    have c3 : (1 - u) ^ 3 * (((1 - g) * m.Evaluate b.center p - b.radius) / 2)
        ≤ (1 - u) ^ 3 * ((dist b.center p - b.radius) / 2) :=
      mul_le_mul_of_nonneg_left (by linarith) h3
    have hsq : (1 - u) ^ 2 ≤ 1 := by
      have : (1 - u) ^ 2 ≤ 1 ^ 2 := pow_le_pow_left₀ h1u (by linarith) 2
      simpa using this
    have c4 : 0 ≤ (1 - u) * b.radius * (1 - (1 - u) ^ 2 / 2) :=
      mul_nonneg (mul_nonneg h1u hr) (by linarith)
    have e1 : (1 - u) * (b.radius + (1 - u) * ((1 / 2) * ((1 - u)
          * (dist b.center p - b.radius))))
        = (1 - u) * b.radius + (1 - u) ^ 3 * ((dist b.center p - b.radius) / 2) := by ring
    have e2 : (1 - u) * b.radius
          + (1 - u) ^ 3 * (((1 - g) * m.Evaluate b.center p - b.radius) / 2)
        = (1 - u) ^ 3 * ((1 - g) * m.Evaluate b.center p / 2)
          + (1 - u) * b.radius * (1 - (1 - u) ^ 2 / 2) := by ring
    linarith
  · intro hmono hrep
    have := hmono (by linarith : b.radius ≤ b.radius
      + fl ((1 / 2) * fl (dist b.center p - b.radius)))
    rwa [hrep] at this

end rounded
end bound
end mips
namespace mips
namespace fp

open metric

/-- Rounding every coordinate of a point of real `n`-dimensional space with relative error
`u` is a rounding of vectors with error `u` under the Euclidean distance. -/
theorem coordinatewise_roundsVectorsWithin (n : ℕ) (fl : ℝ → ℝ) (u : ℝ)
    (hfl : RoundsWithin fl u) (m : EuclideanDistance ℝ (EuclideanSpace ℝ (Fin n)))
    (hm : ∀ a b, m.Evaluate a b = dist a b) :
    RoundsVectorsWithin
      (fun v => (WithLp.equiv 2 (Fin n → ℝ)).symm (fun i => fl (v i))) m u := by
  intro v
  have hu0 := hfl.1
  rw [hm, hm, EuclideanSpace.dist_eq, EuclideanSpace.dist_eq]
  have h1 : ∑ i, dist (((WithLp.equiv 2 (Fin n → ℝ)).symm (fun i => fl (v i))) i) (v i) ^ 2
      ≤ u ^ 2 * ∑ i, dist (v i) ((0 : EuclideanSpace ℝ (Fin n)) i) ^ 2 := by
    rw [Finset.mul_sum]
    apply Finset.sum_le_sum
    intro i _
    have h := hfl.2.2 (v i)
    simp only [WithLp.equiv_symm_pi_apply, PiLp.zero_apply, Real.dist_eq, sub_zero, sq_abs]
    have h2 : |fl (v i) - v i| ^ 2 ≤ (u * |v i|) ^ 2 :=
      pow_le_pow_left₀ (abs_nonneg _) h 2
    rw [sq_abs, mul_pow, sq_abs] at h2
    exact h2
  calc √(∑ i, dist (((WithLp.equiv 2 (Fin n → ℝ)).symm (fun i => fl (v i))) i) (v i) ^ 2)
      ≤ √(u ^ 2 * ∑ i, dist (v i) ((0 : EuclideanSpace ℝ (Fin n)) i) ^ 2) :=
        Real.sqrt_le_sqrt h1
    _ = u * √(∑ i, dist (v i) ((0 : EuclideanSpace ℝ (Fin n)) i) ^ 2) := by
        rw [Real.sqrt_mul (sq_nonneg u), Real.sqrt_sq hu0]

end fp
end mips
namespace mips
namespace bound
namespace rounded

open metric math fp

variable {K V : Type} [LinearOrderedField K] [AddCommGroup V] [Module K V]

/-- Counterexample for C1 as stated, in `double` arithmetic on the line.  The bound with
center `1.0` and radius `0.5` contains `q = 0.5`, yet `MinDistance(0.2)` is
`0.30000000000000004`, which is above the distance `0.3 - 2^(-54)` from `0.2` to `q`,
computed and true alike: `1 - 0.2` is rounded up to `0.8`.  And the bound with center `0.3`
and radius `0.1` contains `q = 0.2`, yet `MaxDistance(1.0)` is `0.7999999999999999`, which is
below the distance from `1.0` to `q`, computed (`0.8`) and true alike. -/
theorem bounds_unsound_in_doubles :
    (Contains line64 { radius := 1 / 2, center := 1 } (1 / 2) = true ∧
      MinDistance binary64 line64 { radius := 1 / 2, center := 1 } fifth
        = 1351079888211149 / 2 ^ 52 ∧
      line64 fifth (1 / 2) = 5404319552844595 / 2 ^ 54 ∧
      line.Evaluate fifth (1 / 2) = 5404319552844595 / 2 ^ 54 ∧
      ¬ (MinDistance binary64 line64 { radius := 1 / 2, center := 1 } fifth
          ≤ line64 fifth (1 / 2)) ∧
      ¬ (MinDistance binary64 line64 { radius := 1 / 2, center := 1 } fifth
          ≤ line.Evaluate fifth (1 / 2))) ∧
    (Contains line64 { radius := tenth, center := threeTenths } fifth = true ∧
      MaxDistance binary64 line64 { radius := tenth, center := threeTenths } 1
        = 7205759403792793 / 2 ^ 53 ∧
      line64 1 fifth = 3602879701896397 / 2 ^ 52 ∧
      line.Evaluate 1 fifth = 14411518807585587 / 2 ^ 54 ∧
      ¬ (line64 1 fifth
          ≤ MaxDistance binary64 line64 { radius := tenth, center := threeTenths } 1) ∧
      ¬ (line.Evaluate 1 fifth
          ≤ MaxDistance binary64 line64 { radius := tenth, center := threeTenths } 1)) := by
  have d1 : line64 fifth (1 / 2) = 5404319552844595 / 2 ^ 54 := by
    rw [line64_of_ge (by norm_num [fifth]), binary64_half_sub_fifth]
  have t1 : line.Evaluate fifth (1 / 2) = 5404319552844595 / 2 ^ 54 := by
    norm_num [line, fifth, abs_of_neg]
  have t2 : line.Evaluate 1 fifth = 14411518807585587 / 2 ^ 54 := by
    norm_num [line, fifth, abs_of_pos]
  refine ⟨⟨contains_half, minDistance_fifth, d1, t1, ?_, ?_⟩,
    contains_fifth, maxDistance_one, line64_one_fifth, t2, ?_, ?_⟩
  · rw [minDistance_fifth, d1]
    norm_num
  · rw [minDistance_fifth, t1]
    norm_num
  · rw [maxDistance_one, line64_one_fifth]
    norm_num
  · rw [maxDistance_one, t2]
    norm_num

/-- Claim C1, amended.  With every operation rounded with unit roundoff `u` and a computed
distance of relative error `g` against the true distance: for a bound `B1` that contains
`q1` and any point `p`, `MinDistance(p)` and `MaxDistance(p)` enclose the true distance
from `p` to `q1` up to `(g / (1 - g) + u) * (dist(p, center) + radius)`; and when a second
bound `B2` contains `q2`, `B1.MinDistance(B2)` and `B1.MaxDistance(B2)` enclose the true
distance from `q1` to `q2` up to
`(g / (1 - g) + 2 u + u^2) * (dist(centers) + radius1 + radius2)`.  In exact arithmetic
(`g = u = 0`) both allowances are `0`. -/
theorem bounds_sound_up_to_rounding (fl : K → K) (u : K) (dist : V → V → K)
    (m : EuclideanDistance K V) (g : K) (hfl : RoundsWithin fl u)
    (hd : ComputesWithin dist m g) (B1 B2 : BallBound K V) (p q1 q2 : V)
    (h1 : Contains dist B1 q1 = true) (h2 : Contains dist B2 q2 = true) :
    (MinDistance fl dist B1 p
        ≤ m.Evaluate p q1 + (g / (1 - g) + u) * (dist p B1.center + B1.radius) ∧
      m.Evaluate p q1
        ≤ MaxDistance fl dist B1 p + (g / (1 - g) + u) * (dist p B1.center + B1.radius)) ∧
    (MinDistanceBound fl dist B1 B2
        ≤ m.Evaluate q1 q2 + (g / (1 - g) + 2 * u + u ^ 2)
            * (dist B1.center B2.center + B1.radius + B2.radius) ∧
      m.Evaluate q1 q2
        ≤ MaxDistanceBound fl dist B1 B2 + (g / (1 - g) + 2 * u + u ^ 2)
            * (dist B2.center B1.center + B1.radius + B2.radius)) :=
  ⟨point_bounds_rounded fl u dist m g hfl hd B1 p q1 h1,
    bound_bounds_rounded fl u dist m g hfl hd B1 B2 q1 q2 h1 h2⟩

/-- Witness for C1: `double` arithmetic on the line, the bound with center `1.0` and radius
`0.5`, which contains `0.5`, the bound with center `0.3` and radius `0.1`, which contains
`0.2`, and the point `0.2`. -/
theorem bounds_sound_up_to_rounding_witness :
    RoundsWithin binary64 ((2 : ℚ) ^ (-53 : ℤ)) ∧
    ComputesWithin line64 line ((2 : ℚ) ^ (-53 : ℤ)) ∧
    Contains line64 { radius := 1 / 2, center := 1 } (1 / 2) = true ∧
    Contains line64 { radius := tenth, center := threeTenths } fifth = true ∧
    MinDistance binary64 line64 { radius := 1 / 2, center := 1 } fifth
      ≤ line.Evaluate fifth (1 / 2)
        + ((2 : ℚ) ^ (-53 : ℤ) / (1 - (2 : ℚ) ^ (-53 : ℤ)) + (2 : ℚ) ^ (-53 : ℤ))
          * (line64 fifth 1 + 1 / 2) :=
  ⟨binary64_roundsWithin, line64_computesWithin, contains_half, contains_fifth,
    (bounds_sound_up_to_rounding binary64 _ line64 line _ binary64_roundsWithin
      line64_computesWithin { radius := 1 / 2, center := 1 }
      { radius := tenth, center := threeTenths } fifth (1 / 2) fifth
      contains_half contains_fifth).1.1⟩

/-- Counterexample for C24 as stated, in `double` arithmetic on the line.  For the bounds
with centers `0` and `1` and both radii `2^(-53)`, `MaxDistance(other)` adds the radii one
after the other, `(1 + 2^(-53)) + 2^(-53)`, and each sum is rounded back to `1`;
`RangeDistance(other)` adds the sum `2^(-52)` of the radii and returns the upper end
`1 + 2^(-52)`.  So `RangeDistance(other)` is not the pair of `MinDistance(other)` and
`MaxDistance(other)`. -/
theorem range_differs_from_min_max :
    MaxDistanceBound binary64 line64 { radius := 1 / 2 ^ 53, center := 0 }
      { radius := 1 / 2 ^ 53, center := 1 } = 1 ∧
    (RangeDistanceBound binary64 line64 { radius := 1 / 2 ^ 53, center := 0 }
      { radius := 1 / 2 ^ 53, center := 1 }).hi = 1 + 1 / 2 ^ 52 ∧
    RangeDistanceBound binary64 line64 { radius := 1 / 2 ^ 53, center := 0 }
        { radius := 1 / 2 ^ 53, center := 1 }
      ≠ { lo := MinDistanceBound binary64 line64 { radius := 1 / 2 ^ 53, center := 0 }
            { radius := 1 / 2 ^ 53, center := 1 },
          hi := MaxDistanceBound binary64 line64 { radius := 1 / 2 ^ 53, center := 0 }
            { radius := 1 / 2 ^ 53, center := 1 } } := by
  have l10 : line64 1 0 = 1 := by
    rw [line64_of_le (by norm_num)]
    norm_num [binary64_one]
  have l01 : line64 0 1 = 1 := by
    rw [line64_symm, l10]
  have e1 : MaxDistanceBound binary64 line64 { radius := 1 / 2 ^ 53, center := 0 }
      { radius := 1 / 2 ^ 53, center := 1 } = 1 := by
    simp only [MaxDistanceBound]
    rw [if_neg (by norm_num), l10, binary64_one_add_half_ulp, binary64_one_add_half_ulp]
  have e2 : (RangeDistanceBound binary64 line64 { radius := 1 / 2 ^ 53, center := 0 }
      { radius := 1 / 2 ^ 53, center := 1 }).hi = 1 + 1 / 2 ^ 52 := by
    simp only [RangeDistanceBound]
    rw [if_neg (by norm_num)]
    simp only
    rw [l01]
    have h : (1 : ℚ) / 2 ^ 53 + 1 / 2 ^ 53 = 1 / 2 ^ 52 := by norm_num
    rw [h, binary64_ulp_one, binary64_one_add_ulp]
    norm_num
  refine ⟨e1, e2, ?_⟩
  intro h
  have h2 := congrArg Range.hi h
  rw [e2] at h2
  simp only at h2
  rw [e1] at h2
  norm_num at h2

/-- Claim C24, amended.  With every operation rounded by `fl` and a computed distance that
does not depend on the order of its arguments, for a bound with radius `r >= 0` and center
`c`: `MinDistance(p)` is `max(0, fl(dist(c, p) - r))`, `MaxDistance(p)` is
`fl(dist(c, p) + r)`, `MinDistance(other)` is `max(0, fl(fl(dist(c, c') - r) - r'))`,
`MaxDistance(other)` is `fl(fl(dist(c, c') + r) + r')`, and `RangeDistance(other)` is the pair
of `max(0, fl(dist(c, c') - fl(r + r')))` and `fl(dist(c, c') + fl(r + r'))`.
`RangeDistance(p)` is the pair of `MinDistance(p)` and `MaxDistance(p)` whatever the rounding;
`RangeDistance(other)` is the pair of `MinDistance(other)` and `MaxDistance(other)` when
nothing is rounded.  For an empty bound (radius `< 0`) all of them are `DBL_MAX`. -/
theorem distance_formulas_rounded (fl : K → K) (dist : V → V → K) (b other : BallBound K V)
    (p : V) (hsym : ∀ x y, dist x y = dist y x) :
    (0 ≤ b.radius →
      MinDistance fl dist b p = max 0 (fl (dist b.center p - b.radius)) ∧
      MaxDistance fl dist b p = fl (dist b.center p + b.radius) ∧
      MinDistanceBound fl dist b other
        = max 0 (fl (fl (dist b.center other.center - b.radius) - other.radius)) ∧
      MaxDistanceBound fl dist b other
        = fl (fl (dist b.center other.center + b.radius) + other.radius) ∧
      RangeDistanceBound fl dist b other
        = { lo := max 0 (fl (dist b.center other.center - fl (b.radius + other.radius))),
            hi := fl (dist b.center other.center + fl (b.radius + other.radius)) }) ∧
    RangeDistance fl dist b p
      = { lo := MinDistance fl dist b p, hi := MaxDistance fl dist b p } ∧
    ((∀ x, fl x = x) →
      RangeDistanceBound fl dist b other
        = { lo := MinDistanceBound fl dist b other,
            hi := MaxDistanceBound fl dist b other }) ∧
    (b.radius < 0 →
      MinDistance fl dist b p = DBL_MAX ∧ MaxDistance fl dist b p = DBL_MAX ∧
      MinDistanceBound fl dist b other = DBL_MAX ∧
      MaxDistanceBound fl dist b other = DBL_MAX ∧
      RangeDistance fl dist b p = { lo := DBL_MAX, hi := DBL_MAX } ∧
      RangeDistanceBound fl dist b other = { lo := DBL_MAX, hi := DBL_MAX }) := by
  have hs := hsym p b.center
  have hs2 := hsym other.center b.center
  refine ⟨?_, ?_, ?_, ?_⟩
  · intro h0
    have n0 : ¬ b.radius < 0 := not_lt.mpr h0
    simp only [MinDistance, MaxDistance, MinDistanceBound, MaxDistanceBound,
      RangeDistanceBound, if_neg n0, ClampNonNegative, hs, hs2, and_self]
  · by_cases h0 : b.radius < 0
    · simp only [RangeDistance, MinDistance, MaxDistance, if_pos h0]
    · simp only [RangeDistance, MinDistance, MaxDistance, if_neg h0, hs]
  · intro hid
    by_cases h0 : b.radius < 0
    · simp only [RangeDistanceBound, MinDistanceBound, MaxDistanceBound, if_pos h0]
    · simp only [RangeDistanceBound, MinDistanceBound, MaxDistanceBound, if_neg h0, hs2, hid]
      have e1 : dist b.center other.center - (b.radius + other.radius)
          = dist b.center other.center - b.radius - other.radius := by ring
      have e2 : dist b.center other.center + (b.radius + other.radius)
          = dist b.center other.center + b.radius + other.radius := by ring
      rw [e1, e2]
  · intro h0
    simp only [MinDistance, MaxDistance, MinDistanceBound, MaxDistanceBound, RangeDistance,
      RangeDistanceBound, if_pos h0, and_self]

/-- Witness for C24: `double` arithmetic on the line and the bound with center `1.0` and
radius `0.5`. -/
theorem distance_formulas_rounded_witness :
    (∀ x y, line64 x y = line64 y x) ∧
    RangeDistance binary64 line64 { radius := 1 / 2, center := 1 } fifth
      = { lo := MinDistance binary64 line64 { radius := 1 / 2, center := 1 } fifth,
          hi := MaxDistance binary64 line64 { radius := 1 / 2, center := 1 } fifth } :=
  ⟨line64_symm,
    (distance_formulas_rounded binary64 line64 { radius := 1 / 2, center := 1 }
      { radius := 1 / 2, center := 1 } fifth line64_symm).2.1⟩

end rounded
end bound
end mips
namespace mips
namespace fp

/-- The `double` `0.45` is its own rounding. -/
theorem binary64_fortyFive :
    binary64 (8106479329266893 / 2 ^ 54) = 8106479329266893 / 2 ^ 54 := by
  have h : (8106479329266893 / 2 ^ 54 : ℚ) = 8106479329266893 / 2 ^ 53 / 2 := by norm_num
  rw [h, binary64_half_nine]
  norm_num

/-- The rounding `binary64` of numbers is a rounding of the points of the line. -/
theorem binary64_roundsVectorsWithin :
    RoundsVectorsWithin binary64 metric.line ((2 : ℚ) ^ (-53 : ℤ)) := by
  intro v
  have := binary64_error v
  simpa [metric.line] using this

end fp

namespace bound
namespace rounded

open metric math fp

variable {K V : Type} [LinearOrderedField K] [AddCommGroup V] [Module K V]

/-- The computed distance between `1.0` and `0.1` is the `double` `0.9`. -/
theorem line64_one_tenth : line64 1 tenth = 8106479329266893 / 2 ^ 53 := by
  rw [line64_of_le (by norm_num [tenth]), binary64_one_sub_tenth]

/-- In `double` arithmetic the growth step of the bound with center `1.0` and radius `0`
for the point `0.1` gives the center `0.55` and the radius `0.45`. -/
theorem growStep_tenth :
    growStep binary64 binary64 line64 { radius := 0, center := 1 } tenth
      = { radius := 8106479329266893 / 2 ^ 54, center := 2476979795053773 / 2 ^ 52 } := by
  have hd : binary64 (line64 1 tenth - 0) = 8106479329266893 / 2 ^ 53 := by
    rw [sub_zero, line64_one_tenth, binary64_nine]
  have hh : binary64 ((1 / 2) * (8106479329266893 / 2 ^ 53)) = 8106479329266893 / 2 ^ 54 := by
    have h : ((1 / 2) * (8106479329266893 / 2 ^ 53) : ℚ) = 8106479329266893 / 2 ^ 53 / 2 := by
      ring
    rw [h, binary64_half_nine]
  have hdiff : binary64 (tenth - 1) = -(8106479329266893 / 2 ^ 53) := by
    have h : tenth - 1 = -(1 - tenth) := by ring
    rw [h, binary64_neg, binary64_one_sub_tenth]
  have hhalf : binary64 ((1 / 2 : ℚ) • (-(8106479329266893 / 2 ^ 53) : ℚ))
      = -(8106479329266893 / 2 ^ 54) := by
    have h : ((1 / 2 : ℚ) • (-(8106479329266893 / 2 ^ 53) : ℚ))
        = -(8106479329266893 / 2 ^ 53 / 2) := by
      rw [smul_eq_mul]
      ring
    rw [h, binary64_neg, binary64_half_nine]
  have hc : binary64 (1 + -(8106479329266893 / 2 ^ 54)) = 2476979795053773 / 2 ^ 52 := by
    rw [← sub_eq_add_neg, binary64_one_sub_half_nine]
  simp only [growStep]
  rw [hd, if_pos (by norm_num), hh, zero_add, binary64_fortyFive, hdiff, hhalf, hc]

/-- Counterexample for C26 as stated, in `double` arithmetic on the line.  The bound with
center `1.0` and radius `0` and the point `0.1` outside it: the growth step gives the center
`0.55` and the radius `0.45`, the distance from the new center to the point is
`0.45000000000000007` as computed and more than the radius also without rounding, and
`Contains` answers `false`.  And the bound with center `0` and radius `1` and the point
`1 + 2^(-52)` outside it: the step is taken, but half the excess, `2^(-53)`, is lost when
it is added to the radius, which stays `1`. -/
theorem growth_step_misses_point_in_doubles :
    ((0 : ℚ) < line64 1 tenth ∧
      growStep binary64 binary64 line64 { radius := 0, center := 1 } tenth
        = { radius := 8106479329266893 / 2 ^ 54, center := 2476979795053773 / 2 ^ 52 } ∧
      line64 (2476979795053773 / 2 ^ 52) tenth = 4053239664633447 / 2 ^ 53 ∧
      line.Evaluate (2476979795053773 / 2 ^ 52) tenth = 16212958658533787 / 2 ^ 55 ∧
      Contains line64
        (growStep binary64 binary64 line64 { radius := 0, center := 1 } tenth) tenth
        = false) ∧
    ((1 : ℚ) < line64 0 (1 + 1 / 2 ^ 52) ∧
      (0 : ℚ) < binary64 (line64 0 (1 + 1 / 2 ^ 52) - 1) ∧
      (growStep binary64 binary64 line64 { radius := 1, center := 0 }
        (1 + 1 / 2 ^ 52)).radius = 1 ∧
      ¬ ((1 : ℚ) < (growStep binary64 binary64 line64 { radius := 1, center := 0 }
        (1 + 1 / 2 ^ 52)).radius)) := by
  have l1 : line64 (2476979795053773 / 2 ^ 52) tenth = 4053239664633447 / 2 ^ 53 := by
    rw [line64_of_le (by norm_num [tenth]), binary64_center_sub_tenth]
  have t1 : line.Evaluate (2476979795053773 / 2 ^ 52) tenth = 16212958658533787 / 2 ^ 55 := by
    norm_num [line, tenth, abs_of_pos]
  have l2 : line64 0 (1 + 1 / 2 ^ 52) = 4503599627370497 / 2 ^ 52 := by
    rw [line64_of_ge (by norm_num), sub_zero, binary64_one_add_ulp]
  have hd : binary64 (line64 0 (1 + 1 / 2 ^ 52) - 1) = 1 / 2 ^ 52 := by
    have h : (4503599627370497 / 2 ^ 52 - 1 : ℚ) = 1 / 2 ^ 52 := by norm_num
    rw [l2, h, binary64_ulp_one]
  have hr : (growStep binary64 binary64 line64 { radius := 1, center := 0 }
      (1 + 1 / 2 ^ 52)).radius = 1 := by
    have h : ((1 / 2) * (1 / 2 ^ 52) : ℚ) = 1 / 2 ^ 53 := by norm_num
    simp only [growStep]
    rw [hd, if_pos (by norm_num)]
    simp only
    rw [h, binary64_half_ulp_one, binary64_one_add_half_ulp]
  refine ⟨⟨?_, growStep_tenth, l1, t1, ?_⟩, ?_, ?_, hr, ?_⟩
  · rw [line64_one_tenth]
    norm_num
  · rw [growStep_tenth]
    simp only [Contains]
    rw [if_neg (by norm_num), l1]
    norm_num
  · rw [l2]
    norm_num
  · rw [hd]
    norm_num
  · rw [hr]
    norm_num

/-- Claim C26, amended.  With every operation rounded with unit roundoff `u < 1` by a
monotone rounding, a computed distance of relative error `g`, a bound with center `c` and
radius `r >= 0` that is a `double`, and a point `p` whose computed distance from `c` is more
than `r`: the growth step of `operator|=` moves the center to the rounded
`c + 0.5 * (p - c)` and sets the radius to the rounded `r + 0.5 * (dist(c, p) - r)`; the
computed distance from the new center to `p` exceeds the new radius by at most
`((1 + g) (1 + u)^3 - (1 - g) (1 - u)^3) * d / 2 + (1 + g) * u * n`, where `d` is the true
distance from `c` to `p` and `n` the true distance from `c` to the origin; and the new
radius is not smaller than `r`.  In exact arithmetic (`u = 0` and `g = 0`) the updated bound
`Contains` the point and its radius is strictly larger than `r`. -/
theorem growStep_covers_up_to_rounding (fl : K → K) (flV : V → V) (u : K)
    (dist : V → V → K) (m : EuclideanDistance K V) (g : K) (hfl : RoundsWithin fl u)
    (hu : u < 1) (hmono : Monotone fl) (hV : RoundsVectorsWithin flV m u)
    (hd : ComputesWithin dist m g) (b : BallBound K V) (p : V) (hr : 0 ≤ b.radius)
    (hrep : fl b.radius = b.radius) (hout : b.radius < dist b.center p) :
    growStep fl flV dist b p
      = { radius := fl (b.radius + fl ((1 / 2) * fl (dist b.center p - b.radius))),
          center := flV (b.center + flV ((1 / 2 : K) • flV (p - b.center))) } ∧
    dist (growStep fl flV dist b p).center p
      ≤ (growStep fl flV dist b p).radius
        + (((1 + g) * (1 + u) ^ 3 - (1 - g) * (1 - u) ^ 3) * (m.Evaluate b.center p / 2)
          + (1 + g) * u * m.Evaluate b.center 0) ∧
    b.radius ≤ (growStep fl flV dist b p).radius ∧
    (u = 0 → g = 0 →
      Contains dist (growStep fl flV dist b p) p = true ∧
      b.radius < (growStep fl flV dist b p).radius) := by
  have hu0 := hfl.1
  have hg0 := hd.1
  have hx : 0 < dist b.center p - b.radius := by linarith
  obtain ⟨a1, a2, a3⟩ := grown_radius_bounds fl u dist m g hfl hd b p hr hout
  have hpos : fl (dist b.center p - b.radius) > 0 :=
    lt_of_lt_of_le (mul_pos (by linarith) hx) a1
  have e : growStep fl flV dist b p
      = { radius := fl (b.radius + fl ((1 / 2) * fl (dist b.center p - b.radius))),
          center := flV (b.center + flV ((1 / 2 : K) • flV (p - b.center))) } := by
    simp only [growStep, if_pos hpos]
  have hc := grown_center_distance flV m u hu0 hV b.center p
  have hdc := (dist_bounds hd (flV (b.center + flV ((1 / 2 : K) • flV (p - b.center)))) p).2.1
  have hcover : dist (growStep fl flV dist b p).center p
      ≤ (growStep fl flV dist b p).radius
        + (((1 + g) * (1 + u) ^ 3 - (1 - g) * (1 - u) ^ 3) * (m.Evaluate b.center p / 2)
          + (1 + g) * u * m.Evaluate b.center 0) := by
    rw [e]
    simp only
    have k1 : (1 + g) * m.Evaluate (flV (b.center + flV ((1 / 2 : K) • flV (p - b.center)))) p
        ≤ (1 + g) * ((1 + u) ^ 3 * (m.Evaluate b.center p / 2) + u * m.Evaluate b.center 0) :=
      mul_le_mul_of_nonneg_left hc (by linarith)
    have e1 : (1 + g) * ((1 + u) ^ 3 * (m.Evaluate b.center p / 2) + u * m.Evaluate b.center 0)
        = (1 - u) ^ 3 * ((1 - g) * m.Evaluate b.center p / 2)
          + (((1 + g) * (1 + u) ^ 3 - (1 - g) * (1 - u) ^ 3) * (m.Evaluate b.center p / 2)
            + (1 + g) * u * m.Evaluate b.center 0) := by ring
    linarith
  have hrad : b.radius ≤ (growStep fl flV dist b p).radius := by
    rw [e]
    exact a3 hmono hrep
  refine ⟨e, hcover, hrad, ?_⟩
  intro hu00 hg00
  have hid : ∀ x, fl x = x := by
    intro x
    have := hfl.2.2 x
    rw [hu00, zero_mul] at this
    exact sub_eq_zero.mp (abs_eq_zero.mp (le_antisymm this (abs_nonneg _)))
  constructor
  · rw [computed_contains_iff]
    refine ⟨le_trans hr hrad, ?_⟩
    have := hcover
    rw [hu00, hg00] at this
    linarith
  · rw [e]
    simp only
    rw [hid, hid, hid]
    linarith

/-- Witness for C26: `double` arithmetic on the line, the bound with center `1.0` and radius
`0`, and the point `0.1`. -/
theorem growStep_covers_up_to_rounding_witness :
    RoundsWithin binary64 ((2 : ℚ) ^ (-53 : ℤ)) ∧ (2 : ℚ) ^ (-53 : ℤ) < 1 ∧
    Monotone binary64 ∧ RoundsVectorsWithin binary64 line ((2 : ℚ) ^ (-53 : ℤ)) ∧
    ComputesWithin line64 line ((2 : ℚ) ^ (-53 : ℤ)) ∧ binary64 0 = 0 ∧
    (0 : ℚ) < line64 1 tenth ∧
    line64 (growStep binary64 binary64 line64 { radius := 0, center := 1 } tenth).center tenth
      ≤ (growStep binary64 binary64 line64 { radius := 0, center := 1 } tenth).radius
        + (((1 + (2 : ℚ) ^ (-53 : ℤ)) * (1 + (2 : ℚ) ^ (-53 : ℤ)) ^ 3
            - (1 - (2 : ℚ) ^ (-53 : ℤ)) * (1 - (2 : ℚ) ^ (-53 : ℤ)) ^ 3)
            * (line.Evaluate 1 tenth / 2)
          + (1 + (2 : ℚ) ^ (-53 : ℤ)) * (2 : ℚ) ^ (-53 : ℤ) * line.Evaluate 1 0) ∧
    (0 : ℚ) ≤ (growStep binary64 binary64 line64 { radius := 0, center := 1 } tenth).radius :=
  have h1 : (2 : ℚ) ^ (-53 : ℤ) < 1 := by
    rw [zpow_neg]
    norm_num
  have h2 : (0 : ℚ) < line64 1 tenth := by
    rw [line64_one_tenth]
    norm_num
  have h := growStep_covers_up_to_rounding binary64 binary64 _ line64 line _
    binary64_roundsWithin h1 binary64_mono binary64_roundsVectorsWithin line64_computesWithin
    { radius := 0, center := 1 } tenth (le_refl 0) binary64_zero h2
  ⟨binary64_roundsWithin, h1, binary64_mono, binary64_roundsVectorsWithin,
    line64_computesWithin, binary64_zero, h2, h.2.1, h.2.2.1⟩

end rounded
end bound
end mips
